import Mathlib

/-! # api-go: slug generation and pagination

A shallow embedding of the slug generator (`models/post.go`,
`services/transform_service.go`) and of the pagination engine
(`services/pagination_service.go`, `utils/pagination.go`).

Go strings are modelled as `List Char`, the sequence of runes a `range` loop
sees.  A byte that is not valid UTF-8 is seen by Go as the rune U+FFFD, so a
list of runes covers every input string.
-/

namespace ApiGo

/-! ## Go standard library: `unicode` and `strings` -/

/-- The part of Go's `unicode` tables above ASCII: the lower-case mapping and
the Letter and Number categories.  These tables are data of the Go
distribution, taken here as a parameter. -/
structure UnicodeTables where
  toLower : Char → Char
  isLetter : Char → Bool
  isNumber : Char → Bool

/-- A table in which no rune above ASCII has case or is a letter or a number.
It only serves to evaluate the definitions on concrete inputs. -/
def plainTables : UnicodeTables where
  toLower := fun r => r
  isLetter := fun _ => false
  isNumber := fun _ => false

/-- Go `unicode.ToLower`: ASCII is handled inline, the rest by the tables. -/
def unicodeToLower (U : UnicodeTables) (r : Char) : Char :=
  if r.toNat ≤ 0x7F then
    if 'A'.toNat ≤ r.toNat ∧ r.toNat ≤ 'Z'.toNat then Char.ofNat (r.toNat + 32) else r
  else U.toLower r

/-- Go `unicode.IsLetter`; on ASCII the letters are `A-Z` and `a-z`. -/
def unicodeIsLetter (U : UnicodeTables) (r : Char) : Bool :=
  if r.toNat ≤ 0x7F then
    decide (('A'.toNat ≤ r.toNat ∧ r.toNat ≤ 'Z'.toNat) ∨ ('a'.toNat ≤ r.toNat ∧ r.toNat ≤ 'z'.toNat))
  else U.isLetter r

/-- Go `unicode.IsNumber`; on ASCII the numbers are `0-9`. -/
def unicodeIsNumber (U : UnicodeTables) (r : Char) : Bool :=
  if r.toNat ≤ 0x7F then decide ('0'.toNat ≤ r.toNat ∧ r.toNat ≤ '9'.toNat)
  else U.isNumber r

/-- Go `strings.ToLower`: every rune is mapped by `unicode.ToLower`. -/
def stringsToLower (U : UnicodeTables) (s : List Char) : List Char :=
  s.map (unicodeToLower U)

/-- Go `strings.Map`: a rune mapped to a negative value (`none`) is dropped. -/
def stringsMap (f : Char → Option Char) (s : List Char) : List Char :=
  s.filterMap f

/-- Scan of `strings.ReplaceAll` for a non-empty `old`: the first argument
counts the runes of a match that are still to be skipped. -/
def replaceScan (old new : List Char) : Nat → List Char → List Char
  | _, [] => []
  | skip + 1, _ :: cs => replaceScan old new skip cs
  | 0, c :: cs =>
      if old.isPrefixOf (c :: cs) then new ++ replaceScan old new (old.length - 1) cs
      else c :: replaceScan old new 0 cs

/-- Go `strings.ReplaceAll`: the non-overlapping matches of `old` are replaced
from left to right; an empty `old` matches before every rune and at the end. -/
def stringsReplaceAll (s old new : List Char) : List Char :=
  if old = [] then new ++ s.flatMap (fun c => c :: new)
  else replaceScan old new 0 s

/-- Go `strings.Contains`. -/
def stringsContains (s substr : List Char) : Bool :=
  decide (substr <:+: s)

/-- Go `strings.Trim`: leading and trailing runes of the cutset are removed. -/
def stringsTrim (s cutset : List Char) : List Char :=
  (s.dropWhile (fun r => decide (r ∈ cutset))).rdropWhile (fun r => decide (r ∈ cutset))

/-! ## `models/post.go` -/

/-- The substitution table `specialChars` of `generateSlug`. -/
def specialChars (r : Char) : Option (List Char) :=
  if r = 'á' then some ['a']
  else if r = 'é' then some ['e']
  else if r = 'í' then some ['i']
  else if r = 'ó' then some ['o']
  else if r = 'ú' then some ['u']
  else if r = 'ñ' then some ['n']
  else if r = 'ü' then some ['u']
  else if r = '&' then some ['a', 'n', 'd']
  else none

/-- One iteration of the `range` loop of `generateSlug` over the builder. -/
def slugWrite (U : UnicodeTables) (result : List Char) (r : Char) : List Char :=
  match specialChars r with
  | some replacement => result ++ replacement
  | none =>
      if unicodeIsLetter U r || unicodeIsNumber U r || r == ' ' then result ++ [r]
      else result

/-- The rune filter passed to `strings.Map` in `generateSlug`. -/
def slugKeep (r : Char) : Option Char :=
  if ('a'.toNat ≤ r.toNat ∧ r.toNat ≤ 'z'.toNat) ∨ ('0'.toNat ≤ r.toNat ∧ r.toNat ≤ '9'.toNat)
      ∨ r = '-' then some r
  else none

/-- The loop `for strings.Contains(slug, "--") { slug = strings.ReplaceAll(slug, "--", "-") }`,
run for at most the given number of iterations. -/
def collapseHyphens : Nat → List Char → List Char
  | 0, slug => slug
  | fuel + 1, slug =>
      if stringsContains slug ['-', '-'] then
        collapseHyphens fuel (stringsReplaceAll slug ['-', '-'] ['-'])
      else slug

/-- The function `generateSlug` of `models/post.go`.  Every iteration of the
hyphen loop shortens the slug, so its length bounds the number of iterations. -/
def generateSlug (U : UnicodeTables) (title : List Char) : List Char :=
  let slug := stringsToLower U title
  let result := slug.foldl (slugWrite U) []
  let slug := stringsReplaceAll result [' '] ['-']
  let slug := stringsMap slugKeep slug
  let slug := collapseHyphens slug.length slug
  stringsTrim slug ['-']

/-- Go `strconv.Itoa`: the decimal text of an integer. -/
def strconvItoa (i : Int) : List Char :=
  if i < 0 then '-' :: Nat.toDigits 10 i.natAbs else Nat.toDigits 10 i.toNat

/-- The fields of `Post` that the hooks read or write, and the soft-delete
mark that hides a row from every query. -/
structure Post where
  ID : Nat
  Title : List Char
  Slug : List Char
  Content : List Char
  AuthorID : Nat
  Deleted : Bool
deriving DecidableEq, Repr

/-- The query `tx.Model(&Post{}).Where("slug = ?", slug).Count(&count)` on the
rows of the posts table. -/
def countSlug (tx : List Post) (slug : List Char) : Nat :=
  (tx.filter (fun row => !row.Deleted && decide (row.Slug = slug))).length

/-- The probe loop of `Post.BeforeCreate`, run for at most the given number of
iterations.  The state is `slug` and `counter`; the last component counts the
`Count` queries made.  The counter is a Go `int` that grows by one per query
and is modelled unbounded. -/
def beforeCreateLoop (tx : List Post) (baseSlug : List Char) :
    Nat → List Char → Nat → Nat → Option (List Char × Nat)
  | 0, _, _, _ => none
  | fuel + 1, slug, counter, probes =>
      if countSlug tx slug = 0 then some (slug, probes + 1)
      else beforeCreateLoop tx baseSlug fuel (baseSlug ++ ['-'] ++ strconvItoa counter)
        (counter + 1) (probes + 1)

/-- The hook `Post.BeforeCreate`; `none` when the loop is still running after
`fuel` iterations.  The hook always returns a nil error. -/
def Post.BeforeCreate (U : UnicodeTables) (p : Post) (tx : List Post) (fuel : Nat) :
    Option Post :=
  if p.Slug = [] then
    (beforeCreateLoop tx (generateSlug U p.Title) fuel (generateSlug U p.Title) 1 0).map
      (fun r => { p with Slug := r.1 })
  else some p

/-! ## `services/transform_service.go` -/

/-- The fields of `TransformService`; `slugRegex` is always `[^a-z0-9]+`. -/
structure TransformService where
  dateFormat : List Char
  slugSeparator : List Char

/-- The constructor `NewTransformService`. -/
def NewTransformService : TransformService where
  dateFormat := "2006-01-02T15:04:05.0000000-07:00".toList
  slugSeparator := ['-']

/-- A rune matched by the class `[^a-z0-9]` of `slugRegex`. -/
def slugRegexClass (r : Char) : Bool :=
  !decide (('a'.toNat ≤ r.toNat ∧ r.toNat ≤ 'z'.toNat) ∨ ('0'.toNat ≤ r.toNat ∧ r.toNat ≤ '9'.toNat))

/-- The call `slugRegex.ReplaceAllString(text, repl)` for `[^a-z0-9]+`: every
maximal run of matched runes becomes `repl`.  The flag tells that the previous
rune was matched.  `repl` is written as it stands, which is what Go does for a
replacement without `$`. -/
def slugRegexReplaceAll (repl : List Char) : Bool → List Char → List Char
  | _, [] => []
  | inRun, r :: rs =>
      if slugRegexClass r then
        (if inRun then [] else repl) ++ slugRegexReplaceAll repl true rs
      else r :: slugRegexReplaceAll repl false rs

/-- The method `TransformService.GenerateSlug`. -/
def TransformService.GenerateSlug (s : TransformService) (U : UnicodeTables)
    (text : List Char) : List Char :=
  let text := stringsToLower U text
  let text := slugRegexReplaceAll s.slugSeparator false text
  stringsTrim text s.slugSeparator

/-- The loop of `TransformService.GenerateUniqueSlug`, run for at most the
given number of iterations.  The state is `slug` and `counter`; the last
component counts the calls of `existingSlug`.  The counter is a Go `int` that
grows by one per call and is modelled unbounded. -/
def generateUniqueSlugLoop (s : TransformService) (existingSlug : List Char → Bool)
    (baseSlug : List Char) : Nat → List Char → Nat → Nat → Option (List Char × Nat)
  | 0, _, _, _ => none
  | fuel + 1, slug, counter, probes =>
      if existingSlug slug then
        generateUniqueSlugLoop s existingSlug baseSlug fuel
          (baseSlug ++ s.slugSeparator ++ strconvItoa counter) (counter + 1) (probes + 1)
      else some (slug, probes + 1)

/-- The method `TransformService.GenerateUniqueSlug`; `none` when the loop is
still running after `fuel` iterations. -/
def TransformService.GenerateUniqueSlug (s : TransformService) (U : UnicodeTables)
    (text : List Char) (existingSlug : List Char → Bool) (fuel : Nat) : Option (List Char) :=
  (generateUniqueSlugLoop s existingSlug (s.GenerateSlug U text) fuel (s.GenerateSlug U text)
    1 0).map Prod.fst

/-- The candidates of the specification: `b`, then `b-1`, `b-2`, … -/
def slugCandidate (b : List Char) (k : Nat) : List Char :=
  if k = 0 then b else b ++ ['-'] ++ strconvItoa k

/-- The candidates for a separator other than the hyphen. -/
def candidateWith (sep b : List Char) (k : Nat) : List Char :=
  if k = 0 then b else b ++ sep ++ strconvItoa k

/-- The alphabet `[a-z0-9-]` of a slug. -/
def IsSlugChar (c : Char) : Prop :=
  ('a'.toNat ≤ c.toNat ∧ c.toNat ≤ 'z'.toNat) ∨ ('0'.toNat ≤ c.toNat ∧ c.toNat ≤ '9'.toNat)
    ∨ c = '-'

instance (c : Char) : Decidable (IsSlugChar c) := by
  unfold IsSlugChar
  infer_instance

/-- The substitution table as the specification words it: á→a, é→e, í→i,
ó→o, ú→u, ñ→n, ü→u, &→and; every other rune stands for itself. -/
def specSubstitution (r : Char) : List Char :=
  if r = 'á' then ['a']
  else if r = 'é' then ['e']
  else if r = 'í' then ['i']
  else if r = 'ó' then ['o']
  else if r = 'ú' then ['u']
  else if r = 'ñ' then ['n']
  else if r = 'ü' then ['u']
  else if r = '&' then ['a', 'n', 'd']
  else [r]

/-- The lowercased title with the substitutions of the specification applied. -/
def substituteSpecials (U : UnicodeTables) (title : List Char) : List Char :=
  (stringsToLower U title).flatMap specSubstitution

/-- What one iteration of the `range` loop of `generateSlug` writes. -/
def slugEmit (U : UnicodeTables) (r : Char) : List Char :=
  match specialChars r with
  | some replacement => replacement
  | none => if unicodeIsLetter U r || unicodeIsNumber U r || r == ' ' then [r] else []

/-- The steps of `generateSlug` after the `range` loop. -/
def slugFinish (result : List Char) : List Char :=
  let slug := stringsReplaceAll result [' '] ['-']
  let slug := stringsMap slugKeep slug
  let slug := collapseHyphens slug.length slug
  stringsTrim slug ['-']

/-! ## Go numbers: `strconv.Atoi`, `int` and `float64` -/

/-- The digit loop of `strconv.ParseUint` in base 10 with a 64-bit result:
`none` is a syntax error, `some none` a range error, met in this order from
left to right. -/
def parseUintDigits : List Char → Nat → Option (Option Nat)
  | [], n => some (some n)
  | c :: cs, n =>
      if '0'.toNat ≤ c.toNat ∧ c.toNat ≤ '9'.toNat then
        if 2 ^ 64 ≤ n * 10 + (c.toNat - '0'.toNat) then some none
        else parseUintDigits cs (n * 10 + (c.toNat - '0'.toNat))
      else none

/-- Go `strconv.Atoi` for a 64-bit `int`: the value and whether the error is
nil.  A syntax error gives 0, a range error the nearest bound of `int`. -/
def strconvAtoi (s : List Char) : Int × Bool :=
  let neg := s.head? = some '-'
  let digits := if s.head? = some '-' ∨ s.head? = some '+' then s.tail else s
  if digits = [] then (0, false)
  else
    match parseUintDigits digits 0 with
    | none => (0, false)
    | some none => (if neg then -(2 ^ 63) else 2 ^ 63 - 1, false)
    | some (some un) =>
        if ¬ neg ∧ 2 ^ 63 ≤ un then (2 ^ 63 - 1, false)
        else if neg ∧ 2 ^ 63 < un then (-(2 ^ 63), false)
        else (if neg then -(un : Int) else (un : Int), true)

/-- The value of a 64-bit `int` expression whose exact value is `x`. -/
def wrapInt64 (x : Int) : Int :=
  (x + 2 ^ 63) % 2 ^ 64 - 2 ^ 63

namespace Int64Counter

/-- The loop of `TransformService.GenerateUniqueSlug` with `counter` as the
64-bit `int` that it is: `counter++` wraps from `2^63 - 1` to `-2^63`.  It is
run for at most the given number of iterations; the last component counts the
calls of `existingSlug`. -/
def generateUniqueSlugLoop (s : TransformService) (existingSlug : List Char → Bool)
    (baseSlug : List Char) : Nat → List Char → Int → Nat → Option (List Char × Nat)
  | 0, _, _, _ => none
  | fuel + 1, slug, counter, probes =>
      if existingSlug slug then
        generateUniqueSlugLoop s existingSlug baseSlug fuel
          (baseSlug ++ s.slugSeparator ++ strconvItoa counter) (wrapInt64 (counter + 1))
          (probes + 1)
      else some (slug, probes + 1)

/-- The method `TransformService.GenerateUniqueSlug` with the 64-bit counter;
`none` when the loop is still running after `fuel` iterations. -/
def GenerateUniqueSlug (s : TransformService) (U : UnicodeTables) (text : List Char)
    (existingSlug : List Char → Bool) (fuel : Nat) : Option (List Char) :=
  (generateUniqueSlugLoop s existingSlug (s.GenerateSlug U text) fuel (s.GenerateSlug U text)
    1 0).map Prod.fst

/-- The loop of `Post.BeforeCreate` with `counter` as the 64-bit `int` that it
is; the last component counts the `Count` queries. -/
def beforeCreateLoop (tx : List Post) (baseSlug : List Char) :
    Nat → List Char → Int → Nat → Option (List Char × Nat)
  | 0, _, _, _ => none
  | fuel + 1, slug, counter, probes =>
      if countSlug tx slug = 0 then some (slug, probes + 1)
      else beforeCreateLoop tx baseSlug fuel (baseSlug ++ ['-'] ++ strconvItoa counter)
        (wrapInt64 (counter + 1)) (probes + 1)

/-- The hook `Post.BeforeCreate` with the 64-bit counter; `none` when the loop
is still running after `fuel` iterations. -/
def BeforeCreate (U : UnicodeTables) (p : Post) (tx : List Post) (fuel : Nat) :
    Option Post :=
  if p.Slug = [] then
    (beforeCreateLoop tx (generateSlug U p.Title) fuel (generateSlug U p.Title) 1 0).map
      (fun r => { p with Slug := r.1 })
  else some p

end Int64Counter

/-- Rounding to the nearest integer, ties to the even one. -/
def roundHalfEven (q : ℚ) : ℤ :=
  if q - ⌊q⌋ < 1 / 2 then ⌊q⌋
  else if 1 / 2 < q - ⌊q⌋ then ⌊q⌋ + 1
  else if ⌊q⌋ % 2 = 0 then ⌊q⌋ else ⌊q⌋ + 1

/-- The `float64` nearest to a rational: 53 significant bits, ties to even.
Exponent range is not modelled; every quotient of two 64-bit integers is far
inside the normal range. -/
def roundToFloat64 (x : ℚ) : ℚ :=
  if x = 0 then 0
  else roundHalfEven (x / 2 ^ (Int.log 2 |x| - 52)) * 2 ^ (Int.log 2 |x| - 52)

/-- The values of a `float64`; the two zeros are not told apart. -/
inductive Float64 where
  | finite (v : ℚ)
  | posInf
  | negInf
  | nan

/-- The conversion `float64(n)` of an integer. -/
def float64OfInt (n : Int) : Float64 :=
  Float64.finite (roundToFloat64 n)

/-- The quotient `a / b` of two `float64`.  Only finite operands occur. -/
def Float64.div : Float64 → Float64 → Float64
  | Float64.finite a, Float64.finite b =>
      if b = 0 then (if a = 0 then Float64.nan else if 0 < a then Float64.posInf
        else Float64.negInf)
      else Float64.finite (roundToFloat64 (a / b))
  | _, _ => Float64.nan

/-- Go `math.Ceil`. -/
def mathCeil : Float64 → Float64
  | Float64.finite v => Float64.finite ⌈v⌉
  | x => x

/-- The conversion `int(f)`: the fraction is discarded; when the result does
not fit a 64-bit `int`, or `f` is not finite, Go leaves the value to the
implementation, here `impl`. -/
def intOfFloat64 (impl : Float64 → Int) : Float64 → Int
  | Float64.finite v =>
      if -(2 ^ 63 : ℚ) ≤ v ∧ v < 2 ^ 63 then (if 0 ≤ v then ⌊v⌋ else ⌈v⌉)
      else impl (Float64.finite v)
  | x => impl x

/-! ## The request and the query builder -/

/-- One entry of `url.Values`: a key and its values, of which there is at
least one. -/
structure QueryParam where
  key : List Char
  values : List (List Char)
  nonempty : values ≠ []

/-- The call `c.Query(key)` of gin: the first value of the key, or the empty
string. -/
def ginQuery (query : List QueryParam) (key : List Char) : List Char :=
  match query.find? (fun kv => decide (kv.key = key)) with
  | some kv => kv.values.headD []
  | none => []

/-- An argument bound to a `?` of a condition: a string, or a slice of
strings. -/
inductive SqlArg where
  | str (s : List Char)
  | strs (l : List (List Char))
deriving DecidableEq, Repr

/-- The clauses collected by a `*gorm.DB` query builder.  `limit` and `offset`
are the fields `Limit *int` and `Offset int` of the clause `clause.Limit` of
the statement; `offset = none` tells that the statement has no such clause
yet. -/
structure GormDB where
  wheres : List (List Char × List SqlArg)
  orders : List (List Char)
  offset : Option Int
  limit : Option Int
deriving DecidableEq, Repr

/-- The call `Statement.AddClause(clause.Limit{Limit: newLimit, Offset: newOffset})`
of the library gorm, which runs the method `MergeClause` of `clause.Limit`:
with a clause already in the statement, a nil or zero limit gives way to the
limit of that clause, a zero offset gives way to a positive offset of that
clause, and a negative offset becomes 0; without one the new clause is stored
as it is. -/
def GormDB.addLimitClause (db : GormDB) (newLimit : Option Int) (newOffset : Int) : GormDB :=
  match db.offset with
  | none => { db with limit := newLimit, offset := some newOffset }
  | some oldOffset =>
      let mergedLimit :=
        if (newLimit = none ∨ newLimit = some 0) ∧ db.limit ≠ none then db.limit else newLimit
      let mergedOffset :=
        if newOffset = 0 ∧ oldOffset > 0 then oldOffset
        else if newOffset < 0 then 0
        else newOffset
      { db with limit := mergedLimit, offset := some mergedOffset }

/-- The call `db.Offset(n)`, which adds `clause.Limit{Offset: n}`. -/
def GormDB.Offset (db : GormDB) (n : Int) : GormDB :=
  db.addLimitClause none n

/-- The call `db.Limit(n)`, which adds `clause.Limit{Limit: &n}`. -/
def GormDB.Limit (db : GormDB) (n : Int) : GormDB :=
  db.addLimitClause (some n) 0

/-- The `LIMIT` that the method `Build` of `clause.Limit` writes into the SQL
statement: the limit of the clause when it is set and not negative. -/
def GormDB.sqlLimit (db : GormDB) : Option Int :=
  match db.limit with
  | some n => if 0 ≤ n then some n else none
  | none => none

/-- The `OFFSET` that the method `Build` of `clause.Limit` writes into the SQL
statement: the offset of the clause when it is positive. -/
def GormDB.sqlOffset (db : GormDB) : Option Int :=
  match db.offset with
  | some n => if 0 < n then some n else none
  | none => none

/-! ## `services/pagination_service.go` -/

namespace services

/-- The struct `Pagination`. -/
structure Pagination where
  Limit : Int
  Page : Int
  TotalRows : Int
  TotalPages : Int
deriving DecidableEq, Repr

/-- The struct `PaginationLinks`. -/
structure PaginationLinks where
  First : List Char
  Last : List Char
  Prev : List Char
  Next : List Char
deriving DecidableEq, Repr

/-- The body of the `range` loop of `GeneratePaginationFromRequest` on the
pair `(limit, page)`. -/
def paginationStep (acc : Int × Int) (kv : QueryParam) : Int × Int :=
  let queryValue := kv.values.getLast kv.nonempty
  if kv.key = "limit".toList then ((strconvAtoi queryValue).1, acc.2)
  else if kv.key = "page".toList then (acc.1, (strconvAtoi queryValue).1)
  else acc

/-- The function `GeneratePaginationFromRequest`; `query` lists the entries of
`c.Request.URL.Query()` in the order the `range` loop visits them. -/
def GeneratePaginationFromRequest (query : List QueryParam) : Pagination :=
  let r := query.foldl paginationStep (10, 1)
  { Limit := r.1, Page := r.2, TotalRows := 0, TotalPages := 0 }

/-- The function `Paginate`.  `totalRows` is the result of the `Count` query;
the pair returned is the updated `*pagination` and the scope. -/
def Paginate (impl : Float64 → Int) (totalRows : Int) (pagination : Pagination) :
    Pagination × (GormDB → GormDB) :=
  let totalPages := intOfFloat64 impl
    (mathCeil ((float64OfInt totalRows).div (float64OfInt pagination.Limit)))
  let pagination := { pagination with TotalRows := totalRows, TotalPages := totalPages }
  (pagination, fun db =>
    (db.Offset (wrapInt64 (wrapInt64 (pagination.Page - 1) * pagination.Limit))).Limit
      pagination.Limit)

/-- The function `BuildPaginationLinks`.  Under their guards `currentPage - 1`
and `currentPage + 1` do not overflow. -/
def BuildPaginationLinks (baseURL : List Char) (currentPage totalPages : Int) :
    PaginationLinks :=
  let links : PaginationLinks :=
    { First := baseURL ++ "?page=1".toList
      Last := baseURL ++ "?page=".toList ++ strconvItoa totalPages
      Prev := []
      Next := [] }
  let links :=
    if currentPage > 1 then
      { links with Prev := baseURL ++ "?page=".toList ++ strconvItoa (currentPage - 1) }
    else links
  let links :=
    if currentPage < totalPages then
      { links with Next := baseURL ++ "?page=".toList ++ strconvItoa (currentPage + 1) }
    else links
  links

end services

/-! ## `utils/pagination.go` -/

namespace utils

/-- The struct `Pagination`, without the untyped `Rows`; `Sort_` is its field
`Sort`. -/
structure Pagination where
  Limit : Int
  Page : Int
  Sort_ : List Char
  TotalRows : Int
  TotalPages : Int
deriving DecidableEq, Repr

/-- The function `GeneratePaginationFromRequest` of package `utils`. -/
def GeneratePaginationFromRequest (query : List QueryParam) : Pagination :=
  let limit : Int :=
    if ginQuery query "limit".toList ≠ [] then
      (if (strconvAtoi (ginQuery query "limit".toList)).1 > 0 then
        (strconvAtoi (ginQuery query "limit".toList)).1 else 10)
    else 10
  let page : Int :=
    if ginQuery query "page".toList ≠ [] then
      (if (strconvAtoi (ginQuery query "page".toList)).1 > 0 then
        (strconvAtoi (ginQuery query "page".toList)).1 else 1)
    else 1
  let sort := if ginQuery query "sort".toList = [] then "created_at desc".toList
    else ginQuery query "sort".toList
  { Limit := limit, Page := page, Sort_ := sort, TotalRows := 0, TotalPages := 0 }

end utils

/-! ## `services/search_service.go` -/

/-- Scan of `strings.Split` for a non-empty separator: the runes of a match
still to be skipped, the segment being read, and the rest of the string. -/
def splitScan (sep : List Char) : Nat → List Char → List Char → List (List Char)
  | _, cur, [] => [cur]
  | skip + 1, cur, _ :: cs => splitScan sep skip cur cs
  | 0, cur, c :: cs =>
      if sep.isPrefixOf (c :: cs) then cur :: splitScan sep (sep.length - 1) [] cs
      else splitScan sep 0 (cur ++ [c]) cs

/-- Go `strings.Split`: the segments between the non-overlapping matches of
`sep`, found from left to right; an empty `sep` splits after every rune. -/
def stringsSplit (s sep : List Char) : List (List Char) :=
  if sep = [] then s.map (fun c => [c]) else splitScan sep 0 [] s

/-- The call `c.QueryArray(key)` of gin: every value of the key. -/
def ginQueryArray (query : List QueryParam) (key : List Char) : List (List Char) :=
  match query.find? (fun kv => decide (kv.key = key)) with
  | some kv => kv.values
  | none => []

/-- A Go `map[string]string`, as the list of its entries. -/
abbrev StringMap := List (List Char × List Char)

/-- The index expression `m[key]`: the empty string for a missing key. -/
def mapGet (m : StringMap) (key : List Char) : List Char :=
  (m.lookup key).getD []

/-- The call `db.Where(query, args...)`. -/
def GormDB.Where (db : GormDB) (query : List Char) (args : List SqlArg) : GormDB :=
  { db with wheres := db.wheres ++ [(query, args)] }

/-- The call `db.Order(value)`. -/
def GormDB.Order (db : GormDB) (value : List Char) : GormDB :=
  { db with orders := db.orders ++ [value] }

namespace services

/-- One iteration of the loop of `ExtractSearchParams`. -/
def extractSearchStep (filters : List StringMap) (s : List Char) : List StringMap :=
  let parts := stringsSplit s [':']
  if parts.length = 3 then
    filters ++ [[("field".toList, parts.getD 0 []), ("operator".toList, parts.getD 1 []),
      ("value".toList, parts.getD 2 [])]]
  else filters

/-- The loop of `ExtractSearchParams` over the values of `search`. -/
def extractSearchLoop (search : List (List Char)) : List StringMap :=
  search.foldl extractSearchStep []

/-- The function `ExtractSearchParams`. -/
def ExtractSearchParams (query : List QueryParam) : List StringMap :=
  extractSearchLoop (ginQueryArray query "search".toList)

/-- The function `ExtractSortParams`. -/
def ExtractSortParams (U : UnicodeTables) (query : List QueryParam) : StringMap :=
  let sortParam := ginQuery query "sort".toList
  if sortParam ≠ [] then
    let parts := stringsSplit sortParam [':']
    if parts.length = 2 then
      let field := parts.getD 0 []
      let direction := stringsToLower U (parts.getD 1 [])
      if direction = "asc".toList ∨ direction = "desc".toList then [(field, direction)]
      else []
    else []
  else []

/-- The body of the loop of `ApplySearchFilters`: the `switch` on the
operator. -/
def applySearchFilter (db : GormDB) (filter : StringMap) : GormDB :=
  let field := mapGet filter "field".toList
  let operator := mapGet filter "operator".toList
  let value := mapGet filter "value".toList
  if operator = "eq".toList then db.Where (field ++ " = ?".toList) [SqlArg.str value]
  else if operator = "ne".toList then db.Where (field ++ " != ?".toList) [SqlArg.str value]
  else if operator = "like".toList then
    db.Where (field ++ " LIKE ?".toList) [SqlArg.str ("%".toList ++ value ++ "%".toList)]
  else if operator = "nlike".toList then
    db.Where (field ++ " NOT LIKE ?".toList) [SqlArg.str ("%".toList ++ value ++ "%".toList)]
  else if operator = "in".toList then
    db.Where (field ++ " IN ?".toList) [SqlArg.strs (stringsSplit value [','])]
  else if operator = "nin".toList then
    db.Where (field ++ " NOT IN ?".toList) [SqlArg.strs (stringsSplit value [','])]
  else if operator = "gt".toList then db.Where (field ++ " > ?".toList) [SqlArg.str value]
  else if operator = "gte".toList then db.Where (field ++ " >= ?".toList) [SqlArg.str value]
  else if operator = "lt".toList then db.Where (field ++ " < ?".toList) [SqlArg.str value]
  else if operator = "lte".toList then db.Where (field ++ " <= ?".toList) [SqlArg.str value]
  else db

/-- The function `ApplySearchFilters`. -/
def ApplySearchFilters (db : GormDB) (filters : List StringMap) : GormDB :=
  filters.foldl applySearchFilter db

/-- The function `ApplySorting`; the entries of `sort` are in the order the
`range` loop visits them. -/
def ApplySorting (db : GormDB) (sort : StringMap) : GormDB :=
  sort.foldl (fun db entry => db.Order (entry.1 ++ " ".toList ++ entry.2)) db

end services

/-! ## `services/metadata_service.go`, `services/response_service.go` -/

namespace services

/-- The struct `SearchField`; `Type_` is its field `Type`. -/
structure SearchField where
  Name : List Char
  Type_ : List Char
  Description : List Char
  Operators : List (List Char)
deriving DecidableEq, Repr

/-- The struct `SortField`. -/
structure SortField where
  Name : List Char
  Description : List Char
deriving DecidableEq, Repr

/-- The struct `MetadataResponse`. -/
structure MetadataResponse where
  AllowedSearch : List SearchField
  AllowedSort : List SortField
  AppliedSearch : List StringMap
  AppliedSort : StringMap
deriving DecidableEq, Repr

/-- The function `BuildMetadataResponse`. -/
def BuildMetadataResponse (searchFields : List SearchField) (sortFields : List SortField)
    (appliedSearch : List StringMap) (appliedSort : StringMap) : MetadataResponse :=
  { AllowedSearch := searchFields
    AllowedSort := sortFields
    AppliedSearch := appliedSearch
    AppliedSort := appliedSort }

/-- The struct `PaginationResponse`. -/
structure PaginationResponse where
  CurrentPage : Int
  PerPage : Int
  TotalItems : Int
  TotalPages : Int
  Links : PaginationLinks
deriving DecidableEq, Repr

/-- The function `BuildPaginationResponse`; `path` is `c.Request.URL.Path`. -/
def BuildPaginationResponse (path : List Char) (page limit totalRows totalPages : Int) :
    PaginationResponse :=
  { CurrentPage := page
    PerPage := limit
    TotalItems := totalRows
    TotalPages := totalPages
    Links := BuildPaginationLinks path page totalPages }

/-- The struct `APIResponse`.  `Metadata` and `Pagination` are pointers with
`omitempty`: `none` is the nil pointer, for which the JSON key is absent. -/
structure APIResponse (α : Type) where
  Data : α
  Metadata : Option MetadataResponse
  Pagination : Option PaginationResponse

/-- The function `isTrue`; `getenv` is `os.Getenv`, which gives the empty
string for a variable that is not set. -/
def isTrue (U : UnicodeTables) (getenv : List Char → List Char) (envVar : List Char) : Bool :=
  decide (stringsToLower U (getenv envVar) = "true".toList)

/-- The function `BuildAPIResponse`. -/
def BuildAPIResponse {α : Type} (U : UnicodeTables) (getenv : List Char → List Char)
    (data : α) (metadata : MetadataResponse) (pagination : PaginationResponse) :
    APIResponse α :=
  let response : APIResponse α := { Data := data, Metadata := none, Pagination := none }
  let response :=
    if isTrue U getenv "SHOW_METADATA".toList then { response with Metadata := some metadata }
    else response
  let response :=
    if isTrue U getenv "SHOW_PAGINATION".toList then
      { response with Pagination := some pagination }
    else response
  response

end services

/-! ## `controllers/post_controller.go`: `GetPosts` -/

/-- What the database answers to a built query: the row count of `Count` and
the rows of `Find`.  Database errors are not modelled. -/
structure DBExec where
  count : GormDB → Int
  find : GormDB → List Post

/-- The handle `config.DB`, which carries no clause. -/
def configDB : GormDB :=
  { wheres := [], orders := [], offset := none, limit := none }

namespace controllers

/-- The search fields that `GetPosts` declares. -/
def postSearchFields : List services.SearchField :=
  [ { Name := "title".toList, Type_ := "string".toList,
      Description := "Título del post".toList,
      Operators := ["eq".toList, "like".toList, "nlike".toList] },
    { Name := "slug".toList, Type_ := "string".toList,
      Description := "Slug del post".toList,
      Operators := ["eq".toList] },
    { Name := "created_at".toList, Type_ := "date".toList,
      Description := "Fecha de creación".toList,
      Operators := ["gt".toList, "gte".toList, "lt".toList, "lte".toList] } ]

/-- The sort fields that `GetPosts` declares. -/
def postSortFields : List services.SortField :=
  [ { Name := "title".toList, Description := "Ordenar por título".toList },
    { Name := "created_at".toList, Description := "Ordenar por fecha de creación".toList } ]

/-- The query that `GetPosts` builds before it paginates. -/
def GetPostsQuery (U : UnicodeTables) (query : List QueryParam) : GormDB :=
  let searchFilters := services.ExtractSearchParams query
  let sortParams := services.ExtractSortParams U query
  let db := configDB
  let db := services.ApplySearchFilters db searchFilters
  services.ApplySorting db sortParams

/-- The metadata that `GetPosts` builds. -/
def GetPostsMetadata (U : UnicodeTables) (query : List QueryParam) :
    services.MetadataResponse :=
  services.BuildMetadataResponse postSearchFields postSortFields
    (services.ExtractSearchParams query) (services.ExtractSortParams U query)

/-- The handler `GetPosts` when the database raises no error: the status and
the body of the response. -/
def GetPosts (U : UnicodeTables) (impl : Float64 → Int) (getenv : List Char → List Char)
    (exec : DBExec) (path : List Char) (query : List QueryParam) :
    Nat × services.APIResponse (List Post) :=
  let pagination := services.GeneratePaginationFromRequest query
  let db := GetPostsQuery U query
  let paginated := services.Paginate impl (exec.count db) pagination
  let posts := exec.find (paginated.2 db)
  let pagination := paginated.1
  let paginationResponse := services.BuildPaginationResponse path pagination.Page
    pagination.Limit pagination.TotalRows pagination.TotalPages
  let metadataResponse := GetPostsMetadata U query
  (200, services.BuildAPIResponse U getenv posts metadataResponse paginationResponse)

end controllers

/-! ## `TransformService.ValidateSlug` -/

/-- A regular expression for a character class: one of the listed runes. -/
def regexClass (l : List Char) : RegularExpression Char :=
  l.foldr (fun c r => RegularExpression.char c + r) 0

/-- A regular expression for a literal string, as `regexp.QuoteMeta` gives. -/
def regexLiteral (l : List Char) : RegularExpression Char :=
  l.foldr (fun c r => RegularExpression.char c * r) 1

/-- The runes of the class `[a-z0-9]`. -/
def alnumRunes : List Char :=
  (List.range 26).map (fun i => Char.ofNat (97 + i))
    ++ (List.range 10).map (fun i => Char.ofNat (48 + i))

/-- The pattern `^[a-z0-9]+(?:SEP[a-z0-9]+)*$` of `ValidateSlug`, where `SEP`
is the quoted separator; the anchors make it a match of the whole string. -/
def validSlugRegex (sep : List Char) : RegularExpression Char :=
  (regexClass alnumRunes * RegularExpression.star (regexClass alnumRunes))
    * RegularExpression.star
        (regexLiteral sep
          * (regexClass alnumRunes * RegularExpression.star (regexClass alnumRunes)))

/-- The method `TransformService.ValidateSlug`. -/
def TransformService.ValidateSlug (s : TransformService) (slug : List Char) : Bool :=
  (validSlugRegex s.slugSeparator).rmatch slug

/-- A rune of `[a-z0-9]`. -/
def IsAlnum (c : Char) : Prop :=
  (97 ≤ c.toNat ∧ c.toNat ≤ 122) ∨ (48 ≤ c.toNat ∧ c.toNat ≤ 57)

instance (c : Char) : Decidable (IsAlnum c) := by
  unfold IsAlnum
  infer_instance

/-- The automaton of the pattern `[a-z0-9]+(-[a-z0-9]+)*`; the flag tells that
the previous rune was of `[a-z0-9]`. -/
def slugShapeFrom : Bool → List Char → Bool
  | prev, [] => prev
  | prev, c :: cs =>
      if IsAlnum c then slugShapeFrom true cs
      else if c = '-' ∧ prev = true then slugShapeFrom false cs
      else false

/-! ## `services/error_service.go` -/

namespace services

/-- The struct `APIError`; `Internal` is the text of the wrapped error. -/
structure APIError where
  Status : Nat
  Code : List Char
  Message : List Char
  Detail : List Char
  Internal : Option (List Char)
deriving DecidableEq, Repr

/-- The function `NewAPIError`. -/
def NewAPIError (status : Nat) (code message detail : List Char)
    (internal : Option (List Char)) : APIError :=
  { Status := status, Code := code, Message := message, Detail := detail,
    Internal := internal }

/-- The constructor `ErrInvalidInput`. -/
def ErrInvalidInput (detail : List Char) : APIError :=
  NewAPIError 400 "INVALID_INPUT".toList "Los datos proporcionados no son válidos".toList
    detail none

/-- The constructor `ErrNotFound`. -/
def ErrNotFound (resource : List Char) : APIError :=
  NewAPIError 404 "NOT_FOUND".toList (resource ++ " no encontrado".toList) [] none

end services

/-! ## `controllers/post_controller.go`: `UpdatePost` -/

/-- The query `Where("slug = ? AND id != ?", slug, id).Count(&count)` on the
rows of the posts table. -/
def countSlugOther (tx : List Post) (slug : List Char) (id : Nat) : Nat :=
  (tx.filter (fun row => !row.Deleted && decide (row.Slug = slug)
    && decide (row.ID ≠ id))).length

/-- The query `Where("slug = ?", slug).First(&post)`; the rows of `tx` are in
primary-key order. -/
def firstBySlug (tx : List Post) (slug : List Char) : Option Post :=
  tx.find? (fun row => !row.Deleted && decide (row.Slug = slug))

/-- The query `tx.First(&oldPost, id)`. -/
def firstByID (tx : List Post) (id : Nat) : Option Post :=
  tx.find? (fun row => !row.Deleted && decide (row.ID = id))

namespace controllers

/-- The struct `UpdatePostInput`. -/
structure UpdatePostInput where
  Title : List Char
  Content : List Char
  Slug : List Char
deriving DecidableEq, Repr

/-- How `UpdatePost` ends: with the error it answers, or with the call
`Model(&post).Updates(updates)`, whose effect is not modelled. -/
inductive UpdatePostResult where
  | failed (err : services.APIError)
  | updated (post : Post) (updates : StringMap)
deriving DecidableEq, Repr

/-- The handler `UpdatePost` when the database raises no error; `slug` is the
path parameter and `body` the result of `c.ShouldBindJSON`. -/
def UpdatePost (tx : List Post) (slug : List Char)
    (body : Except (List Char) UpdatePostInput) : UpdatePostResult :=
  match firstBySlug tx slug with
  | none => UpdatePostResult.failed (services.ErrNotFound "Post".toList)
  | some post =>
    match body with
    | Except.error msg => UpdatePostResult.failed (services.ErrInvalidInput msg)
    | Except.ok input =>
      let updates : StringMap := []
      let updates :=
        if input.Title ≠ [] then updates ++ [("title".toList, input.Title)] else updates
      let updates :=
        if input.Content ≠ [] then updates ++ [("content".toList, input.Content)]
        else updates
      if input.Slug ≠ [] then
        if ¬ NewTransformService.ValidateSlug input.Slug = true then
          UpdatePostResult.failed (services.ErrInvalidInput "Slug inválido".toList)
        else if countSlugOther tx input.Slug post.ID > 0 then
          UpdatePostResult.failed (services.ErrInvalidInput "Slug ya existe".toList)
        else UpdatePostResult.updated post (updates ++ [("slug".toList, input.Slug)])
      else UpdatePostResult.updated post updates

end controllers

/-! ## `models/post.go`: `BeforeUpdate` -/

/-- The probe loop of `Post.BeforeUpdate`, run for at most the given number of
iterations; as in `beforeCreateLoop` the last component counts the queries. -/
def beforeUpdateLoop (tx : List Post) (id : Nat) (baseSlug : List Char) :
    Nat → List Char → Nat → Nat → Option (List Char × Nat)
  | 0, _, _, _ => none
  | fuel + 1, slug, counter, probes =>
      if countSlugOther tx slug id = 0 then some (slug, probes + 1)
      else beforeUpdateLoop tx id baseSlug fuel (baseSlug ++ ['-'] ++ strconvItoa counter)
        (counter + 1) (probes + 1)

/-- The hook `Post.BeforeUpdate`: `none` when the loop is still running after
`fuel` iterations, an error when `tx.First` finds no row, and otherwise the
post as the hook leaves it. -/
def Post.BeforeUpdate (U : UnicodeTables) (p : Post) (tx : List Post) (fuel : Nat) :
    Option (Except (List Char) Post) :=
  match firstByID tx p.ID with
  | none => some (Except.error "record not found".toList)
  | some oldPost =>
    if oldPost.Title ≠ p.Title ∧ p.Slug = oldPost.Slug then
      (beforeUpdateLoop tx p.ID (generateSlug U p.Title) fuel (generateSlug U p.Title) 1 0).map
        (fun r => Except.ok { p with Slug := r.1 })
    else some (Except.ok p)

/-! ## `utils/jwt.go`, `middleware/auth.go` -/

/-- A value of type `interface{}` held by a claim or a context key. -/
inductive AnyValue where
  | null
  | str (s : List Char)
  | number (v : ℚ)
  | uint (n : Nat)
deriving DecidableEq

/-- The type `jwt.MapClaims`, as the list of its entries. -/
abbrev MapClaims := List (List Char × AnyValue)

/-- The index expression `claims[key]`: nil for a missing key. -/
def claimGet (claims : MapClaims) (key : List Char) : AnyValue :=
  (claims.lookup key).getD AnyValue.null

/-- What `jwt.Parse` returns without error: the claims, when they are
`MapClaims`, and the flag `Valid`. -/
structure JwtToken where
  Claims : Option MapClaims
  Valid : Bool

namespace utils

/-- The function `ValidateToken`; `jwtParse` is `jwt.Parse` with the key
function of the source, a function of the library `golang-jwt`. -/
def ValidateToken (jwtParse : List Char → Except (List Char) JwtToken)
    (tokenString : List Char) : Except (List Char) MapClaims :=
  match jwtParse tokenString with
  | Except.error err => Except.error err
  | Except.ok token =>
    match token.Claims with
    | some claims =>
        if token.Valid then Except.ok claims else Except.error "token inválido".toList
    | none => Except.error "token inválido".toList

end utils

/-- The call `c.Set(key, value)` on the keys of a gin context. -/
def ginSet (keys : List (List Char × AnyValue)) (key : List Char) (value : AnyValue) :
    List (List Char × AnyValue) :=
  (key, value) :: keys.filter (fun e => decide (e.1 ≠ key))

namespace middleware

/-- How a middleware ends: `c.JSON(status, gin.H{"error": message})` followed
by `c.Abort()`, or `c.Next()` with the keys of the context. -/
inductive Outcome where
  | abort (status : Nat) (message : List Char)
  | next (keys : List (List Char × AnyValue))

/-- The handler returned by `AuthMiddleware`; `authHeader` is
`c.GetHeader("Authorization")`, empty when the header is missing. -/
def AuthMiddleware (jwtParse : List Char → Except (List Char) JwtToken)
    (authHeader : List Char) (keys : List (List Char × AnyValue)) : Outcome :=
  if authHeader = [] then Outcome.abort 401 "Authorization header is required".toList
  else
    let parts := stringsSplit authHeader [' ']
    if parts.length ≠ 2 ∨ parts.getD 0 [] ≠ "Bearer".toList then
      Outcome.abort 401 "Authorization header must be in the format: Bearer \x7btoken\x7d".toList
    else
      match utils.ValidateToken jwtParse (parts.getD 1 []) with
      | Except.error err => Outcome.abort 401 err
      | Except.ok claims =>
        let keys := ginSet keys "user_id".toList (claimGet claims "id".toList)
        let keys := ginSet keys "user_role".toList (claimGet claims "role".toList)
        Outcome.next keys

end middleware

/-- A route of the group `protected` of `SetupPostRoutes`: the handler runs
after `AuthMiddleware`, unless the middleware aborts, in which case the
response is the one the middleware wrote. -/
def protectedRoute {β : Type} (jwtParse : List Char → Except (List Char) JwtToken)
    (handler : List (List Char × AnyValue) → β) (authHeader : List Char)
    (keys : List (List Char × AnyValue)) : Except (Nat × List Char) β :=
  match middleware.AuthMiddleware jwtParse authHeader keys with
  | middleware.Outcome.abort status message => Except.error (status, message)
  | middleware.Outcome.next keys => Except.ok (handler keys)

/-- The operators of a search directive in the specification. -/
def searchOperators : List (List Char) :=
  ["eq".toList, "ne".toList, "like".toList, "nlike".toList, "in".toList, "nin".toList,
    "gt".toList, "gte".toList, "lt".toList, "lte".toList]

/-- The directive `{field, operator, value}` as `ExtractSearchParams` builds
it. -/
def searchDirective (field operator value : List Char) : StringMap :=
  [("field".toList, field), ("operator".toList, operator), ("value".toList, value)]

/-- The token `a:b:c`. -/
def searchToken (a b c : List Char) : List Char :=
  a ++ ':' :: (b ++ ':' :: c)

/-- The condition of a directive as the specification lists them, operator by
operator; `none` for an operator that is not recognised. -/
def specCondition (field operator value : List Char) : Option (List Char × List SqlArg) :=
  if operator = "eq".toList then some (field ++ " = ?".toList, [SqlArg.str value])
  else if operator = "ne".toList then some (field ++ " != ?".toList, [SqlArg.str value])
  else if operator = "like".toList then
    some (field ++ " LIKE ?".toList, [SqlArg.str ('%' :: (value ++ ['%']))])
  else if operator = "nlike".toList then
    some (field ++ " NOT LIKE ?".toList, [SqlArg.str ('%' :: (value ++ ['%']))])
  else if operator = "in".toList then
    some (field ++ " IN ?".toList, [SqlArg.strs (stringsSplit value [','])])
  else if operator = "nin".toList then
    some (field ++ " NOT IN ?".toList, [SqlArg.strs (stringsSplit value [','])])
  else if operator = "gt".toList then some (field ++ " > ?".toList, [SqlArg.str value])
  else if operator = "gte".toList then some (field ++ " >= ?".toList, [SqlArg.str value])
  else if operator = "lt".toList then some (field ++ " < ?".toList, [SqlArg.str value])
  else if operator = "lte".toList then some (field ++ " <= ?".toList, [SqlArg.str value])
  else none

/-- The condition that the specification gives for a directive held as a
map. -/
def directiveCondition (d : StringMap) : Option (List Char × List SqlArg) :=
  specCondition (mapGet d "field".toList) (mapGet d "operator".toList)
    (mapGet d "value".toList)

/-- A directive is within the allow-list that `GetPosts` declares: its field
is a declared search field and its operator one of that field's operators. -/
def postAllows (d : StringMap) : Prop :=
  ∃ f ∈ controllers.postSearchFields,
    f.Name = mapGet d "field".toList ∧ mapGet d "operator".toList ∈ f.Operators

instance (d : StringMap) : Decidable (postAllows d) := by
  unfold postAllows
  infer_instance

/-! ## `RoleMiddleware`, `CreatePost`, `ErrorResponse` -/

/-- The call `c.Get(key)` on the keys of a gin context. -/
def ginGet (keys : List (List Char × AnyValue)) (key : List Char) : Option AnyValue :=
  keys.lookup key

namespace middleware

/-- The handler returned by `RoleMiddleware(roles...)`. -/
def RoleMiddleware (roles : List (List Char)) (keys : List (List Char × AnyValue)) : Outcome :=
  match ginGet keys "user_role".toList with
  | none => Outcome.abort 401 "User role not found in context".toList
  | some userRole =>
    match userRole with
    | AnyValue.str roleStr =>
        if roles.any (fun role => decide (roleStr = role)) then Outcome.next keys
        else Outcome.abort 403 "Insufficient permissions".toList
    | _ => Outcome.abort 401 "User role is not a string".toList

end middleware

/-- The route `DELETE /users/:id` of `SetupUserRoutes`: `AuthMiddleware` of
the group, then `RoleMiddleware("admin")`, then the handler `DeleteUser`. -/
def deleteUserRoute {β : Type} (jwtParse : List Char → Except (List Char) JwtToken)
    (handler : List (List Char × AnyValue) → β) (authHeader : List Char)
    (keys : List (List Char × AnyValue)) : Except (Nat × List Char) β :=
  match middleware.AuthMiddleware jwtParse authHeader keys with
  | middleware.Outcome.abort status message => Except.error (status, message)
  | middleware.Outcome.next keys =>
    match middleware.RoleMiddleware ["admin".toList] keys with
    | middleware.Outcome.abort status message => Except.error (status, message)
    | middleware.Outcome.next keys => Except.ok (handler keys)

/-- The ordering term `field direction` of a sort directive. -/
def sortTerm (entry : List Char × List Char) : List Char :=
  entry.1 ++ " ".toList ++ entry.2

namespace controllers

/-- The struct `CreatePostInput`. -/
structure CreatePostInput where
  Title : List Char
  Content : List Char
  Slug : List Char
deriving DecidableEq, Repr

/-- How `CreatePost` ends: with the error it answers, with the panic of the
type assertion `userId.(uint)`, or with status 201 and the post created. -/
inductive CreatePostResult where
  | failed (err : services.APIError)
  | panicked
  | created (post : Post)
deriving DecidableEq, Repr

/-- The handler `CreatePost` when the database raises no error; `keys` are the
keys of the context, `body` the result of `c.ShouldBindJSON`, and `none` means
that the hook `BeforeCreate` run by `Create` is still looping after `fuel`
iterations.  The ID given by the database is not modelled. -/
def CreatePost (U : UnicodeTables) (tx : List Post) (fuel : Nat)
    (keys : List (List Char × AnyValue)) (body : Except (List Char) CreatePostInput) :
    Option CreatePostResult :=
  match body with
  | Except.error msg => some (CreatePostResult.failed (services.ErrInvalidInput msg))
  | Except.ok input =>
    match ginGet keys "userId".toList with
    | none => some (CreatePostResult.failed
        (services.ErrInvalidInput "No se encontró el ID del usuario".toList))
    | some userId =>
      match userId with
      | AnyValue.uint n =>
          (Post.BeforeCreate U
            { ID := 0, Title := input.Title, Slug := input.Slug, Content := input.Content,
              AuthorID := n, Deleted := false } tx fuel).map CreatePostResult.created
      | _ => some CreatePostResult.panicked

end controllers

/-- A value of the interface `error`: an `*APIError`, or any other error with
its text. -/
inductive GoError where
  | api (e : services.APIError)
  | other (text : List Char)
deriving DecidableEq, Repr

namespace services

/-- The constructor `ErrInternal`. -/
def ErrInternal (err : List Char) : APIError :=
  NewAPIError 500 "INTERNAL_ERROR".toList "Error interno del servidor".toList [] (some err)

/-- The function `ErrorResponse`: the status, and the map under the key
`error` of the body. -/
def ErrorResponse (err : GoError) : Nat × StringMap :=
  match err with
  | GoError.api apiErr =>
      let response : StringMap :=
        [("code".toList, apiErr.Code), ("message".toList, apiErr.Message)]
      let response :=
        if apiErr.Detail ≠ [] then response ++ [("detail".toList, apiErr.Detail)]
        else response
      (apiErr.Status, response)
  | GoError.other text =>
      ((ErrInternal text).Status,
        [("code".toList, (ErrInternal text).Code),
         ("message".toList, (ErrInternal text).Message)])

end services

/-! ## Auxiliary notions for the slug and pagination comparisons -/

/-- A rune that is an ASCII letter, an ASCII digit or a space. -/
def IsPlain (c : Char) : Prop :=
  (65 ≤ c.toNat ∧ c.toNat ≤ 90) ∨ (97 ≤ c.toNat ∧ c.toNat ≤ 122)
    ∨ (48 ≤ c.toNat ∧ c.toNat ≤ 57) ∨ c = ' '

instance (c : Char) : Decidable (IsPlain c) := by
  unfold IsPlain
  infer_instance

/-- Every run of hyphens cut down to one hyphen; the flag tells that the
previous rune was a hyphen. -/
def squeezeHyphens : Bool → List Char → List Char
  | _, [] => []
  | inRun, c :: cs =>
      if c = '-' then (if inRun then [] else ['-']) ++ squeezeHyphens true cs
      else c :: squeezeHyphens false cs

/-- The number that a string of decimal digits writes. -/
def decimalValue : List Char → Nat
  | [] => 0
  | c :: cs => (c.toNat - 48) * 10 ^ cs.length + decimalValue cs

/-! ## Lemmas on the string functions -/

theorem replaceScan_nil (old new : List Char) (k : Nat) : replaceScan old new k [] = [] := by
  cases k <;> rfl

theorem replaceScan_skip (old new : List Char) (k : Nat) (s : List Char) :
    replaceScan old new k s = replaceScan old new 0 (s.drop k) := by
  induction s generalizing k with
  | nil => simp [replaceScan_nil]
  | cons c cs ih =>
    cases k with
    | zero => rfl
    | succ k => simpa [replaceScan] using ih k

theorem replaceScan_zero_cons (old new : List Char) (c : Char) (cs : List Char) :
    replaceScan old new 0 (c :: cs) =
      if old <+: c :: cs then new ++ replaceScan old new 0 (cs.drop (old.length - 1))
      else c :: replaceScan old new 0 cs := by
  rw [replaceScan]
  by_cases h : old <+: c :: cs
  · rw [if_pos h, if_pos ( List.isPrefixOf_iff_prefix.2 h), replaceScan_skip]
  · rw [if_neg h, if_neg (fun h' => h ( List.isPrefixOf_iff_prefix.1 h'))]

theorem mem_replaceScan (old new : List Char) (k : Nat) (s : List Char) (c : Char)
    (h : c ∈ replaceScan old new k s) : c ∈ s ∨ c ∈ new := by
  induction s generalizing k with
  | nil => simp [replaceScan_nil] at h
  | cons a cs ih =>
    cases k with
    | succ k =>
      rw [replaceScan] at h
      rcases ih k h with h' | h'
      · exact Or.inl (List.mem_cons_of_mem _ h')
      · exact Or.inr h'
    | zero =>
      rw [replaceScan] at h
      split at h
      · rcases List.mem_append.1 h with h' | h'
        · exact Or.inr h'
        · rcases ih _ h' with h'' | h''
          · exact Or.inl (List.mem_cons_of_mem _ h'')
          · exact Or.inr h''
      · rcases List.mem_cons.1 h with h' | h'
        · exact Or.inl (h' ▸ List.mem_cons_self _ _)
        · rcases ih _ h' with h'' | h''
          · exact Or.inl (List.mem_cons_of_mem _ h'')
          · exact Or.inr h''

theorem replaceScan_hyphens_cons (a : Char) (cs : List Char) :
    replaceScan ['-', '-'] ['-'] 0 (a :: cs) =
      if List.isPrefixOf ['-', '-'] (a :: cs) then '-' :: replaceScan ['-', '-'] ['-'] 1 cs
      else a :: replaceScan ['-', '-'] ['-'] 0 cs := by
  rw [replaceScan]; rfl

/-- Replacing `--` by `-` never lengthens a string. -/
theorem length_replaceScan_hyphens (k : Nat) (s : List Char) :
    (replaceScan ['-', '-'] ['-'] k s).length ≤ s.length - k := by
  induction s generalizing k with
  | nil => simp [replaceScan_nil]
  | cons a cs ih =>
    cases k with
    | succ k =>
      rw [replaceScan]
      have := ih k
      simp only [List.length_cons]
      omega
    | zero =>
      rw [replaceScan_hyphens_cons]
      split
      · have := ih 1
        simp only [List.length_cons] at this ⊢
        omega
      · have := ih 0
        simp only [List.length_cons] at this ⊢
        omega

/-- Replacing `--` by `-` shortens a string that contains `--`. -/
theorem length_replaceScan_hyphens_lt (s : List Char) (h : ['-', '-'] <:+: s) :
    (replaceScan ['-', '-'] ['-'] 0 s).length < s.length := by
  induction s with
  | nil => simp at h
  | cons a cs ih =>
    rw [replaceScan_hyphens_cons]
    split
    · rename_i hp
      have hle := ( List.isPrefixOf_iff_prefix.1 hp).length_le
      have := length_replaceScan_hyphens 1 cs
      simp only [List.length_cons, List.length_nil] at this hle ⊢
      omega
    · rename_i hp
      rcases List.infix_cons_iff.1 h with h' | h'
      · exact absurd ( List.isPrefixOf_iff_prefix.2 h') hp
      · have := ih h'
        simp only [List.length_cons]
        omega

theorem stringsReplaceAll_hyphens (s : List Char) :
    stringsReplaceAll s ['-', '-'] ['-'] = replaceScan ['-', '-'] ['-'] 0 s := by
  simp [stringsReplaceAll]

/-- With fuel at least the length of the slug, the hyphen loop ends because its
condition is false: the result has no `--`. -/
theorem collapseHyphens_no_double (fuel : Nat) (s : List Char) (h : s.length ≤ fuel) :
    ¬ ['-', '-'] <:+: collapseHyphens fuel s := by
  induction fuel generalizing s with
  | zero =>
    have : s = [] := List.length_eq_zero.1 (Nat.le_zero.1 h)
    subst this
    simp [collapseHyphens]
  | succ fuel ih =>
    rw [collapseHyphens]
    split
    · rename_i hc
      have hc' : ['-', '-'] <:+: s := by simpa [stringsContains] using hc
      have := length_replaceScan_hyphens_lt s hc'
      apply ih
      rw [stringsReplaceAll_hyphens]
      omega
    · rename_i hc
      simpa [stringsContains] using hc

/-- More fuel than the length of the slug does not change the result of the
hyphen loop. -/
theorem collapseHyphens_fuel (fuel : Nat) (s : List Char) (h : s.length ≤ fuel) :
    collapseHyphens fuel s = collapseHyphens s.length s := by
  induction fuel using Nat.strong_induction_on generalizing s with
  | _ fuel ih =>
    by_cases hc : stringsContains s ['-', '-'] = true
    · have hc' : ['-', '-'] <:+: s := by simpa [stringsContains] using hc
      have hlt := length_replaceScan_hyphens_lt s hc'
      obtain ⟨n, hn⟩ : ∃ n, s.length = n + 1 := ⟨s.length - 1, by omega⟩
      obtain ⟨m, hm⟩ : ∃ m, fuel = m + 1 := ⟨fuel - 1, by omega⟩
      rw [hn, hm, collapseHyphens, collapseHyphens, if_pos hc, if_pos hc]
      rw [stringsReplaceAll_hyphens]
      rw [ih m (by omega) _ (by omega), ih n (by omega) _ (by omega)]
    · cases fuel with
      | zero =>
        have : s = [] := List.length_eq_zero.1 (Nat.le_zero.1 h)
        subst this
        rfl
      | succ m =>
        rw [collapseHyphens, if_neg hc]
        cases hs : s.length with
        | zero => rfl
        | succ n => rw [collapseHyphens, if_neg hc]

theorem mem_collapseHyphens (fuel : Nat) (s : List Char) (c : Char)
    (h : c ∈ collapseHyphens fuel s) : c ∈ s ∨ c = '-' := by
  induction fuel generalizing s with
  | zero => exact Or.inl h
  | succ fuel ih =>
    rw [collapseHyphens] at h
    split at h
    · rcases ih _ h with h' | h'
      · rw [stringsReplaceAll_hyphens] at h'
        rcases mem_replaceScan _ _ _ _ _ h' with h'' | h''
        · exact Or.inl h''
        · exact Or.inr (by simpa using h'')
      · exact Or.inr h'
    · exact Or.inl h

theorem stringsTrim_infix_self (s cutset : List Char) : stringsTrim s cutset <:+: s :=
  ( List.rdropWhile_prefix _ _).isInfix.trans (List.dropWhile_suffix _).isInfix

theorem stringsTrim_head (s cutset : List Char) (c : Char)
    (h : (stringsTrim s cutset).head? = some c) : c ∉ cutset := by
  obtain ⟨t, ht⟩ := List.head?_eq_some_iff.1 h
  have hpre : stringsTrim s cutset <+: s.dropWhile (fun r => decide (r ∈ cutset)) :=
    List.rdropWhile_prefix _ _
  rw [ht] at hpre
  obtain ⟨u, hu⟩ := hpre
  have hnot := List.head?_dropWhile_not (fun r => decide (r ∈ cutset)) s
  rw [← hu] at hnot
  simpa using hnot

theorem stringsTrim_getLast (s cutset : List Char) (c : Char)
    (h : (stringsTrim s cutset).getLast? = some c) : c ∉ cutset := by
  have hne : stringsTrim s cutset ≠ [] := by
    intro h0
    rw [h0] at h
    simp at h
  have hnot := List.rdropWhile_last_not (fun r => decide (r ∈ cutset))
    (s.dropWhile (fun r => decide (r ∈ cutset))) hne
  have hl : (stringsTrim s cutset).getLast hne = c := by
    rw [List.getLast?_eq_getLast _ hne] at h
    exact Option.some.inj h
  have hl' : (List.rdropWhile (fun r => decide (r ∈ cutset))
      (s.dropWhile (fun r => decide (r ∈ cutset)))).getLast hne = c := hl
  rw [hl'] at hnot
  simpa using hnot

theorem mem_stringsMap_slugKeep (s : List Char) (c : Char)
    (h : c ∈ stringsMap slugKeep s) : IsSlugChar c := by
  obtain ⟨a, _, ha⟩ := List.mem_filterMap.1 h
  unfold slugKeep at ha
  split at ha
  · rename_i hk
    cases ha
    exact hk
  · cases ha

/-! ## Properties of `generateSlug` -/

theorem mem_generateSlug (U : UnicodeTables) (title : List Char) (c : Char)
    (hc : c ∈ generateSlug U title) : IsSlugChar c := by
  have h1 := (stringsTrim_infix_self _ _).subset hc
  rcases mem_collapseHyphens _ _ _ h1 with h2 | h2
  · exact mem_stringsMap_slugKeep _ _ h2
  · exact Or.inr (Or.inr h2)

/-- C1: for every title, `generateSlug title` contains only characters of
`[a-z0-9-]`, neither starts nor ends with a hyphen, and does not contain the
substring `--`. -/
theorem generateSlug_wellformed (U : UnicodeTables) (title : List Char) :
    (∀ c ∈ generateSlug U title, IsSlugChar c)
      ∧ (generateSlug U title).head? ≠ some '-'
      ∧ (generateSlug U title).getLast? ≠ some '-'
      ∧ ¬ ['-', '-'] <:+: generateSlug U title := by
  refine ⟨?_, ?_, ?_, ?_⟩
  · exact mem_generateSlug U title
  · intro h
    exact stringsTrim_head _ _ _ h (List.mem_singleton_self _)
  · intro h
    exact stringsTrim_getLast _ _ _ h (List.mem_singleton_self _)
  · intro h
    exact collapseHyphens_no_double _ _ (Nat.le_refl _) (h.trans (stringsTrim_infix_self _ _))

theorem slugWrite_eq (U : UnicodeTables) (result : List Char) (r : Char) :
    slugWrite U result r = result ++ slugEmit U r := by
  unfold slugWrite slugEmit
  cases specialChars r with
  | some rep => rfl
  | none =>
    dsimp only
    split <;> simp

theorem foldl_slugWrite (U : UnicodeTables) (s acc : List Char) :
    s.foldl (slugWrite U) acc = acc ++ s.flatMap (slugEmit U) := by
  induction s generalizing acc with
  | nil => simp
  | cons r rs ih => simp [ih, slugWrite_eq, List.append_assoc]

theorem generateSlug_eq (U : UnicodeTables) (title : List Char) :
    generateSlug U title = slugFinish ((stringsToLower U title).flatMap (slugEmit U)) := by
  unfold generateSlug slugFinish
  simp only [foldl_slugWrite, List.nil_append]

/-- On a rune that lowercasing leaves alone, substituting, lowercasing again
and running the loop body writes what the loop body writes on the rune. -/
theorem slugEmit_substitution (U : UnicodeTables) (r : Char) (hr : unicodeToLower U r = r) :
    (stringsToLower U (specSubstitution r)).flatMap (slugEmit U) = slugEmit U r := by
  unfold specSubstitution
  split_ifs with h1 h2 h3 h4 h5 h6 h7 h8
  · subst h1; rfl
  · subst h2; rfl
  · subst h3; rfl
  · subst h4; rfl
  · subst h5; rfl
  · subst h6; rfl
  · subst h7; rfl
  · subst h8; rfl
  · simp [stringsToLower, hr]

theorem toNat_ofNat_of_lt (n : Nat) (h : n < 0xd800) : (Char.ofNat n).toNat = n := by
  have hv : n.isValidChar := Or.inl h
  unfold Char.ofNat
  rw [dif_pos hv]
  rfl

theorem plainTables_toLower_idem (r : Char) :
    unicodeToLower plainTables (unicodeToLower plainTables r) = unicodeToLower plainTables r := by
  unfold unicodeToLower
  by_cases h1 : r.toNat ≤ 0x7F
  · by_cases h2 : 'A'.toNat ≤ r.toNat ∧ r.toNat ≤ 'Z'.toNat
    · have hA : 'A'.toNat = 65 := rfl
      have hZ : 'Z'.toNat = 90 := rfl
      rw [hA, hZ] at h2
      have h3 : (Char.ofNat (r.toNat + 32)).toNat = r.toNat + 32 :=
        toNat_ofNat_of_lt _ (by omega)
      simp only [h1, h2, hA, hZ, h3, if_true, and_self]
      rw [if_pos (by omega), if_neg (by omega)]
    · simp only [h1, h2, if_true, if_false]
  · simp only [h1, if_false, plainTables]

theorem plainTables_special (r : Char) (h : specialChars r ≠ none) :
    unicodeToLower plainTables r = r := by
  unfold specialChars at h
  split_ifs at h with h1 h2 h3 h4 h5 h6 h7 h8
  · subst h1; rfl
  · subst h2; rfl
  · subst h3; rfl
  · subst h4; rfl
  · subst h5; rfl
  · subst h6; rfl
  · subst h7; rfl
  · subst h8; rfl
  · exact absurd rfl h

/-- C2: `generateSlug` replaces, and does not drop, the runes á, é, í, ó, ú, ñ,
ü and &: the slug of a title is the slug of the lowercased title in which they
are written a, e, i, o, u, n, u and "and", each of these runes alone has its
replacement as slug, and `generateSlug("Café & Niño")` is `cafe-and-nino`.
The two hypotheses are facts of Go's `unicode.ToLower`: it is idempotent, and
it leaves the runes of the table, which are lower case, unchanged. -/
theorem generateSlug_substitutes (U : UnicodeTables)
    (hidem : ∀ r, unicodeToLower U (unicodeToLower U r) = unicodeToLower U r)
    (hspecial : ∀ r, specialChars r ≠ none → unicodeToLower U r = r)
    (title : List Char) :
    generateSlug U title = generateSlug U (substituteSpecials U title)
      ∧ (∀ r replacement, specialChars r = some replacement →
          generateSlug U [r] = replacement)
      ∧ generateSlug U "Café & Niño".toList = "cafe-and-nino".toList := by
  refine ⟨?_, ?_, ?_⟩
  · rw [generateSlug_eq, generateSlug_eq]
    congr 1
    unfold substituteSpecials
    have hchar : ∀ r ∈ stringsToLower U title,
        (stringsToLower U (specSubstitution r)).flatMap (slugEmit U) = slugEmit U r := by
      intro r hr
      obtain ⟨a, _, ha⟩ := List.mem_map.1 hr
      exact slugEmit_substitution U r (by rw [← ha]; exact hidem a)
    generalize stringsToLower U title = l at hchar
    induction l with
    | nil => rfl
    | cons r rs ih =>
      have h1 := hchar r (List.mem_cons_self _ _)
      have h2 := ih (fun x hx => hchar x (List.mem_cons_of_mem _ hx))
      simp only [stringsToLower, List.flatMap_cons, List.map_append, List.flatMap_append]
        at h1 h2 ⊢
      rw [h1, ← h2]
  · intro r replacement hr
    have hl : stringsToLower U [r] = [r] := by
      simp [stringsToLower, hspecial r (by simp [hr])]
    rw [generateSlug_eq, hl]
    unfold specialChars at hr
    split_ifs at hr with h1 h2 h3 h4 h5 h6 h7 h8
    · subst h1; cases hr; rfl
    · subst h2; cases hr; rfl
    · subst h3; cases hr; rfl
    · subst h4; cases hr; rfl
    · subst h5; cases hr; rfl
    · subst h6; cases hr; rfl
    · subst h7; cases hr; rfl
    · subst h8; cases hr; rfl
  · have he : unicodeToLower U 'é' = 'é' := hspecial _ (by decide)
    have hn : unicodeToLower U 'ñ' = 'ñ' := hspecial _ (by decide)
    have hl : stringsToLower U "Café & Niño".toList = "café & niño".toList := by
      show [unicodeToLower U 'C', unicodeToLower U 'a', unicodeToLower U 'f',
        unicodeToLower U 'é', unicodeToLower U ' ', unicodeToLower U '&',
        unicodeToLower U ' ', unicodeToLower U 'N', unicodeToLower U 'i',
        unicodeToLower U 'ñ', unicodeToLower U 'o'] = _
      rw [he, hn]
      rfl
    rw [generateSlug_eq, hl]
    rfl

/-- Witness of C2 on the title `Café & Niño`. -/
theorem generateSlug_substitutes_witness :
    generateSlug plainTables "Café & Niño".toList
        = generateSlug plainTables (substituteSpecials plainTables "Café & Niño".toList)
      ∧ (∀ r replacement, specialChars r = some replacement →
          generateSlug plainTables [r] = replacement)
      ∧ generateSlug plainTables "Café & Niño".toList = "cafe-and-nino".toList :=
  generateSlug_substitutes plainTables plainTables_toLower_idem plainTables_special
    "Café & Niño".toList

/-! ### Second application of `generateSlug` -/

theorem replaceScan_singleton_of_not_mem (a : Char) (new s : List Char) (h : a ∉ s) :
    replaceScan [a] new 0 s = s := by
  induction s with
  | nil => rfl
  | cons c cs ih =>
    have hc : a ≠ c := fun e => h (e ▸ List.mem_cons_self _ _)
    have hcs : a ∉ cs := fun e => h (List.mem_cons_of_mem _ e)
    rw [replaceScan, if_neg (by simpa [List.isPrefixOf] using hc), ih hcs]

theorem stringsMap_slugKeep_of_slugChars (s : List Char) (h : ∀ c ∈ s, IsSlugChar c) :
    stringsMap slugKeep s = s := by
  induction s with
  | nil => rfl
  | cons c cs ih =>
    have hc : slugKeep c = some c := if_pos (h c (List.mem_cons_self _ _))
    have := ih (fun x hx => h x (List.mem_cons_of_mem _ hx))
    unfold stringsMap at this ⊢
    rw [List.filterMap_cons, hc, this]

theorem collapseHyphens_of_no_double (fuel : Nat) (s : List Char) (h : ¬ ['-', '-'] <:+: s) :
    collapseHyphens fuel s = s := by
  cases fuel with
  | zero => rfl
  | succ n => rw [collapseHyphens, if_neg (by simpa [stringsContains] using h)]

theorem dropWhile_of_forall_false (p : Char → Bool) (s : List Char)
    (h : ∀ c ∈ s, p c = false) : s.dropWhile p = s := by
  cases s with
  | nil => rfl
  | cons c cs => rw [List.dropWhile_cons, h c (List.mem_cons_self _ _)]; rfl

theorem stringsTrim_of_not_mem (s cutset : List Char) (h : ∀ c ∈ s, c ∉ cutset) :
    stringsTrim s cutset = s := by
  have hp : ∀ c ∈ s, (fun r => decide (r ∈ cutset)) c = false := by
    intro c hc
    simpa using h c hc
  unfold stringsTrim
  rw [dropWhile_of_forall_false _ _ hp, List.rdropWhile,
    dropWhile_of_forall_false _ _ (fun c hc => hp c (List.mem_reverse.1 hc)),
    List.reverse_reverse]

theorem IsSlugChar.toNat_cases {c : Char} (h : IsSlugChar c) :
    (97 ≤ c.toNat ∧ c.toNat ≤ 122) ∨ (48 ≤ c.toNat ∧ c.toNat ≤ 57) ∨ c.toNat = 45 := by
  rcases h with h | h | h
  · exact Or.inl h
  · exact Or.inr (Or.inl h)
  · exact Or.inr (Or.inr (h ▸ rfl))

theorem unicodeToLower_slugChar (U : UnicodeTables) (c : Char) (h : IsSlugChar c) :
    unicodeToLower U c = c := by
  have hA : 'A'.toNat = 65 := rfl
  have hZ : 'Z'.toNat = 90 := rfl
  have h' := h.toNat_cases
  unfold unicodeToLower
  rw [hA, hZ, if_pos (by omega), if_neg (by omega)]

theorem specialChars_ascii (c : Char) (h : c.toNat ≤ 0x7F) (hamp : c ≠ '&') :
    specialChars c = none := by
  unfold specialChars
  split_ifs with h1 h2 h3 h4 h5 h6 h7
  · subst h1; exact absurd h (by decide)
  · subst h2; exact absurd h (by decide)
  · subst h3; exact absurd h (by decide)
  · subst h4; exact absurd h (by decide)
  · subst h5; exact absurd h (by decide)
  · subst h6; exact absurd h (by decide)
  · subst h7; exact absurd h (by decide)
  · rfl

/-- On a rune of `[a-z0-9-]` the loop body of `generateSlug` writes the rune,
except the hyphen, which it drops. -/
theorem slugEmit_slugChar (U : UnicodeTables) (c : Char) (h : IsSlugChar c) :
    slugEmit U c = if c = '-' then [] else [c] := by
  by_cases hc : c = '-'
  · subst hc; rfl
  · have ha : 'a'.toNat = 97 := rfl
    have hz : 'z'.toNat = 122 := rfl
    have h0 : '0'.toNat = 48 := rfl
    have h9 : '9'.toNat = 57 := rfl
    have hA : 'A'.toNat = 65 := rfl
    have hZ : 'Z'.toNat = 90 := rfl
    have hamp : c ≠ '&' := by
      intro e
      subst e
      revert h
      decide
    have h' := h.toNat_cases
    have h45 : c.toNat ≠ 45 := by
      intro e
      apply hc
      rw [← Char.ofNat_toNat c, e]
    have hascii : c.toNat ≤ 0x7F := by omega
    have hln : (unicodeIsLetter U c || unicodeIsNumber U c) = true := by
      unfold unicodeIsLetter unicodeIsNumber
      rw [if_pos hascii, if_pos hascii, ha, hz, h0, h9, hA, hZ, Bool.or_eq_true,
        decide_eq_true_eq, decide_eq_true_eq]
      omega
    unfold slugEmit
    rw [specialChars_ascii c hascii hamp, if_neg hc]
    dsimp only
    rw [hln, Bool.true_or, if_pos rfl]

/-- The slug of a string over `[a-z0-9-]` is the string without its hyphens. -/
theorem generateSlug_of_slugChars (U : UnicodeTables) (y : List Char)
    (h : ∀ c ∈ y, IsSlugChar c) :
    generateSlug U y = y.filter (fun c => c != '-') := by
  have hlower : stringsToLower U y = y := by
    unfold stringsToLower
    conv_rhs => rw [← List.map_id y]
    exact List.map_congr_left (fun c hc => unicodeToLower_slugChar U c (h c hc))
  have hemit : y.flatMap (slugEmit U) = y.filter (fun c => c != '-') := by
    clear hlower
    induction y with
    | nil => rfl
    | cons c cs ih =>
      rw [List.flatMap_cons, slugEmit_slugChar U c (h c (List.mem_cons_self _ _)),
        ih (fun x hx => h x (List.mem_cons_of_mem _ hx)), List.filter_cons]
      by_cases hc : c = '-'
      · subst hc; rfl
      · have : (c != '-') = true := by simpa using hc
        rw [if_neg hc, this]
        rfl
  rw [generateSlug_eq, hlower, hemit]
  have hz : ∀ c ∈ y.filter (fun c => c != '-'), IsSlugChar c ∧ c ≠ '-' := by
    intro c hc
    obtain ⟨h1, h2⟩ := List.mem_filter.1 hc
    exact ⟨h c h1, by simpa using h2⟩
  generalize y.filter (fun c => c != '-') = z at hz
  have hsp : ' ' ∉ z := by
    intro hmem
    have := (hz _ hmem).1
    revert this
    decide
  have hnd : ¬ ['-', '-'] <:+: z := by
    intro hin
    exact (hz '-' (hin.subset (List.mem_cons_self _ _))).2 rfl
  unfold slugFinish
  have h1 : stringsReplaceAll z [' '] ['-'] = z := by
    unfold stringsReplaceAll
    rw [if_neg (by simp)]
    exact replaceScan_singleton_of_not_mem _ _ _ hsp
  simp only [h1, stringsMap_slugKeep_of_slugChars z (fun c hc => (hz c hc).1),
    collapseHyphens_of_no_double _ z hnd]
  exact stringsTrim_of_not_mem z _ (fun c hc hm => (hz c hc).2 (List.mem_singleton.1 hm))

/-- C3, counterexample: `generateSlug` is not idempotent.  The slug of `a b` is
`a-b`, and the slug of `a-b` is `ab`, because the `range` loop drops the
hyphen. -/
theorem generateSlug_not_idempotent :
    ¬ ∀ (U : UnicodeTables) (x : List Char),
        generateSlug U (generateSlug U x) = generateSlug U x := by
  intro h
  exact absurd (h plainTables "a b".toList) (by decide)

/-- C3, amended: applying `generateSlug` to a slug removes the hyphens of the
slug and changes nothing else, so `generateSlug (generateSlug x)` is
`generateSlug x` exactly when `generateSlug x` has no hyphen. -/
theorem generateSlug_twice (U : UnicodeTables) (x : List Char) :
    generateSlug U (generateSlug U x) = (generateSlug U x).filter (fun c => c != '-')
      ∧ (generateSlug U (generateSlug U x) = generateSlug U x ↔ '-' ∉ generateSlug U x) := by
  have h := generateSlug_of_slugChars U (generateSlug U x) (mem_generateSlug U x)
  refine ⟨h, ?_⟩
  rw [h, List.filter_eq_self]
  constructor
  · intro hall hmem
    simpa using hall _ hmem
  · intro hn c hc
    have : c ≠ '-' := fun e => hn (e ▸ hc)
    simpa using this

/-! ## The probe loops -/

theorem slugCandidate_eq (b : List Char) (k : Nat) :
    slugCandidate b k = candidateWith NewTransformService.slugSeparator b k := rfl

theorem candidateWith_succ (sep b : List Char) (j : Nat) :
    candidateWith sep b (j + 1) = b ++ sep ++ strconvItoa ((j + 1 : Nat) : Int) := by
  unfold candidateWith
  rw [if_neg (Nat.succ_ne_zero j)]

/-- The loop of `GenerateUniqueSlug` started on candidate `j`: when the next
`k` candidates are taken and the one after them is free, it returns that one
after `k + 1` further probes, as soon as it is given more than `k` iterations. -/
theorem generateUniqueSlugLoop_run (s : TransformService) (existingSlug : List Char → Bool)
    (b : List Char) (k : Nat) : ∀ (fuel j probes : Nat),
    (∀ i < k, existingSlug (candidateWith s.slugSeparator b (j + i)) = true) →
    existingSlug (candidateWith s.slugSeparator b (j + k)) = false →
    generateUniqueSlugLoop s existingSlug b fuel (candidateWith s.slugSeparator b j) (j + 1)
        probes
      = if k < fuel then some (candidateWith s.slugSeparator b (j + k), probes + k + 1)
        else none := by
  induction k with
  | zero =>
    intro fuel j probes _ hfree
    cases fuel with
    | zero => rfl
    | succ f =>
      rw [generateUniqueSlugLoop, if_neg (by simpa using hfree), if_pos (Nat.succ_pos f)]
      rfl
  | succ k ih =>
    intro fuel j probes htaken hfree
    cases fuel with
    | zero => rfl
    | succ f =>
      have h0 : existingSlug (candidateWith s.slugSeparator b j) = true := by
        simpa using htaken 0 (Nat.succ_pos k)
      rw [generateUniqueSlugLoop, if_pos h0, ← candidateWith_succ]
      have hnext := ih f (j + 1) (probes + 1)
        (fun i hi => by
          have := htaken (i + 1) (Nat.succ_lt_succ hi)
          rwa [show j + (i + 1) = j + 1 + i by omega] at this)
        (by rwa [show j + (k + 1) = j + 1 + k by omega] at hfree)
      rw [hnext]
      by_cases hk : k < f
      · rw [if_pos hk, if_pos (Nat.succ_lt_succ hk),
          show j + 1 + k = j + (k + 1) by omega,
          show probes + 1 + k + 1 = probes + (k + 1) + 1 by omega]
      · rw [if_neg hk, if_neg (fun h => hk (Nat.lt_of_succ_lt_succ h))]

/-- The loop of `Post.BeforeCreate` is the loop of `GenerateUniqueSlug` with
the hyphen as separator and "some row has this slug" as predicate. -/
theorem beforeCreateLoop_eq (tx : List Post) (existingSlug : List Char → Bool)
    (h : ∀ x, countSlug tx x ≠ 0 ↔ existingSlug x = true) (b : List Char) :
    ∀ (fuel : Nat) (slug : List Char) (counter probes : Nat),
    beforeCreateLoop tx b fuel slug counter probes
      = generateUniqueSlugLoop NewTransformService existingSlug b fuel slug counter probes := by
  intro fuel
  induction fuel with
  | zero => intro _ _ _; rfl
  | succ f ih =>
    intro slug counter probes
    rw [beforeCreateLoop, generateUniqueSlugLoop]
    by_cases hc : countSlug tx slug = 0
    · have he : ¬ existingSlug slug = true := fun e => (h slug).2 e hc
      rw [if_pos hc, if_neg he]
    · rw [if_neg hc, if_pos ((h slug).1 hc), ih]
      rfl

/-- C4: when the candidates `b`, `b-1`, …, `b-(k-1)` are taken and candidate
`k` is free, where `b = GenerateSlug(text)`, `GenerateUniqueSlug(text, existsFn)`
returns candidate `k`: `b` itself when `k = 0` and `b-k` for the least positive
`k` otherwise; the returned slug is not taken. -/
theorem GenerateUniqueSlug_first_free (U : UnicodeTables) (text : List Char)
    (existingSlug : List Char → Bool) (k fuel : Nat)
    (htaken : ∀ j < k,
      existingSlug (slugCandidate (NewTransformService.GenerateSlug U text) j) = true)
    (hfree : existingSlug (slugCandidate (NewTransformService.GenerateSlug U text) k) = false)
    (hfuel : k < fuel) :
    ∃ r, NewTransformService.GenerateUniqueSlug U text existingSlug fuel = some r
      ∧ r = (if k = 0 then NewTransformService.GenerateSlug U text
          else NewTransformService.GenerateSlug U text ++ ['-'] ++ strconvItoa k)
      ∧ existingSlug r = false := by
  refine ⟨slugCandidate (NewTransformService.GenerateSlug U text) k, ?_, rfl, hfree⟩
  have h := generateUniqueSlugLoop_run NewTransformService existingSlug
    (NewTransformService.GenerateSlug U text) k fuel 0 0
    (fun i hi => by
      rw [Nat.zero_add, ← slugCandidate_eq]
      exact htaken i hi)
    (by rw [Nat.zero_add, ← slugCandidate_eq]; exact hfree)
  rw [if_pos hfuel] at h
  have h0 : candidateWith NewTransformService.slugSeparator
      (NewTransformService.GenerateSlug U text) 0 = NewTransformService.GenerateSlug U text :=
    rfl
  rw [h0] at h
  unfold TransformService.GenerateUniqueSlug
  rw [h]
  simp [slugCandidate_eq]

/-- Witness of C4: with `hello-world` taken and `hello-world-1` free the unique
slug of `Hello World!` is `hello-world-1`. -/
theorem GenerateUniqueSlug_first_free_witness :
    ∃ r, NewTransformService.GenerateUniqueSlug plainTables "Hello World!".toList
        (fun x => decide (x = "hello-world".toList)) 2 = some r
      ∧ r = (if 1 = 0 then NewTransformService.GenerateSlug plainTables "Hello World!".toList
          else NewTransformService.GenerateSlug plainTables "Hello World!".toList ++ ['-']
            ++ strconvItoa (1 : Nat))
      ∧ (fun x => decide (x = "hello-world".toList)) r = false :=
  GenerateUniqueSlug_first_free plainTables "Hello World!".toList
    (fun x => decide (x = "hello-world".toList)) 1 2
    (fun j hj => by
      have : j = 0 := by omega
      subst this
      decide)
    (by decide) (by decide)

/-- With the counter unbounded, the probe loop has no retry cap.  When the
first `k` candidates are taken and candidate `k` is free, for any `k`, the loop
of `GenerateUniqueSlug` returns candidate `k` after exactly `k + 1` probes once
it is allowed more than `k` iterations, and is still running after `k`
iterations or fewer.  The loop of `Post.BeforeCreate` does the same on a table
whose rows are the taken slugs. -/
theorem slug_probe_loop_unbounded (existingSlug : List Char → Bool) (b : List Char) (k : Nat)
    (htaken : ∀ j < k, existingSlug (slugCandidate b j) = true)
    (hfree : existingSlug (slugCandidate b k) = false) (fuel : Nat) :
    generateUniqueSlugLoop NewTransformService existingSlug b fuel b 1 0
        = (if k < fuel then some (slugCandidate b k, k + 1) else none)
      ∧ ∀ tx : List Post, (∀ x, countSlug tx x ≠ 0 ↔ existingSlug x = true) →
          beforeCreateLoop tx b fuel b 1 0
            = (if k < fuel then some (slugCandidate b k, k + 1) else none) := by
  have h := generateUniqueSlugLoop_run NewTransformService existingSlug b k fuel 0 0
    (fun i hi => by
      rw [Nat.zero_add, ← slugCandidate_eq]
      exact htaken i hi)
    (by rw [Nat.zero_add, ← slugCandidate_eq]; exact hfree)
  have h0 : candidateWith NewTransformService.slugSeparator b 0 = b := rfl
  rw [h0, Nat.zero_add, Nat.zero_add, ← slugCandidate_eq] at h
  refine ⟨h, ?_⟩
  intro tx htx
  rw [beforeCreateLoop_eq tx existingSlug htx, h]

/-! ## Pagination -/

/-- C7, counterexample: for page 0 and limit 10 the product `(page - 1) * limit`
is -10, and gorm stores the offset 0 and writes no `OFFSET`; for page
4611686018427387905 and limit 4 the product is `2^64`, which Go computes as 0
on 64-bit integers. -/
theorem Paginate_scope_not_product :
    ((services.Paginate (fun _ => 0) 25 ⟨10, 0, 0, 0⟩).2 configDB).offset = some 0
      ∧ ((services.Paginate (fun _ => 0) 25 ⟨10, 0, 0, 0⟩).2 configDB).offset
          ≠ some (((0 : Int) - 1) * 10)
      ∧ ((services.Paginate (fun _ => 0) 25 ⟨10, 0, 0, 0⟩).2 configDB).sqlOffset = none
      ∧ ((services.Paginate (fun _ => 0) 25 ⟨4, 4611686018427387905, 0, 0⟩).2 configDB).offset
          = some 0
      ∧ ((services.Paginate (fun _ => 0) 25 ⟨4, 4611686018427387905, 0, 0⟩).2 configDB).offset
          ≠ some (((4611686018427387905 : Int) - 1) * 4) := by
  decide

theorem addLimitClause_wheres (db : GormDB) (newLimit : Option Int) (newOffset : Int) :
    (db.addLimitClause newLimit newOffset).wheres = db.wheres
      ∧ (db.addLimitClause newLimit newOffset).orders = db.orders := by
  unfold GormDB.addLimitClause
  split <;> exact ⟨rfl, rfl⟩

/-- The clause after `db.Offset(o).Limit(l)` on a statement without limit
clause. -/
theorem Offset_Limit_fresh (db : GormDB) (o l : Int) (h : db.offset = none) :
    ((db.Offset o).Limit l).limit = some l
      ∧ ((db.Offset o).Limit l).offset = some (max 0 o) := by
  unfold GormDB.Limit GormDB.Offset GormDB.addLimitClause
  rw [h]
  by_cases ho : o > 0
  · simp [ho, max_eq_right (le_of_lt ho)]
  · simp [ho, max_eq_left (not_lt.1 ho)]

/-- The clause after `db.Offset(o).Limit(l)` for a positive offset and a limit
other than 0. -/
theorem Offset_Limit_positive (db : GormDB) (o l : Int) (ho : 0 < o) (hl : l ≠ 0) :
    ((db.Offset o).Limit l).limit = some l ∧ ((db.Offset o).Limit l).offset = some o := by
  have hne : ¬ o = 0 := by omega
  have hnn : ¬ o < 0 := by omega
  unfold GormDB.Limit GormDB.Offset GormDB.addLimitClause
  rcases hd : db.offset with _ | old
  · simp [ho]
  · simp [ho, hl, hne, hnn]

theorem wrapInt64_product (page limit : Int) (hp : 1 ≤ page) (hl : 1 ≤ limit)
    (hfit : (page - 1) * limit < 2 ^ 63) :
    wrapInt64 (wrapInt64 (page - 1) * limit) = (page - 1) * limit
      ∧ 0 ≤ (page - 1) * limit ∧ (1 < page → 0 < (page - 1) * limit) := by
  have h0 : 0 ≤ (page - 1) * limit := mul_nonneg (by omega) (by omega)
  have hle : page - 1 ≤ (page - 1) * limit := le_mul_of_one_le_right (by omega) hl
  have hpos : 1 < page → 0 < (page - 1) * limit := fun h => mul_pos (by omega) (by omega)
  have e1 : wrapInt64 (page - 1) = page - 1 := by
    unfold wrapInt64
    omega
  refine ⟨?_, h0, hpos⟩
  rw [e1]
  generalize (page - 1) * limit = x at hfit h0
  unfold wrapInt64
  omega

/-- C7, amended: for a page and a limit that are at least 1 and whose product
`(page - 1) * limit` fits a 64-bit `int`, the scope returned by `Paginate`,
applied to a query that has no limit clause yet or with a page above 1, sets the
limit to `Limit` and the offset to `(Page - 1) * Limit`, and the SQL statement
gets `LIMIT Limit` and, when the offset is not 0, `OFFSET (Page - 1) * Limit`.
For every page and limit, on a query without limit clause the limit is `Limit`
and the offset is the product as Go computes it on 64-bit integers, or 0 when
that is negative.  The scope changes no other clause, and `Paginate` leaves
`Page` and `Limit` as they were. -/
theorem Paginate_scope (impl : Float64 → Int) (totalRows : Int)
    (pagination : services.Pagination) (db : GormDB) :
    (1 ≤ pagination.Page → 1 ≤ pagination.Limit →
        (pagination.Page - 1) * pagination.Limit < 2 ^ 63 →
        db.offset = none ∨ 1 < pagination.Page →
        ((services.Paginate impl totalRows pagination).2 db).limit = some pagination.Limit
          ∧ ((services.Paginate impl totalRows pagination).2 db).offset
              = some ((pagination.Page - 1) * pagination.Limit)
          ∧ ((services.Paginate impl totalRows pagination).2 db).sqlLimit
              = some pagination.Limit
          ∧ ((services.Paginate impl totalRows pagination).2 db).sqlOffset
              = (if 1 < pagination.Page then some ((pagination.Page - 1) * pagination.Limit)
                else none))
      ∧ (db.offset = none →
          ((services.Paginate impl totalRows pagination).2 db).limit = some pagination.Limit
            ∧ ((services.Paginate impl totalRows pagination).2 db).offset
                = some (max 0
                    (wrapInt64 (wrapInt64 (pagination.Page - 1) * pagination.Limit))))
      ∧ ((services.Paginate impl totalRows pagination).2 db).wheres = db.wheres
      ∧ ((services.Paginate impl totalRows pagination).2 db).orders = db.orders
      ∧ (services.Paginate impl totalRows pagination).1.Page = pagination.Page
      ∧ (services.Paginate impl totalRows pagination).1.Limit = pagination.Limit := by
  refine ⟨?_, Offset_Limit_fresh db _ _, ?_, ?_, rfl, rfl⟩
  · intro hp hl hfit hdb
    obtain ⟨hw, h0, hpos⟩ := wrapInt64_product pagination.Page pagination.Limit hp hl hfit
    have hlo : ((services.Paginate impl totalRows pagination).2 db).limit
          = some pagination.Limit
        ∧ ((services.Paginate impl totalRows pagination).2 db).offset
          = some ((pagination.Page - 1) * pagination.Limit) := by
      rw [show (services.Paginate impl totalRows pagination).2 db
        = (db.Offset (wrapInt64 (wrapInt64 (pagination.Page - 1) * pagination.Limit))).Limit
            pagination.Limit from rfl, hw]
      by_cases h1 : 1 < pagination.Page
      · have := Offset_Limit_positive db
          (wrapInt64 (wrapInt64 (pagination.Page - 1) * pagination.Limit)) pagination.Limit
          (by rw [hw]; exact hpos h1) (by omega)
        rw [hw] at this
        exact this
      · have hd : db.offset = none := hdb.resolve_right h1
        have := Offset_Limit_fresh db
          (wrapInt64 (wrapInt64 (pagination.Page - 1) * pagination.Limit)) pagination.Limit hd
        rw [hw, max_eq_right h0] at this
        exact this
    refine ⟨hlo.1, hlo.2, ?_, ?_⟩
    · unfold GormDB.sqlLimit
      rw [hlo.1]
      dsimp only
      rw [if_pos (by omega)]
    · unfold GormDB.sqlOffset
      rw [hlo.2]
      dsimp only
      by_cases h1 : 1 < pagination.Page
      · rw [if_pos (hpos h1), if_pos h1]
      · have hp1 : pagination.Page = 1 := by omega
        rw [if_neg h1, hp1]
        simp
  · exact ((addLimitClause_wheres _ _ _).1).trans (addLimitClause_wheres _ _ _).1
  · exact ((addLimitClause_wheres _ _ _).2).trans (addLimitClause_wheres _ _ _).2

/-- Witness of C7: page 3 with limit 10 gives offset 20 and limit 10. -/
theorem Paginate_scope_witness :
    ((services.Paginate (fun _ => 0) 25 ⟨10, 3, 0, 0⟩).2 ⟨[], [], none, none⟩).limit = some 10
      ∧ ((services.Paginate (fun _ => 0) 25 ⟨10, 3, 0, 0⟩).2 ⟨[], [], none, none⟩).offset
          = some ((3 - 1) * 10)
      ∧ ((services.Paginate (fun _ => 0) 25 ⟨10, 3, 0, 0⟩).2 ⟨[], [], none, none⟩).sqlLimit
          = some 10
      ∧ ((services.Paginate (fun _ => 0) 25 ⟨10, 3, 0, 0⟩).2 ⟨[], [], none, none⟩).sqlOffset
          = (if (1 : Int) < 3 then some ((3 - 1) * 10) else none) :=
  (Paginate_scope (fun _ => 0) 25 ⟨10, 3, 0, 0⟩ ⟨[], [], none, none⟩).1
    (by decide) (by decide) (by decide) (Or.inl rfl)

/-- The parser of package `utils` never returns a page or a limit below 1. -/
theorem utils.GeneratePaginationFromRequest_pos (query : List QueryParam) :
    1 ≤ (utils.GeneratePaginationFromRequest query).Page
      ∧ 1 ≤ (utils.GeneratePaginationFromRequest query).Limit := by
  unfold utils.GeneratePaginationFromRequest
  dsimp only
  constructor <;> split_ifs <;> omega

/-- C8, at the failing input `?page=abc&limit=x`: `GeneratePaginationFromRequest`
of package `services` stores the 0 that `strconv.Atoi` returns with its error,
so `Page` and `Limit` are 0, not 1 and 10; the parser of package `utils`
returns 1 and 10 on the same request. -/
theorem GeneratePaginationFromRequest_unparsable :
    services.GeneratePaginationFromRequest
        [⟨"page".toList, ["abc".toList], List.cons_ne_nil _ _⟩,
         ⟨"limit".toList, ["x".toList], List.cons_ne_nil _ _⟩]
        = { Limit := 0, Page := 0, TotalRows := 0, TotalPages := 0 }
      ∧ (utils.GeneratePaginationFromRequest
          [⟨"page".toList, ["abc".toList], List.cons_ne_nil _ _⟩,
           ⟨"limit".toList, ["x".toList], List.cons_ne_nil _ _⟩]).Page = 1
      ∧ (utils.GeneratePaginationFromRequest
          [⟨"page".toList, ["abc".toList], List.cons_ne_nil _ _⟩,
           ⟨"limit".toList, ["x".toList], List.cons_ne_nil _ _⟩]).Limit = 10 := by
  decide

/-- C9, at the failing input `?page=0&limit=-5`: `GeneratePaginationFromRequest`
of package `services` returns `Page = 0` and `Limit = -5`, and on `?limit=0`
it returns `Limit = 0`, the divisor of `Paginate`; the parser of package
`utils` returns 1 and 10 on the first request. -/
theorem GeneratePaginationFromRequest_not_positive :
    services.GeneratePaginationFromRequest
        [⟨"page".toList, ["0".toList], List.cons_ne_nil _ _⟩,
         ⟨"limit".toList, ["-5".toList], List.cons_ne_nil _ _⟩]
        = { Limit := -5, Page := 0, TotalRows := 0, TotalPages := 0 }
      ∧ (services.GeneratePaginationFromRequest
          [⟨"limit".toList, ["0".toList], List.cons_ne_nil _ _⟩]).Limit = 0
      ∧ (utils.GeneratePaginationFromRequest
          [⟨"page".toList, ["0".toList], List.cons_ne_nil _ _⟩,
           ⟨"limit".toList, ["-5".toList], List.cons_ne_nil _ _⟩]).Page = 1
      ∧ (utils.GeneratePaginationFromRequest
          [⟨"page".toList, ["0".toList], List.cons_ne_nil _ _⟩,
           ⟨"limit".toList, ["-5".toList], List.cons_ne_nil _ _⟩]).Limit = 10 := by
  decide

/-- C10: `BuildPaginationLinks` returns a non-empty `Prev` exactly when
`currentPage > 1` and a non-empty `Next` exactly when
`currentPage < totalPages`. -/
theorem BuildPaginationLinks_prev_next (baseURL : List Char) (currentPage totalPages : Int) :
    ((services.BuildPaginationLinks baseURL currentPage totalPages).Prev ≠ []
        ↔ currentPage > 1)
      ∧ ((services.BuildPaginationLinks baseURL currentPage totalPages).Next ≠ []
        ↔ currentPage < totalPages) := by
  unfold services.BuildPaginationLinks
  by_cases h1 : currentPage > 1 <;> by_cases h2 : currentPage < totalPages <;>
    simp [h1, h2]

/-! ## `float64` rounding and `TotalPages` -/

theorem floor_le_roundHalfEven (q : ℚ) : ⌊q⌋ ≤ roundHalfEven q := by
  unfold roundHalfEven
  split_ifs <;> omega

theorem roundHalfEven_le_floor_add_one (q : ℚ) : roundHalfEven q ≤ ⌊q⌋ + 1 := by
  unfold roundHalfEven
  split_ifs <;> omega

theorem roundHalfEven_intCast (z : ℤ) : roundHalfEven (z : ℚ) = z := by
  unfold roundHalfEven
  simp

theorem roundHalfEven_of_half_lt (q : ℚ) (h : 1 / 2 < q - ⌊q⌋) : roundHalfEven q = ⌊q⌋ + 1 := by
  unfold roundHalfEven
  rw [if_neg (not_lt.2 h.le), if_pos h]

theorem zpow_log_le (x : ℚ) (hx : 0 < x) : (2 : ℚ) ^ Int.log 2 x ≤ x := by
  have := Int.zpow_log_le_self (b := 2) (r := x) (by norm_num) hx
  simpa using this

theorem lt_zpow_log_succ (x : ℚ) : x < (2 : ℚ) ^ (Int.log 2 x + 1) := by
  have := Int.lt_zpow_succ_log_self (b := 2) (by norm_num) x
  simpa using this

theorem log_lt_of_lt_zpow (x : ℚ) (hx : 0 < x) (n : ℤ) (h : x < (2 : ℚ) ^ n) : Int.log 2 x < n := by
  have := (Int.lt_zpow_iff_log_lt (b := 2) (by norm_num) (x := n) hx).1 (by simpa using h)
  exact this

theorem le_log_of_zpow_le (x : ℚ) (hx : 0 < x) (n : ℤ) (h : (2 : ℚ) ^ n ≤ x) : n ≤ Int.log 2 x := by
  have := (Int.zpow_le_iff_le_log (b := 2) (by norm_num) (x := n) hx).1 (by simpa using h)
  exact this

theorem roundToFloat64_of_pos (x : ℚ) (hx : 0 < x) :
    roundToFloat64 x
      = roundHalfEven (x / 2 ^ (Int.log 2 x - 52)) * 2 ^ (Int.log 2 x - 52) := by
  unfold roundToFloat64
  rw [if_neg hx.ne', abs_of_pos hx]

theorem two_zpow_pos (k : ℤ) : (0 : ℚ) < 2 ^ k := by positivity

theorem two_zpow_mul (a b : ℤ) : (2 : ℚ) ^ a * 2 ^ b = 2 ^ (a + b) := by
  rw [zpow_add₀ (by norm_num)]

/-- The significand of a positive rational lies in `[2^52, 2^53)`. -/
theorem significand_bounds (x : ℚ) (hx : 0 < x) :
    ((2 ^ 52 : ℤ) : ℚ) ≤ x / 2 ^ (Int.log 2 x - 52)
      ∧ x / 2 ^ (Int.log 2 x - 52) < ((2 ^ 53 : ℤ) : ℚ) := by
  have hu := two_zpow_pos (Int.log 2 x - 52)
  have h1 : ((2 ^ 52 : ℤ) : ℚ) * 2 ^ (Int.log 2 x - 52) = 2 ^ Int.log 2 x := by
    have : ((2 ^ 52 : ℤ) : ℚ) = (2 : ℚ) ^ (52 : ℤ) := by norm_num
    rw [this, two_zpow_mul]
    congr 1
    ring
  have h2 : ((2 ^ 53 : ℤ) : ℚ) * 2 ^ (Int.log 2 x - 52) = 2 ^ (Int.log 2 x + 1) := by
    have : ((2 ^ 53 : ℤ) : ℚ) = (2 : ℚ) ^ (53 : ℤ) := by norm_num
    rw [this, two_zpow_mul]
    congr 1
    ring
  constructor
  · rw [le_div_iff₀ hu, h1]
    exact zpow_log_le x hx
  · rw [div_lt_iff₀ hu, h2]
    exact lt_zpow_log_succ x

/-- A positive rational rounds into the closure of its binade. -/
theorem roundToFloat64_binade (x : ℚ) (hx : 0 < x) :
    (2 : ℚ) ^ Int.log 2 x ≤ roundToFloat64 x
      ∧ roundToFloat64 x ≤ 2 ^ (Int.log 2 x + 1) := by
  have hu := two_zpow_pos (Int.log 2 x - 52)
  obtain ⟨hlo, hhi⟩ := significand_bounds x hx
  have h1 : ((2 ^ 52 : ℤ) : ℚ) * 2 ^ (Int.log 2 x - 52) = 2 ^ Int.log 2 x := by
    have : ((2 ^ 52 : ℤ) : ℚ) = (2 : ℚ) ^ (52 : ℤ) := by norm_num
    rw [this, two_zpow_mul]
    congr 1
    ring
  have h2 : ((2 ^ 53 : ℤ) : ℚ) * 2 ^ (Int.log 2 x - 52) = 2 ^ (Int.log 2 x + 1) := by
    have : ((2 ^ 53 : ℤ) : ℚ) = (2 : ℚ) ^ (53 : ℤ) := by norm_num
    rw [this, two_zpow_mul]
    congr 1
    ring
  have hf1 : (2 ^ 52 : ℤ) ≤ ⌊x / 2 ^ (Int.log 2 x - 52)⌋ := Int.le_floor.2 hlo
  have hf2 : ⌊x / 2 ^ (Int.log 2 x - 52)⌋ < (2 ^ 53 : ℤ) := Int.floor_lt.2 hhi
  have hr1 := floor_le_roundHalfEven (x / 2 ^ (Int.log 2 x - 52))
  have hr2 := roundHalfEven_le_floor_add_one (x / 2 ^ (Int.log 2 x - 52))
  rw [roundToFloat64_of_pos x hx, ← h1, ← h2]
  constructor
  · apply mul_le_mul_of_nonneg_right _ hu.le
    exact_mod_cast hf1.trans hr1
  · apply mul_le_mul_of_nonneg_right _ hu.le
    have : roundHalfEven (x / 2 ^ (Int.log 2 x - 52)) ≤ (2 ^ 53 : ℤ) := by omega
    exact_mod_cast this

/-- A rational whose significand is an integer is a `float64`. -/
theorem roundToFloat64_of_significand (x : ℚ) (hx : 0 < x) (z : ℤ)
    (hz : x / 2 ^ (Int.log 2 x - 52) = z) : roundToFloat64 x = x := by
  have hu := two_zpow_pos (Int.log 2 x - 52)
  rw [roundToFloat64_of_pos x hx, hz, roundHalfEven_intCast, ← hz]
  field_simp

/-- An integer of at most 53 bits is a `float64`. -/
theorem roundToFloat64_intCast (n : ℤ) (h0 : 0 ≤ n) (h1 : n ≤ 2 ^ 53) :
    roundToFloat64 (n : ℚ) = n := by
  rcases h0.eq_or_lt with h | h
  · subst h
    simp [roundToFloat64]
  · have hx : (0 : ℚ) < (n : ℚ) := by exact_mod_cast h
    have hn1 : (1 : ℚ) ≤ (n : ℚ) := by exact_mod_cast h
    have hn2 : (n : ℚ) < (2 : ℚ) ^ (54 : ℤ) := by
      have : n < 2 ^ 54 := by omega
      have h' : (n : ℚ) < ((2 ^ 54 : ℤ) : ℚ) := by exact_mod_cast this
      have e : ((2 ^ 54 : ℤ) : ℚ) = (2 : ℚ) ^ (54 : ℤ) := by norm_num
      rwa [e] at h'
    have he0 : 0 ≤ Int.log 2 (n : ℚ) := le_log_of_zpow_le _ hx 0 (by simpa using hn1)
    have he54 : Int.log 2 (n : ℚ) < 54 := log_lt_of_lt_zpow _ hx 54 hn2
    by_cases he : Int.log 2 (n : ℚ) ≤ 52
    · obtain ⟨k, hk⟩ : ∃ k : ℕ, Int.log 2 (n : ℚ) - 52 = -(k : ℤ) :=
        ⟨(52 - Int.log 2 (n : ℚ)).toNat, by omega⟩
      apply roundToFloat64_of_significand _ hx (n * 2 ^ k)
      rw [hk, zpow_neg, zpow_natCast, div_inv_eq_mul]
      push_cast
      rfl
    · have he53 : Int.log 2 (n : ℚ) = 53 := by omega
      have hle := zpow_log_le (n : ℚ) hx
      rw [he53] at hle
      have e : ((2 ^ 53 : ℤ) : ℚ) = (2 : ℚ) ^ (53 : ℤ) := by norm_num
      rw [← e] at hle
      have hge : (2 ^ 53 : ℤ) ≤ n := by exact_mod_cast hle
      have hn : n = 2 ^ 53 := by omega
      apply roundToFloat64_of_significand _ hx (2 ^ 52)
      rw [he53, hn]
      norm_num

/-- A rational in `(0, 1]` rounds into `(0, 1]`. -/
theorem ceil_roundToFloat64_unit (x : ℚ) (hx : 0 < x) (hx1 : x ≤ 1) :
    ⌈roundToFloat64 x⌉ = 1 := by
  rcases hx1.eq_or_lt with h | h
  · subst h
    have := roundToFloat64_intCast 1 (by norm_num) (by norm_num)
    simp only [Int.cast_one] at this
    rw [this]
    simp
  · have he : Int.log 2 x < 0 := log_lt_of_lt_zpow x hx 0 (by simpa using h)
    obtain ⟨hlo, hhi⟩ := roundToFloat64_binade x hx
    have hpos := two_zpow_pos (Int.log 2 x)
    have hle1 : (2 : ℚ) ^ (Int.log 2 x + 1) ≤ 1 :=
      zpow_le_one_of_nonpos₀ (by norm_num) (by omega)
    rw [Int.ceil_eq_iff]
    constructor
    · simp only [Int.cast_one, sub_self]
      exact lt_of_lt_of_le hpos hlo
    · simp only [Int.cast_one]
      exact hhi.trans hle1

/-- A rational strictly between the integers `q` and `q + 1`, both of at most
53 bits, that lies more than half a unit in the last place above `q`, rounds
into `(q, q + 1]`. -/
theorem ceil_roundToFloat64_between (x : ℚ) (q : ℤ) (hq1 : 1 ≤ q) (hq2 : q + 1 ≤ 2 ^ 53)
    (hlo : (q : ℚ) < x) (hhi : x < q + 1)
    (hm : (2 : ℚ) ^ (Int.log 2 x - 53) < x - q) : ⌈roundToFloat64 x⌉ = q + 1 := by
  have hq1' : (1 : ℚ) ≤ (q : ℚ) := by exact_mod_cast hq1
  have hx : 0 < x := by linarith
  have he0 : 0 ≤ Int.log 2 x := le_log_of_zpow_le x hx 0 (by simpa using (by linarith : (1 : ℚ) ≤ x))
  have hx53 : x < (2 : ℚ) ^ (53 : ℤ) := by
    have h' : ((q + 1 : ℤ) : ℚ) ≤ ((2 ^ 53 : ℤ) : ℚ) := by exact_mod_cast hq2
    have e : ((2 ^ 53 : ℤ) : ℚ) = (2 : ℚ) ^ (53 : ℤ) := by norm_num
    rw [e] at h'
    push_cast at h'
    linarith
  have he53 : Int.log 2 x < 53 := log_lt_of_lt_zpow x hx 53 hx53
  obtain ⟨k, hk⟩ : ∃ k : ℕ, Int.log 2 x - 52 = -(k : ℤ) :=
    ⟨(52 - Int.log 2 x).toNat, by omega⟩
  have hKpos : (0 : ℚ) < ((2 ^ k : ℤ) : ℚ) := by positivity
  have hu : (2 : ℚ) ^ (Int.log 2 x - 52) = (((2 ^ k : ℤ) : ℚ))⁻¹ := by
    rw [hk, zpow_neg, zpow_natCast]
    push_cast
    rfl
  have hhalf : (2 : ℚ) ^ (Int.log 2 x - 53) * ((2 ^ k : ℤ) : ℚ) = 1 / 2 := by
    have : ((2 ^ k : ℤ) : ℚ) = (2 : ℚ) ^ (k : ℤ) := by
      rw [zpow_natCast]
      push_cast
      rfl
    rw [this, two_zpow_mul, show Int.log 2 x - 53 + (k : ℤ) = -1 by omega]
    norm_num
  have hQm : ((q * 2 ^ k : ℤ) : ℚ) < x * ((2 ^ k : ℤ) : ℚ) := by
    push_cast
    push_cast at hKpos
    exact mul_lt_mul_of_pos_right hlo hKpos
  have hmQ : x * ((2 ^ k : ℤ) : ℚ) < (((q + 1) * 2 ^ k : ℤ) : ℚ) := by
    push_cast
    push_cast at hKpos
    exact mul_lt_mul_of_pos_right hhi hKpos
  have hgap : 1 / 2 < x * ((2 ^ k : ℤ) : ℚ) - ((q * 2 ^ k : ℤ) : ℚ) := by
    have := mul_lt_mul_of_pos_right hm hKpos
    rw [hhalf] at this
    push_cast at this ⊢
    linarith
  have hfl : q * 2 ^ k ≤ ⌊x * ((2 ^ k : ℤ) : ℚ)⌋ := Int.le_floor.2 hQm.le
  have hfu : ⌊x * ((2 ^ k : ℤ) : ℚ)⌋ < (q + 1) * 2 ^ k := Int.floor_lt.2 hmQ
  have hr1 : q * 2 ^ k + 1 ≤ roundHalfEven (x * ((2 ^ k : ℤ) : ℚ)) := by
    by_cases hfe : ⌊x * ((2 ^ k : ℤ) : ℚ)⌋ = q * 2 ^ k
    · rw [roundHalfEven_of_half_lt _ (by rw [hfe]; exact hgap), hfe]
    · have := floor_le_roundHalfEven (x * ((2 ^ k : ℤ) : ℚ))
      omega
  have hr2 : roundHalfEven (x * ((2 ^ k : ℤ) : ℚ)) ≤ (q + 1) * 2 ^ k := by
    have := roundHalfEven_le_floor_add_one (x * ((2 ^ k : ℤ) : ℚ))
    omega
  have hr1' : ((q * 2 ^ k + 1 : ℤ) : ℚ) ≤ (roundHalfEven (x * ((2 ^ k : ℤ) : ℚ)) : ℚ) := by
    exact_mod_cast hr1
  have hr2' : (roundHalfEven (x * ((2 ^ k : ℤ) : ℚ)) : ℚ) ≤ (((q + 1) * 2 ^ k : ℤ) : ℚ) := by
    exact_mod_cast hr2
  rw [roundToFloat64_of_pos x hx, hu, div_inv_eq_mul, ← div_eq_mul_inv, Int.ceil_eq_iff]
  constructor
  · rw [lt_div_iff₀ hKpos]
    push_cast at hr1' ⊢
    linarith
  · rw [div_le_iff₀ hKpos]
    push_cast at hr2' ⊢
    linarith

theorem roundToFloat64_pos (x : ℚ) (hx : 0 < x) : 0 < roundToFloat64 x :=
  lt_of_lt_of_le (two_zpow_pos _) (roundToFloat64_binade x hx).1

/-- The ceiling of the `float64` quotient of a count of at most 53 bits by a
positive limit is the ceiling of the exact quotient. -/
theorem ceil_float64_quotient (a b : ℤ) (ha0 : 0 ≤ a) (ha : a ≤ 2 ^ 53) (hb : 1 ≤ b) :
    ⌈roundToFloat64 (roundToFloat64 (a : ℚ) / roundToFloat64 (b : ℚ))⌉ = ⌈(a : ℚ) / b⌉ := by
  have hbq : (0 : ℚ) < (b : ℚ) := by exact_mod_cast hb
  rw [roundToFloat64_intCast a ha0 ha]
  rcases ha0.eq_or_lt with h | h
  · subst h
    simp [roundToFloat64]
  have haq : (0 : ℚ) < (a : ℚ) := by exact_mod_cast h
  by_cases hab : a ≤ b
  · -- the quotient is in (0, 1]
    have hB : (a : ℚ) ≤ roundToFloat64 (b : ℚ) := by
      by_cases hb53 : b ≤ 2 ^ 53
      · rw [roundToFloat64_intCast b (by omega) hb53]
        exact_mod_cast hab
      · have h53 : (2 : ℚ) ^ (53 : ℤ) ≤ (b : ℚ) := by
          have : (2 ^ 53 : ℤ) ≤ b := by omega
          have h' : ((2 ^ 53 : ℤ) : ℚ) ≤ (b : ℚ) := by exact_mod_cast this
          have e : ((2 ^ 53 : ℤ) : ℚ) = (2 : ℚ) ^ (53 : ℤ) := by norm_num
          rwa [e] at h'
        have hlog : 53 ≤ Int.log 2 (b : ℚ) := le_log_of_zpow_le _ hbq 53 h53
        have hbin := (roundToFloat64_binade (b : ℚ) hbq).1
        have hmono : (2 : ℚ) ^ (53 : ℤ) ≤ 2 ^ Int.log 2 (b : ℚ) :=
          zpow_le_zpow_right₀ (by norm_num) hlog
        have ha' : (a : ℚ) ≤ (2 : ℚ) ^ (53 : ℤ) := by
          have h' : (a : ℚ) ≤ ((2 ^ 53 : ℤ) : ℚ) := by exact_mod_cast ha
          have e : ((2 ^ 53 : ℤ) : ℚ) = (2 : ℚ) ^ (53 : ℤ) := by norm_num
          rwa [e] at h'
        linarith
    have hBpos := roundToFloat64_pos (b : ℚ) hbq
    rw [ceil_roundToFloat64_unit _ (div_pos haq hBpos) ((div_le_one hBpos).2 hB)]
    symm
    rw [Int.ceil_eq_iff]
    constructor
    · simp only [Int.cast_one, sub_self]
      exact div_pos haq hbq
    · simp only [Int.cast_one]
      exact (div_le_one hbq).2 (by exact_mod_cast hab)
  · -- the quotient is above 1 and the limit is a `float64`
    have hba : b < a := not_le.1 hab
    rw [roundToFloat64_intCast b (by omega) (by omega)]
    have hdiv := Int.ediv_add_emod a b
    have hr0 := Int.emod_nonneg a (by omega : b ≠ 0)
    have hrb := Int.emod_lt_of_pos a (by omega : 0 < b)
    have hq1 : 1 ≤ a / b := Int.le_ediv_of_mul_le (by omega) (by omega)
    generalize a / b = q at hdiv hq1
    generalize a % b = r at hdiv hr0 hrb
    have hbq1 : b * q ≤ 2 ^ 53 - r := by omega
    have hx : (a : ℚ) / b = q + (r : ℚ) / b := by
      field_simp
      have : (a : ℚ) = b * q + r := by exact_mod_cast hdiv.symm
      rw [this]
      ring
    rcases hr0.eq_or_lt with hr | hr
    · subst hr
      have hqa : q ≤ 2 ^ 53 := by nlinarith
      rw [hx]
      simp only [Int.cast_zero, zero_div, add_zero]
      rw [roundToFloat64_intCast q (by omega) hqa]
    · have hb2 : 2 ≤ b := by omega
      have hq53 : q + 1 ≤ 2 ^ 53 := by nlinarith
      have hrq : (0 : ℚ) < (r : ℚ) / b := div_pos (by exact_mod_cast hr) hbq
      have hrq1 : (r : ℚ) / b < 1 := (div_lt_one hbq).2 (by exact_mod_cast hrb)
      have hlo : (q : ℚ) < (a : ℚ) / b := by rw [hx]; linarith
      have hhi : (a : ℚ) / b < q + 1 := by rw [hx]; linarith
      have hxpos : (0 : ℚ) < (a : ℚ) / b := div_pos haq hbq
      have hm : (2 : ℚ) ^ (Int.log 2 ((a : ℚ) / b) - 53) < (a : ℚ) / b - q := by
        have he0 : 0 ≤ Int.log 2 ((a : ℚ) / b) :=
          le_log_of_zpow_le _ hxpos 0 (by
            have : (1 : ℚ) ≤ (q : ℚ) := by exact_mod_cast hq1
            simp only [zpow_zero]
            linarith)
        obtain ⟨j, hj⟩ : ∃ j : ℕ, Int.log 2 ((a : ℚ) / b) = (j : ℤ) :=
          ⟨(Int.log 2 ((a : ℚ) / b)).toNat, by omega⟩
        have hle := zpow_log_le _ hxpos
        rw [hj, zpow_natCast] at hle
        have hjq : (2 ^ j : ℤ) ≤ q := by
          have h1 : ((2 ^ j : ℤ) : ℚ) < ((q + 1 : ℤ) : ℚ) := by
            push_cast
            linarith
          have : (2 ^ j : ℤ) < q + 1 := by exact_mod_cast h1
          omega
        have hjq' : (2 : ℚ) ^ j ≤ (q : ℚ) := by exact_mod_cast hjq
        have hsplit : (2 : ℚ) ^ (Int.log 2 ((a : ℚ) / b) - 53) = (2 : ℚ) ^ j / 2 ^ 53 := by
          rw [hj, zpow_sub₀ (by norm_num), zpow_natCast]
          norm_num
        have hxq : (a : ℚ) / b - q = (r : ℚ) / b := by rw [hx]; ring
        rw [hsplit, hxq, div_lt_div_iff₀ (by norm_num) hbq]
        have hbqr : (b : ℚ) * q ≤ 2 ^ 53 - r := by exact_mod_cast hbq1
        have hr1 : (1 : ℚ) ≤ (r : ℚ) := by exact_mod_cast hr
        have h2j : (2 : ℚ) ^ j * b ≤ q * b := mul_le_mul_of_nonneg_right hjq' hbq.le
        nlinarith
      rw [ceil_roundToFloat64_between _ q hq1 hq53 hlo hhi hm]
      symm
      rw [Int.ceil_eq_iff]
      constructor
      · push_cast
        linarith
      · push_cast
        linarith

/-- The computation of `TotalPages` in `Paginate`. -/
theorem totalPages_float64 (impl : Float64 → Int) (a b : ℤ) (ha0 : 0 ≤ a) (ha : a ≤ 2 ^ 53)
    (hb : 1 ≤ b) :
    intOfFloat64 impl (mathCeil ((float64OfInt a).div (float64OfInt b))) = ⌈(a : ℚ) / b⌉ := by
  have hbq : (0 : ℚ) < (b : ℚ) := by exact_mod_cast hb
  have hBpos := roundToFloat64_pos (b : ℚ) hbq
  have hc := ceil_float64_quotient a b ha0 ha hb
  have hc0 : 0 ≤ ⌈(a : ℚ) / b⌉ := Int.ceil_nonneg (div_nonneg (by exact_mod_cast ha0) hbq.le)
  have hc1 : ⌈(a : ℚ) / b⌉ ≤ 2 ^ 53 := by
    rw [Int.ceil_le]
    have h1 : (a : ℚ) / b ≤ a := div_le_self (by exact_mod_cast ha0) (by exact_mod_cast hb)
    have h2 : (a : ℚ) ≤ ((2 ^ 53 : ℤ) : ℚ) := by exact_mod_cast ha
    exact h1.trans h2
  unfold float64OfInt Float64.div mathCeil intOfFloat64
  simp only [if_neg hBpos.ne', hc]
  have h0 : (0 : ℚ) ≤ (⌈(a : ℚ) / b⌉ : ℚ) := by exact_mod_cast hc0
  have h63 : ((⌈(a : ℚ) / b⌉ : ℤ) : ℚ) < 2 ^ 63 := by
    have : ⌈(a : ℚ) / b⌉ < 2 ^ 63 := by omega
    exact_mod_cast this
  rw [if_pos ⟨by linarith, h63⟩, if_pos h0, Int.floor_intCast]

theorem roundHalfEven_tie :
    roundHalfEven ((9007199254740993 : ℚ) / 2) = 4503599627370496 := by
  have hf : ⌊(9007199254740993 : ℚ) / 2⌋ = 4503599627370496 := by
    rw [Int.floor_eq_iff]
    norm_num
  unfold roundHalfEven
  rw [hf]
  norm_num

/-- The integer `2^53 + 1` is not a `float64`: it rounds to `2^53`. -/
theorem roundToFloat64_two_pow_53_add_one :
    roundToFloat64 (9007199254740993 : ℚ) = 9007199254740992 := by
  have hx : (0 : ℚ) < 9007199254740993 := by norm_num
  have hlog : Int.log 2 (9007199254740993 : ℚ) = 53 := by
    have h1 := le_log_of_zpow_le (9007199254740993 : ℚ) hx 53 (by norm_num)
    have h2 := log_lt_of_lt_zpow (9007199254740993 : ℚ) hx 54 (by norm_num)
    omega
  rw [roundToFloat64_of_pos _ hx, hlog]
  have e : (2 : ℚ) ^ ((53 : ℤ) - 52) = 2 := by norm_num
  rw [e, roundHalfEven_tie]
  norm_num

theorem totalPages_float64_counterexample (impl : Float64 → Int) :
    intOfFloat64 impl (mathCeil ((float64OfInt 9007199254740993).div (float64OfInt 1)))
      = 9007199254740992 := by
  have h1 : roundToFloat64 ((1 : ℤ) : ℚ) = ((1 : ℤ) : ℚ) :=
    roundToFloat64_intCast 1 (by norm_num) (by norm_num)
  have h2 : roundToFloat64 ((9007199254740993 : ℤ) : ℚ) = 9007199254740992 := by
    have := roundToFloat64_two_pow_53_add_one
    exact_mod_cast this
  have h3 : roundToFloat64 (9007199254740992 : ℚ) = 9007199254740992 := by
    have := roundToFloat64_intCast 9007199254740992 (by norm_num) (by norm_num)
    exact_mod_cast this
  unfold float64OfInt Float64.div mathCeil intOfFloat64
  simp only [h1, h2]
  norm_num [h3]

/-- C6, counterexample: for `totalRows = 2^53 + 1` and `Limit = 1`, both inside
the range of their types, `Paginate` sets `TotalPages` to `2^53`, because
`float64(totalRows)` rounds to `2^53`; the ceiling of `totalRows / Limit` is
`2^53 + 1`. -/
theorem Paginate_totalPages_not_ceil :
    ¬ ∀ (impl : Float64 → Int) (totalRows : Int) (pagination : services.Pagination),
        0 ≤ totalRows → totalRows < 2 ^ 63 → 1 ≤ pagination.Limit →
        pagination.Limit < 2 ^ 63 →
        (services.Paginate impl totalRows pagination).1.TotalPages
          = ⌈(totalRows : ℚ) / pagination.Limit⌉ := by
  intro h
  have h1 := h (fun _ => 0) 9007199254740993 ⟨1, 1, 0, 0⟩ (by norm_num) (by norm_num)
    (by norm_num) (by norm_num)
  have h2 : (services.Paginate (fun _ => 0) 9007199254740993 ⟨1, 1, 0, 0⟩).1.TotalPages
      = 9007199254740992 := by
    unfold services.Paginate
    exact totalPages_float64_counterexample (fun _ => 0)
  rw [h2] at h1
  norm_num at h1

/-- C6, amended: for every row count `0 ≤ totalRows ≤ 2^53` and every
`Limit ≥ 1`, `Paginate` sets `TotalPages` to the ceiling of
`totalRows / Limit`, which is 0 when `totalRows = 0`, and stores the row count
in `TotalRows`. -/
theorem Paginate_totalPages (impl : Float64 → Int) (totalRows : Int)
    (pagination : services.Pagination) (h0 : 0 ≤ totalRows) (h53 : totalRows ≤ 2 ^ 53)
    (hl : 1 ≤ pagination.Limit) :
    (services.Paginate impl totalRows pagination).1.TotalPages
        = ⌈(totalRows : ℚ) / pagination.Limit⌉
      ∧ (totalRows = 0 → (services.Paginate impl totalRows pagination).1.TotalPages = 0)
      ∧ (services.Paginate impl totalRows pagination).1.TotalRows = totalRows := by
  have h := totalPages_float64 impl totalRows pagination.Limit h0 h53 hl
  refine ⟨h, ?_, rfl⟩
  intro hz
  have h' : (services.Paginate impl totalRows pagination).1.TotalPages
      = ⌈(totalRows : ℚ) / pagination.Limit⌉ := h
  rw [h', hz]
  simp

/-- Witness of C6: 25 rows with limit 10 give 3 pages, and 0 rows give 0. -/
theorem Paginate_totalPages_witness :
    (services.Paginate (fun _ => 0) 25 ⟨10, 3, 0, 0⟩).1.TotalPages = 3
      ∧ (services.Paginate (fun _ => 0) 0 ⟨10, 1, 0, 0⟩).1.TotalPages = 0 := by
  constructor
  · rw [(Paginate_totalPages (fun _ => 0) 25 ⟨10, 3, 0, 0⟩ (by norm_num) (by norm_num)
      (by norm_num)).1, Int.ceil_eq_iff]
    norm_num
  · exact (Paginate_totalPages (fun _ => 0) 0 ⟨10, 1, 0, 0⟩ (by norm_num) (by norm_num)
      (by norm_num)).2.1 rfl

/-! ## The filter parser -/

theorem splitScan_nil (sep cur : List Char) (k : Nat) : splitScan sep k cur [] = [cur] := by
  cases k <;> rfl

theorem splitScan_sep (sep : Char) (cur rest : List Char) :
    splitScan [sep] 0 cur (sep :: rest) = cur :: splitScan [sep] 0 [] rest := by
  rw [splitScan, if_pos (by simp [List.isPrefixOf])]
  rfl

theorem splitScan_other (sep c : Char) (cur rest : List Char) (h : c ≠ sep) :
    splitScan [sep] 0 cur (c :: rest) = splitScan [sep] 0 (cur ++ [c]) rest := by
  rw [splitScan, if_neg (by simpa [List.isPrefixOf] using fun e => h e.symm)]

theorem splitScan_append (sep : Char) (a : List Char) (h : sep ∉ a) (cur rest : List Char) :
    splitScan [sep] 0 cur (a ++ rest) = splitScan [sep] 0 (cur ++ a) rest := by
  induction a generalizing cur with
  | nil => simp
  | cons c cs ih =>
    have hc : c ≠ sep := fun e => h (e ▸ List.mem_cons_self _ _)
    have hcs : sep ∉ cs := fun e => h (List.mem_cons_of_mem _ e)
    rw [List.cons_append, splitScan_other sep c cur _ hc, ih hcs]
    simp

/-- A string without the separator is its own single segment. -/
theorem stringsSplit_of_not_mem (sep : Char) (a : List Char) (h : sep ∉ a) :
    stringsSplit a [sep] = [a] := by
  unfold stringsSplit
  rw [if_neg (by simp)]
  have := splitScan_append sep a h [] []
  rw [List.append_nil, List.nil_append, splitScan_nil] at this
  exact this

/-- The segments of `a`, separator, `rest` are `a` and the segments of `rest`. -/
theorem stringsSplit_append_sep (sep : Char) (a rest : List Char) (h : sep ∉ a) :
    stringsSplit (a ++ sep :: rest) [sep] = a :: stringsSplit rest [sep] := by
  unfold stringsSplit
  rw [if_neg (by simp), if_neg (by simp), splitScan_append sep a h, splitScan_sep]
  rfl

/-- The number of segments is the number of separators plus one. -/
theorem length_splitScan (sep : Char) (s cur : List Char) :
    (splitScan [sep] 0 cur s).length = s.count sep + 1 := by
  induction s generalizing cur with
  | nil => simp [splitScan_nil]
  | cons c cs ih =>
    by_cases hc : c = sep
    · subst hc
      rw [splitScan_sep, List.length_cons, ih, List.count_cons_self]
    · rw [splitScan_other sep c cur cs hc, ih]
      simp [List.count_cons, hc]

theorem length_stringsSplit (sep : Char) (s : List Char) :
    (stringsSplit s [sep]).length = s.count sep + 1 := by
  unfold stringsSplit
  rw [if_neg (by simp)]
  exact length_splitScan sep s []

/-- The segments contain no separator, and joined by it they give the string
back. -/
theorem splitScan_spec (sep : Char) (s cur : List Char) :
    ∃ h t, splitScan [sep] 0 cur s = (cur ++ h) :: t ∧ sep ∉ h ∧ (∀ p ∈ t, sep ∉ p)
      ∧ s = h ++ t.flatMap (fun p => sep :: p) := by
  induction s generalizing cur with
  | nil => exact ⟨[], [], by simp [splitScan_nil], by simp, by simp, by simp⟩
  | cons c cs ih =>
    by_cases hc : c = sep
    · subst hc
      obtain ⟨h, t, e, hh, ht, hs⟩ := ih []
      refine ⟨[], h :: t, ?_, by simp, ?_, ?_⟩
      · rw [splitScan_sep, e]
        simp
      · intro p hp
        rcases List.mem_cons.1 hp with hp | hp
        · exact hp ▸ hh
        · exact ht p hp
      · rw [hs]
        simp
    · obtain ⟨h, t, e, hh, ht, hs⟩ := ih (cur ++ [c])
      refine ⟨c :: h, t, ?_, ?_, ht, ?_⟩
      · rw [splitScan_other sep c cur cs hc, e]
        simp
      · intro hm
        rcases List.mem_cons.1 hm with hm | hm
        · exact hc hm.symm
        · exact hh hm
      · rw [hs]
        simp

theorem foldl_extractSearchStep (search : List (List Char)) (acc : List StringMap) :
    search.foldl services.extractSearchStep acc = acc ++ services.extractSearchLoop search := by
  induction search generalizing acc with
  | nil => simp [services.extractSearchLoop]
  | cons t ts ih =>
    unfold services.extractSearchLoop
    rw [List.foldl_cons, List.foldl_cons, ih, ih (services.extractSearchStep [] t)]
    unfold services.extractSearchLoop
    rw [← List.append_assoc]
    congr 1
    unfold services.extractSearchStep
    dsimp only
    split <;> simp

theorem extractSearchLoop_append (pre post : List (List Char)) :
    services.extractSearchLoop (pre ++ post)
      = services.extractSearchLoop pre ++ services.extractSearchLoop post := by
  unfold services.extractSearchLoop
  rw [List.foldl_append, foldl_extractSearchStep]
  rfl

theorem extractSearchLoop_cons (t : List Char) (ts : List (List Char)) :
    services.extractSearchLoop (t :: ts)
      = services.extractSearchLoop [t] ++ services.extractSearchLoop ts :=
  extractSearchLoop_append [t] ts

theorem extractSearchLoop_flatMap (search : List (List Char)) :
    services.extractSearchLoop search
      = search.flatMap (fun t => services.extractSearchLoop [t]) := by
  induction search with
  | nil => rfl
  | cons t ts ih => rw [extractSearchLoop_cons, List.flatMap_cons, ih]

/-- A token `a:b:c` with no colon inside `a`, `b` and `c` gives the directive
`{a, b, c}`, whatever the operator `b` is. -/
theorem extractSearchLoop_token (a b c : List Char) (ha : ':' ∉ a) (hb : ':' ∉ b)
    (hc : ':' ∉ c) :
    services.extractSearchLoop [searchToken a b c] = [searchDirective a b c] := by
  have hs : stringsSplit (searchToken a b c) [':'] = [a, b, c] := by
    unfold searchToken
    rw [stringsSplit_append_sep _ _ _ ha, stringsSplit_append_sep _ _ _ hb,
      stringsSplit_of_not_mem _ _ hc]
  unfold services.extractSearchLoop
  rw [List.foldl_cons, List.foldl_nil]
  unfold services.extractSearchStep
  dsimp only
  rw [hs]
  rfl

/-- A token that does not have exactly two colons gives no directive. -/
theorem extractSearchLoop_malformed (t : List Char) (h : t.count ':' + 1 ≠ 3) :
    services.extractSearchLoop [t] = [] := by
  unfold services.extractSearchLoop
  rw [List.foldl_cons, List.foldl_nil]
  unfold services.extractSearchStep
  dsimp only
  rw [length_stringsSplit, if_neg h]

/-- A token that gives a directive is of the form `a:b:c`, and the directive
is `{a, b, c}`. -/
theorem extractSearchLoop_some (t : List Char) (h : services.extractSearchLoop [t] ≠ []) :
    ∃ a b c, ':' ∉ a ∧ ':' ∉ b ∧ ':' ∉ c ∧ t = searchToken a b c
      ∧ services.extractSearchLoop [t] = [searchDirective a b c] := by
  have hlen : (stringsSplit t [':']).length = 3 := by
    by_contra hne
    apply h
    unfold services.extractSearchLoop
    rw [List.foldl_cons, List.foldl_nil]
    unfold services.extractSearchStep
    dsimp only
    rw [if_neg hne]
  obtain ⟨a, tl, e, ha, htl, hs⟩ := splitScan_spec ':' t []
  have e' : stringsSplit t [':'] = a :: tl := by
    unfold stringsSplit
    rw [if_neg (by simp), e]
    rfl
  rw [e'] at hlen
  match tl, htl, hs, e', hlen with
  | [b, c], htl, hs, e', _ =>
    have hb : ':' ∉ b := htl b (by simp)
    have hc : ':' ∉ c := htl c (by simp)
    have ht : t = searchToken a b c := by
      rw [hs]
      simp [searchToken]
    exact ⟨a, b, c, ha, hb, hc, ht, ht ▸ extractSearchLoop_token a b c ha hb hc⟩

/-- C11: `ExtractSearchParams` runs over the values of `search` in order, each
token contributing on its own; a token `a:b:c` with exactly three
colon-separated segments contributes the one directive `{a, b, c}`, and only
such tokens contribute.  The token `title:like:hello` yields
`[{title, like, hello}]`, and `sort=created_at:desc` yields the mapping
`{created_at: desc}`. -/
theorem ExtractSearchParams_directives (U : UnicodeTables) (query : List QueryParam) :
    services.ExtractSearchParams query
        = (ginQueryArray query "search".toList).flatMap
            (fun t => services.extractSearchLoop [t])
      ∧ (∀ a b c, ':' ∉ a → ':' ∉ b → ':' ∉ c →
          services.extractSearchLoop [searchToken a b c] = [searchDirective a b c])
      ∧ (∀ t, services.extractSearchLoop [t] ≠ [] →
          ∃ a b c, ':' ∉ a ∧ ':' ∉ b ∧ ':' ∉ c ∧ t = searchToken a b c
            ∧ services.extractSearchLoop [t] = [searchDirective a b c])
      ∧ services.ExtractSearchParams
          [⟨"search".toList, ["title:like:hello".toList], List.cons_ne_nil _ _⟩]
          = [searchDirective "title".toList "like".toList "hello".toList]
      ∧ services.ExtractSortParams U
          [⟨"sort".toList, ["created_at:desc".toList], List.cons_ne_nil _ _⟩]
          = [("created_at".toList, "desc".toList)] :=
  ⟨extractSearchLoop_flatMap _, extractSearchLoop_token, extractSearchLoop_some, by decide,
    rfl⟩

/-- Witness of C11: the token `title:like:hello`. -/
theorem ExtractSearchParams_directives_witness :
    services.extractSearchLoop [searchToken "title".toList "like".toList "hello".toList]
      = [searchDirective "title".toList "like".toList "hello".toList] :=
  (ExtractSearchParams_directives plainTables []).2.1 "title".toList "like".toList
    "hello".toList (by decide) (by decide) (by decide)

/-- C12: a search token whose number of colon-separated segments is not three
contributes no directive, and the directives of the tokens before and after
it are what they are without it; `title:hello` and
`created_at:gt:2024-01-01T10:00:00` are such tokens. -/
theorem ExtractSearchParams_malformed (t : List Char) (h : t.count ':' + 1 ≠ 3)
    (pre post : List (List Char)) :
    services.extractSearchLoop [t] = []
      ∧ services.extractSearchLoop (pre ++ t :: post)
          = services.extractSearchLoop pre ++ services.extractSearchLoop post
      ∧ services.ExtractSearchParams
          [⟨"search".toList, ["title:hello".toList], List.cons_ne_nil _ _⟩] = []
      ∧ services.ExtractSearchParams
          [⟨"search".toList, ["created_at:gt:2024-01-01T10:00:00".toList],
            List.cons_ne_nil _ _⟩] = [] := by
  refine ⟨extractSearchLoop_malformed t h, ?_, by decide, by decide⟩
  rw [extractSearchLoop_append, extractSearchLoop_cons, extractSearchLoop_malformed t h,
    List.nil_append]

/-- Witness of C12: the two-segment token `title:hello` between two
well-formed tokens. -/
theorem ExtractSearchParams_malformed_witness :
    services.extractSearchLoop ["title:hello".toList] = []
      ∧ services.extractSearchLoop
          (["a:eq:1".toList] ++ "title:hello".toList :: ["b:eq:2".toList])
          = services.extractSearchLoop ["a:eq:1".toList]
            ++ services.extractSearchLoop ["b:eq:2".toList] :=
  ⟨(ExtractSearchParams_malformed "title:hello".toList (by decide) ["a:eq:1".toList]
      ["b:eq:2".toList]).1,
    (ExtractSearchParams_malformed "title:hello".toList (by decide) ["a:eq:1".toList]
      ["b:eq:2".toList]).2.1⟩

/-! ## The query composer -/

theorem applySearchFilter_eq (db : GormDB) (d : StringMap) :
    services.applySearchFilter db d
      = match directiveCondition d with
        | some w => { db with wheres := db.wheres ++ [w] }
        | none => db := by
  unfold services.applySearchFilter directiveCondition specCondition
  dsimp only
  generalize mapGet d "operator".toList = operator
  by_cases h1 : operator = "eq".toList
  · rw [if_pos h1, if_pos h1]; rfl
  rw [if_neg h1, if_neg h1]
  by_cases h2 : operator = "ne".toList
  · rw [if_pos h2, if_pos h2]; rfl
  rw [if_neg h2, if_neg h2]
  by_cases h3 : operator = "like".toList
  · rw [if_pos h3, if_pos h3]; rfl
  rw [if_neg h3, if_neg h3]
  by_cases h4 : operator = "nlike".toList
  · rw [if_pos h4, if_pos h4]; rfl
  rw [if_neg h4, if_neg h4]
  by_cases h5 : operator = "in".toList
  · rw [if_pos h5, if_pos h5]; rfl
  rw [if_neg h5, if_neg h5]
  by_cases h6 : operator = "nin".toList
  · rw [if_pos h6, if_pos h6]; rfl
  rw [if_neg h6, if_neg h6]
  by_cases h7 : operator = "gt".toList
  · rw [if_pos h7, if_pos h7]; rfl
  rw [if_neg h7, if_neg h7]
  by_cases h8 : operator = "gte".toList
  · rw [if_pos h8, if_pos h8]; rfl
  rw [if_neg h8, if_neg h8]
  by_cases h9 : operator = "lt".toList
  · rw [if_pos h9, if_pos h9]; rfl
  rw [if_neg h9, if_neg h9]
  by_cases h10 : operator = "lte".toList
  · rw [if_pos h10, if_pos h10]; rfl
  rw [if_neg h10, if_neg h10]

theorem ApplySearchFilters_eq (db : GormDB) (filters : List StringMap) :
    services.ApplySearchFilters db filters
      = { db with wheres := db.wheres ++ filters.filterMap directiveCondition } := by
  unfold services.ApplySearchFilters
  induction filters generalizing db with
  | nil => simp
  | cons d ds ih =>
    rw [List.foldl_cons, ih, applySearchFilter_eq, List.filterMap_cons]
    cases directiveCondition d with
    | none => rfl
    | some w => simp

theorem specCondition_none (field operator value : List Char)
    (h : operator ∉ searchOperators) : specCondition field operator value = none := by
  unfold searchOperators at h
  simp only [List.mem_cons, List.mem_singleton, not_or, List.not_mem_nil, not_false_eq_true,
    and_true] at h
  obtain ⟨h1, h2, h3, h4, h5, h6, h7, h8, h9, h10⟩ := h
  unfold specCondition
  rw [if_neg h1, if_neg h2, if_neg h3, if_neg h4, if_neg h5, if_neg h6, if_neg h7, if_neg h8,
    if_neg h9, if_neg h10]

theorem specCondition_some (field operator value : List Char) (h : operator ∈ searchOperators) :
    ∃ w, specCondition field operator value = some w ∧ field ++ [' '] <+: w.1 := by
  unfold searchOperators at h
  simp only [List.mem_cons, List.mem_singleton, List.not_mem_nil, or_false] at h
  rcases h with h | h | h | h | h | h | h | h | h | h <;> subst h
  · exact ⟨_, rfl, ⟨"= ?".toList, by simp⟩⟩
  · exact ⟨_, rfl, ⟨"!= ?".toList, by simp⟩⟩
  · exact ⟨_, rfl, ⟨"LIKE ?".toList, by simp⟩⟩
  · exact ⟨_, rfl, ⟨"NOT LIKE ?".toList, by simp⟩⟩
  · exact ⟨_, rfl, ⟨"IN ?".toList, by simp⟩⟩
  · exact ⟨_, rfl, ⟨"NOT IN ?".toList, by simp⟩⟩
  · exact ⟨_, rfl, ⟨"> ?".toList, by simp⟩⟩
  · exact ⟨_, rfl, ⟨">= ?".toList, by simp⟩⟩
  · exact ⟨_, rfl, ⟨"< ?".toList, by simp⟩⟩
  · exact ⟨_, rfl, ⟨"<= ?".toList, by simp⟩⟩

theorem ApplySorting_wheres (db : GormDB) (sort : StringMap) :
    (services.ApplySorting db sort).wheres = db.wheres := by
  unfold services.ApplySorting
  induction sort generalizing db with
  | nil => rfl
  | cons e es ih => rw [List.foldl_cons, ih]; rfl

theorem GetPostsQuery_wheres (U : UnicodeTables) (query : List QueryParam) :
    (controllers.GetPostsQuery U query).wheres
      = (services.ExtractSearchParams query).filterMap directiveCondition := by
  unfold controllers.GetPostsQuery
  dsimp only
  rw [ApplySorting_wheres, ApplySearchFilters_eq]
  rfl

/-- C15: `ApplySearchFilters` appends to the conditions of the base query, in
directive order, the condition that the specification lists for each directive
with a recognised operator, and nothing for any other directive; it changes no
other clause of the query. -/
theorem ApplySearchFilters_conditions (db : GormDB) (filters : List StringMap) :
    services.ApplySearchFilters db filters
        = { db with wheres := db.wheres ++ filters.filterMap directiveCondition }
      ∧ (∀ field operator value,
          directiveCondition (searchDirective field operator value)
            = specCondition field operator value)
      ∧ (∀ field operator value, operator ∉ searchOperators →
          specCondition field operator value = none) :=
  ⟨ApplySearchFilters_eq db filters, fun _ _ _ => rfl, specCondition_none⟩

/-- Witness of C15: an `eq`, an unknown and an `in` directive. -/
theorem ApplySearchFilters_conditions_witness :
    services.ApplySearchFilters configDB
        [searchDirective "title".toList "eq".toList "x".toList,
         searchDirective "title".toList "foo".toList "y".toList,
         searchDirective "role".toList "in".toList "a,b".toList]
      = { configDB with wheres :=
            [("title = ?".toList, [SqlArg.str "x".toList]),
             ("role IN ?".toList, [SqlArg.strs ["a".toList, "b".toList]])] } :=
  (ApplySearchFilters_conditions configDB _).1.trans (by decide)

/-- C13, divergence: on `GET /posts?search=title:foo:bar` the token has three
segments, so `ExtractSearchParams` returns the directive `{title, foo, bar}`,
whose operator `foo` is not one of the ten operators; `GetPosts` reports it as
`applied_search` although the query gets no condition from it.  The sibling
`ExtractSortParams` does drop a direction it does not know: `sort=title:up`
gives the empty map. -/
theorem ExtractSearchParams_keeps_unknown_operator (U : UnicodeTables) :
    services.ExtractSearchParams
        [⟨"search".toList, ["title:foo:bar".toList], List.cons_ne_nil _ _⟩]
        = [searchDirective "title".toList "foo".toList "bar".toList]
      ∧ mapGet (searchDirective "title".toList "foo".toList "bar".toList) "operator".toList
          ∉ searchOperators
      ∧ (controllers.GetPostsMetadata U
          [⟨"search".toList, ["title:foo:bar".toList], List.cons_ne_nil _ _⟩]).AppliedSearch
        = [searchDirective "title".toList "foo".toList "bar".toList]
      ∧ (controllers.GetPostsQuery U
          [⟨"search".toList, ["title:foo:bar".toList], List.cons_ne_nil _ _⟩]).wheres = []
      ∧ services.ExtractSortParams U
          [⟨"sort".toList, ["title:up".toList], List.cons_ne_nil _ _⟩] = [] :=
  ⟨by decide, by decide, rfl, rfl, rfl⟩

/-- A token `a:b:c` whose operator `b` is not one of the ten operators is
kept by the loop of `ExtractSearchParams`, and the directives returned are
echoed as `applied_search` by `GetPosts`; it is `ApplySearchFilters` that
drops it, adding no condition, so the conditions of the query come from the
directives with an operator of the set. -/
theorem unknown_operator_dropped_by_composer (U : UnicodeTables) (query : List QueryParam)
    (a b c : List Char) (ha : ':' ∉ a) (hb : ':' ∉ b) (hc : ':' ∉ c)
    (hop : b ∉ searchOperators) (db : GormDB) :
    services.extractSearchLoop [searchToken a b c] = [searchDirective a b c]
      ∧ services.ApplySearchFilters db [searchDirective a b c] = db
      ∧ (controllers.GetPostsMetadata U query).AppliedSearch
          = services.ExtractSearchParams query
      ∧ (controllers.GetPostsQuery U query).wheres
          = ((services.ExtractSearchParams query).filter
              (fun d => decide (mapGet d "operator".toList ∈ searchOperators))).filterMap
                directiveCondition := by
  refine ⟨extractSearchLoop_token a b c ha hb hc, ?_, rfl, ?_⟩
  · rw [ApplySearchFilters_eq]
    have : directiveCondition (searchDirective a b c) = none := specCondition_none a b c hop
    simp [this]
  · rw [GetPostsQuery_wheres, List.filterMap_filter]
    apply List.filterMap_congr
    intro d _
    dsimp only
    by_cases hd : mapGet d "operator".toList ∈ searchOperators
    · rw [if_pos (decide_eq_true hd)]
    · rw [if_neg (by rw [decide_eq_true_eq]; exact hd)]
      exact specCondition_none _ _ _ hd

/-- C14: `ExtractSortParams` returns a mapping with at most one entry whose
direction is `asc` or `desc`; a sort string that does not have exactly two
colon-separated segments gives the empty mapping, and a sort string
`field:direction` gives `{field: lower(direction)}` when the lowercased
direction is `asc` or `desc` and the empty mapping otherwise, as for
`created_at:up`. -/
theorem ExtractSortParams_shape (U : UnicodeTables) (query : List QueryParam) :
    (services.ExtractSortParams U query).length ≤ 1
      ∧ (∀ e ∈ services.ExtractSortParams U query,
          e.2 = "asc".toList ∨ e.2 = "desc".toList)
      ∧ ((ginQuery query "sort".toList).count ':' + 1 ≠ 2 →
          services.ExtractSortParams U query = [])
      ∧ (∀ field direction, ':' ∉ field → ':' ∉ direction →
          ginQuery query "sort".toList = field ++ ':' :: direction →
          services.ExtractSortParams U query
            = if stringsToLower U direction = "asc".toList
                ∨ stringsToLower U direction = "desc".toList
              then [(field, stringsToLower U direction)] else [])
      ∧ services.ExtractSortParams U
          [⟨"sort".toList, ["created_at:up".toList], List.cons_ne_nil _ _⟩] = [] := by
  refine ⟨?_, ?_, ?_, ?_, rfl⟩
  · unfold services.ExtractSortParams
    dsimp only
    split_ifs <;> simp
  · intro e he
    unfold services.ExtractSortParams at he
    dsimp only at he
    split_ifs at he with h1 h2 h3
    · rw [List.mem_singleton] at he
      subst he
      exact h3
    all_goals simp at he
  · intro hcount
    unfold services.ExtractSortParams
    dsimp only
    simp only [length_stringsSplit, if_neg hcount, ite_self]
  · intro field direction hf hd hq
    have hsplit : stringsSplit (ginQuery query "sort".toList) [':'] = [field, direction] := by
      rw [hq, stringsSplit_append_sep _ _ _ hf, stringsSplit_of_not_mem _ _ hd]
    have hne : ginQuery query "sort".toList ≠ [] := by
      rw [hq]
      simp
    unfold services.ExtractSortParams
    dsimp only
    rw [if_pos hne, hsplit]
    rfl

/-- Witness of C14: `sort=title:DESC` gives `{title: desc}`. -/
theorem ExtractSortParams_shape_witness :
    services.ExtractSortParams plainTables
        [⟨"sort".toList, ["title:DESC".toList], List.cons_ne_nil _ _⟩]
      = if stringsToLower plainTables "DESC".toList = "asc".toList
          ∨ stringsToLower plainTables "DESC".toList = "desc".toList
        then [("title".toList, stringsToLower plainTables "DESC".toList)] else [] :=
  (ExtractSortParams_shape plainTables
    [⟨"sort".toList, ["title:DESC".toList], List.cons_ne_nil _ _⟩]).2.2.2.1
    "title".toList "DESC".toList (by decide) (by decide) (by decide)

theorem directiveCondition_eq_none (d : StringMap) :
    directiveCondition d = none ↔ mapGet d "operator".toList ∉ searchOperators := by
  constructor
  · intro h hmem
    obtain ⟨w, hw, _⟩ := specCondition_some (mapGet d "field".toList)
      (mapGet d "operator".toList) (mapGet d "value".toList) hmem
    unfold directiveCondition at h
    rw [hw] at h
    cases h
  · intro h
    exact specCondition_none _ _ _ h

/-- C16, divergence: on `GET /posts?search=password:eq:secret` the query of
`GetPosts` gets the condition `password = ?`, whose text starts with the field
given by the caller, although `password` is none of the search fields that
`GetPosts` declares and publishes as `allowed_search`; and on
`search=title:gt:x` it gets the condition `title > ?`, although `gt` is none
of the operators declared for `title`. -/
theorem GetPosts_applies_undeclared_field (U : UnicodeTables) :
    (controllers.GetPostsQuery U
        [⟨"search".toList, ["password:eq:secret".toList], List.cons_ne_nil _ _⟩]).wheres
        = [("password = ?".toList, [SqlArg.str "secret".toList])]
      ∧ services.ExtractSearchParams
          [⟨"search".toList, ["password:eq:secret".toList], List.cons_ne_nil _ _⟩]
        = [searchDirective "password".toList "eq".toList "secret".toList]
      ∧ ¬ postAllows (searchDirective "password".toList "eq".toList "secret".toList)
      ∧ "password".toList ∉ controllers.postSearchFields.map (fun f => f.Name)
      ∧ (controllers.GetPostsMetadata U
          [⟨"search".toList, ["password:eq:secret".toList], List.cons_ne_nil _ _⟩]).AllowedSearch
        = controllers.postSearchFields
      ∧ (controllers.GetPostsQuery U
          [⟨"search".toList, ["title:gt:x".toList], List.cons_ne_nil _ _⟩]).wheres
        = [("title > ?".toList, [SqlArg.str "x".toList])]
      ∧ ¬ postAllows (searchDirective "title".toList "gt".toList "x".toList) :=
  ⟨rfl, by decide, by decide, by decide, rfl, rfl, by decide⟩

/-- The conditions of the query of `GetPosts` are the conditions of all the
directives parsed from the request; the declared search fields are not
consulted.  A token `a:b:c` with a recognised operator `b` contributes its
condition, whose text starts with the field `a` given by the caller, whatever
`a` is; a directive contributes no condition exactly when its operator is not
recognised. -/
theorem GetPosts_applies_any_field (U : UnicodeTables) (query : List QueryParam)
    (a b c : List Char) (ha : ':' ∉ a) (hb : ':' ∉ b) (hc : ':' ∉ c)
    (hop : b ∈ searchOperators) :
    (controllers.GetPostsQuery U query).wheres
        = (services.ExtractSearchParams query).filterMap directiveCondition
      ∧ (∃ w, specCondition a b c = some w ∧ a ++ [' '] <+: w.1
          ∧ (controllers.GetPostsQuery U
              [⟨"search".toList, [searchToken a b c], List.cons_ne_nil _ _⟩]).wheres = [w])
      ∧ (∀ d, directiveCondition d = none ↔ mapGet d "operator".toList ∉ searchOperators) := by
  refine ⟨GetPostsQuery_wheres U query, ?_, directiveCondition_eq_none⟩
  obtain ⟨w, hw, hpre⟩ := specCondition_some a b c hop
  refine ⟨w, hw, hpre, ?_⟩
  rw [GetPostsQuery_wheres]
  have hq : services.ExtractSearchParams
      [⟨"search".toList, [searchToken a b c], List.cons_ne_nil _ _⟩]
      = services.extractSearchLoop [searchToken a b c] := rfl
  rw [hq, extractSearchLoop_token a b c ha hb hc]
  have hd : directiveCondition (searchDirective a b c) = some w := hw
  simp [hd]

/-! ## The response envelope -/

/-- C17: the envelope of `BuildAPIResponse` holds the given data; its metadata
is the given metadata when the lowercased `SHOW_METADATA` is `true` and absent
otherwise; its pagination is the given pagination when the lowercased
`SHOW_PAGINATION` is `true` and absent otherwise.  With `SHOW_METADATA=false`
and `SHOW_PAGINATION=true` the metadata is absent and the pagination
present. -/
theorem BuildAPIResponse_envelope {α : Type} (U : UnicodeTables)
    (getenv : List Char → List Char) (data : α) (metadata : services.MetadataResponse)
    (pagination : services.PaginationResponse) :
    (services.BuildAPIResponse U getenv data metadata pagination).Data = data
      ∧ (services.BuildAPIResponse U getenv data metadata pagination).Metadata
          = (if stringsToLower U (getenv "SHOW_METADATA".toList) = "true".toList
              then some metadata else none)
      ∧ (services.BuildAPIResponse U getenv data metadata pagination).Pagination
          = (if stringsToLower U (getenv "SHOW_PAGINATION".toList) = "true".toList
              then some pagination else none)
      ∧ (services.BuildAPIResponse U
          (fun name => if name = "SHOW_METADATA".toList then "false".toList
            else if name = "SHOW_PAGINATION".toList then "true".toList else [])
          data metadata pagination).Metadata = none
      ∧ (services.BuildAPIResponse U
          (fun name => if name = "SHOW_METADATA".toList then "false".toList
            else if name = "SHOW_PAGINATION".toList then "true".toList else [])
          data metadata pagination).Pagination = some pagination
      ∧ (services.BuildAPIResponse U
          (fun name => if name = "SHOW_METADATA".toList then "TRUE".toList else [])
          data metadata pagination).Metadata = some metadata := by
  have key : ∀ env : List Char → List Char,
      (services.BuildAPIResponse U env data metadata pagination).Data = data
      ∧ (services.BuildAPIResponse U env data metadata pagination).Metadata
          = (if stringsToLower U (env "SHOW_METADATA".toList) = "true".toList
              then some metadata else none)
      ∧ (services.BuildAPIResponse U env data metadata pagination).Pagination
          = (if stringsToLower U (env "SHOW_PAGINATION".toList) = "true".toList
              then some pagination else none) := by
    intro env
    unfold services.BuildAPIResponse services.isTrue
    dsimp only
    generalize stringsToLower U (env "SHOW_METADATA".toList) = m
    generalize stringsToLower U (env "SHOW_PAGINATION".toList) = pg
    generalize "true".toList = t
    by_cases h1 : m = t <;> by_cases h2 : pg = t <;> simp [h1, h2]
  refine ⟨(key getenv).1, (key getenv).2.1, (key getenv).2.2, ?_, ?_, ?_⟩
  · rw [(key _).2.1]
    rfl
  · rw [(key _).2.2]
    rfl
  · rw [(key _).2.1]
    rfl

/-! ## `ValidateSlug` and `UpdatePost` -/

theorem mem_alnumRunes (c : Char) : c ∈ alnumRunes ↔ IsAlnum c := by
  unfold alnumRunes IsAlnum
  rw [List.mem_append, List.mem_map, List.mem_map]
  constructor
  · rintro (⟨i, hi, rfl⟩ | ⟨i, hi, rfl⟩)
    · rw [List.mem_range] at hi
      rw [toNat_ofNat_of_lt _ (by omega)]
      omega
    · rw [List.mem_range] at hi
      rw [toNat_ofNat_of_lt _ (by omega)]
      omega
  · rintro (h | h)
    · refine Or.inl ⟨c.toNat - 97, List.mem_range.2 (by omega), ?_⟩
      rw [show 97 + (c.toNat - 97) = c.toNat by omega, Char.ofNat_toNat]
    · refine Or.inr ⟨c.toNat - 48, List.mem_range.2 (by omega), ?_⟩
      rw [show 48 + (c.toNat - 48) = c.toNat by omega, Char.ofNat_toNat]

theorem regexClass_rmatch (l : List Char) (x : List Char) :
    (regexClass l).rmatch x = true ↔ ∃ c ∈ l, x = [c] := by
  induction l with
  | nil => simp [regexClass]
  | cons a l ih =>
    have : regexClass (a :: l) = RegularExpression.char a + regexClass l := rfl
    rw [this, RegularExpression.add_rmatch_iff, RegularExpression.char_rmatch_iff, ih]
    simp

theorem regexLiteral_rmatch (l : List Char) (x : List Char) :
    (regexLiteral l).rmatch x = true ↔ x = l := by
  induction l generalizing x with
  | nil =>
    have : regexLiteral [] = (1 : RegularExpression Char) := rfl
    rw [this, RegularExpression.one_rmatch_iff]
  | cons a l ih =>
    have : regexLiteral (a :: l) = RegularExpression.char a * regexLiteral l := rfl
    rw [this, RegularExpression.mul_rmatch_iff]
    constructor
    · rintro ⟨t, u, rfl, ht, hu⟩
      rw [RegularExpression.char_rmatch_iff] at ht
      rw [ih] at hu
      rw [ht, hu]
      rfl
    · rintro rfl
      exact ⟨[a], l, rfl, (RegularExpression.char_rmatch_iff a _).2 rfl, (ih l).2 rfl⟩

/-- The pattern `[a-z0-9]*`. -/
theorem alnumStar_rmatch (x : List Char) :
    (RegularExpression.star (regexClass alnumRunes)).rmatch x = true ↔ ∀ c ∈ x, IsAlnum c := by
  rw [RegularExpression.star_rmatch_iff]
  constructor
  · rintro ⟨S, rfl, hS⟩ c hc
    rw [List.mem_flatten] at hc
    obtain ⟨t, ht, hct⟩ := hc
    obtain ⟨d, hd, rfl⟩ := (regexClass_rmatch _ _).1 (hS t ht).2
    rw [List.mem_singleton] at hct
    subst hct
    exact (mem_alnumRunes _).1 hd
  · intro h
    refine ⟨x.map (fun c => [c]), ?_, ?_⟩
    · induction x with
      | nil => rfl
      | cons a as ih =>
        rw [List.map_cons, List.flatten_cons, ← ih (fun c hc => h c (List.mem_cons_of_mem _ hc))]
        rfl
    · intro t ht
      obtain ⟨c, hc, rfl⟩ := List.mem_map.1 ht
      exact ⟨by simp, (regexClass_rmatch _ _).2 ⟨c, (mem_alnumRunes c).2 (h c hc), rfl⟩⟩

/-- The pattern `[a-z0-9]+`. -/
theorem alnumPlus_rmatch (x : List Char) :
    (regexClass alnumRunes * RegularExpression.star (regexClass alnumRunes)).rmatch x = true
      ↔ x ≠ [] ∧ ∀ c ∈ x, IsAlnum c := by
  rw [RegularExpression.mul_rmatch_iff]
  constructor
  · rintro ⟨t, u, rfl, ht, hu⟩
    obtain ⟨d, hd, rfl⟩ := (regexClass_rmatch _ _).1 ht
    rw [alnumStar_rmatch] at hu
    refine ⟨by simp, ?_⟩
    intro c hc
    rcases List.mem_append.1 hc with h | h
    · rw [List.mem_singleton] at h
      subst h
      exact (mem_alnumRunes _).1 hd
    · exact hu c h
  · rintro ⟨hne, h⟩
    cases x with
    | nil => exact absurd rfl hne
    | cons a as =>
      exact ⟨[a], as, rfl,
        (regexClass_rmatch _ _).2 ⟨a, (mem_alnumRunes a).2 (h a (List.mem_cons_self _ _)), rfl⟩,
        (alnumStar_rmatch as).2 (fun c hc => h c (List.mem_cons_of_mem _ hc))⟩
theorem not_isAlnum_hyphen : ¬ IsAlnum '-' := by decide

theorem isSlugChar_iff (c : Char) : IsSlugChar c ↔ IsAlnum c ∨ c = '-' := by
  unfold IsSlugChar IsAlnum
  have ha : 'a'.toNat = 97 := rfl
  have hz : 'z'.toNat = 122 := rfl
  have h0 : '0'.toNat = 48 := rfl
  have h9 : '9'.toNat = 57 := rfl
  rw [ha, hz, h0, h9, or_assoc]

theorem slugShapeFrom_alnum (b : Bool) (c : Char) (cs : List Char) (h : IsAlnum c) :
    slugShapeFrom b (c :: cs) = slugShapeFrom true cs := by
  rw [slugShapeFrom, if_pos h]

theorem slugShapeFrom_hyphen (cs : List Char) :
    slugShapeFrom true ('-' :: cs) = slugShapeFrom false cs := by
  rw [slugShapeFrom, if_neg not_isAlnum_hyphen, if_pos ⟨rfl, rfl⟩]

theorem slugShapeFrom_alnum_append (w y : List Char) (h : ∀ c ∈ w, IsAlnum c) :
    slugShapeFrom true (w ++ y) = slugShapeFrom true y := by
  induction w with
  | nil => rfl
  | cons c cs ih =>
    rw [List.cons_append, slugShapeFrom_alnum _ _ _ (h c (List.mem_cons_self _ _)),
      ih (fun d hd => h d (List.mem_cons_of_mem _ hd))]

theorem slugShapeFrom_alnum_append_ne (b : Bool) (w y : List Char) (hne : w ≠ [])
    (h : ∀ c ∈ w, IsAlnum c) : slugShapeFrom b (w ++ y) = slugShapeFrom true y := by
  cases w with
  | nil => exact absurd rfl hne
  | cons c cs =>
    rw [List.cons_append, slugShapeFrom_alnum _ _ _ (h c (List.mem_cons_self _ _)),
      slugShapeFrom_alnum_append cs y (fun d hd => h d (List.mem_cons_of_mem _ hd))]

/-- The group `-[a-z0-9]+`. -/
theorem hyphenGroup_rmatch (t : List Char) :
    (regexLiteral ['-']
        * (regexClass alnumRunes * RegularExpression.star (regexClass alnumRunes))).rmatch t
        = true
      ↔ ∃ w, t = '-' :: w ∧ w ≠ [] ∧ ∀ c ∈ w, IsAlnum c := by
  rw [RegularExpression.mul_rmatch_iff]
  constructor
  · rintro ⟨u, w, rfl, hu, hw⟩
    rw [regexLiteral_rmatch] at hu
    rw [alnumPlus_rmatch] at hw
    subst hu
    exact ⟨w, rfl, hw.1, hw.2⟩
  · rintro ⟨w, rfl, hne, hw⟩
    exact ⟨['-'], w, rfl, (regexLiteral_rmatch _ _).2 rfl, (alnumPlus_rmatch w).2 ⟨hne, hw⟩⟩

theorem slugShapeFrom_flatten (S : List (List Char))
    (hS : ∀ t ∈ S, ∃ w, t = '-' :: w ∧ w ≠ [] ∧ ∀ c ∈ w, IsAlnum c) :
    slugShapeFrom true S.flatten = true := by
  induction S with
  | nil => rfl
  | cons t S ih =>
    obtain ⟨w, rfl, hne, hw⟩ := hS t (List.mem_cons_self _ _)
    rw [List.flatten_cons, List.cons_append, slugShapeFrom_hyphen,
      slugShapeFrom_alnum_append_ne false w _ hne hw]
    exact ih (fun t ht => hS t (List.mem_cons_of_mem _ ht))

theorem slugShapeFrom_split (y : List Char) :
    ∀ b, slugShapeFrom b y = true →
      ∃ u v, y = u ++ v ∧ (∀ c ∈ u, IsAlnum c) ∧ (b = false → u ≠ [])
        ∧ ∃ S : List (List Char), v = S.flatten
          ∧ ∀ t ∈ S, ∃ w, t = '-' :: w ∧ w ≠ [] ∧ ∀ c ∈ w, IsAlnum c := by
  induction y with
  | nil =>
    intro b hb
    refine ⟨[], [], rfl, by simp, ?_, [], rfl, by simp⟩
    intro hf
    rw [hf] at hb
    exact absurd hb (by decide)
  | cons c cs ih =>
    intro b hb
    rw [slugShapeFrom] at hb
    by_cases hal : IsAlnum c
    · rw [if_pos hal] at hb
      obtain ⟨u, v, rfl, hu, _, hv⟩ := ih true hb
      refine ⟨c :: u, v, rfl, ?_, by simp, hv⟩
      intro d hd
      rcases List.mem_cons.1 hd with hd | hd
      · exact hd ▸ hal
      · exact hu d hd
    · rw [if_neg hal] at hb
      by_cases hh : c = '-' ∧ b = true
      · rw [if_pos hh] at hb
        obtain ⟨rfl, rfl⟩ := hh
        obtain ⟨u, v, rfl, hu, hne, S, rfl, hS⟩ := ih false hb
        refine ⟨[], '-' :: u ++ S.flatten, rfl, by simp, by simp, ('-' :: u) :: S, by simp, ?_⟩
        intro t ht
        rcases List.mem_cons.1 ht with ht | ht
        · exact ⟨u, ht, hne rfl, hu⟩
        · exact hS t ht
      · rw [if_neg hh] at hb
        exact absurd hb (by decide)

/-- The pattern of `ValidateSlug` with the hyphen as separator accepts what
its automaton accepts. -/
theorem validSlugRegex_rmatch (x : List Char) :
    (validSlugRegex ['-']).rmatch x = true ↔ slugShapeFrom false x = true := by
  unfold validSlugRegex
  rw [RegularExpression.mul_rmatch_iff]
  constructor
  · rintro ⟨u, v, rfl, hu, hv⟩
    rw [alnumPlus_rmatch] at hu
    rw [RegularExpression.star_rmatch_iff] at hv
    obtain ⟨S, rfl, hS⟩ := hv
    rw [slugShapeFrom_alnum_append_ne false u _ hu.1 hu.2]
    exact slugShapeFrom_flatten S (fun t ht => (hyphenGroup_rmatch t).1 (hS t ht).2)
  · intro h
    obtain ⟨u, v, rfl, hu, hne, S, rfl, hS⟩ := slugShapeFrom_split x false h
    refine ⟨u, S.flatten, rfl, (alnumPlus_rmatch u).2 ⟨hne rfl, hu⟩, ?_⟩
    rw [RegularExpression.star_rmatch_iff]
    refine ⟨S, rfl, fun t ht => ⟨?_, (hyphenGroup_rmatch t).2 (hS t ht)⟩⟩
    obtain ⟨w, rfl, _, _⟩ := hS t ht
    simp
theorem hyphens_infix_cons (c : Char) (cs : List Char) :
    ['-', '-'] <:+: c :: cs ↔ (c = '-' ∧ cs.head? = some '-') ∨ ['-', '-'] <:+: cs := by
  rw [List.infix_cons_iff]
  apply or_congr_left
  cases cs with
  | nil => simp
  | cons d ds => simp [eq_comm]

theorem getLast?_cons_ne (c : Char) (cs : List Char) :
    (c :: cs).getLast? ≠ some '-' ↔ (cs = [] → c ≠ '-') ∧ cs.getLast? ≠ some '-' := by
  cases cs with
  | nil => simp
  | cons d ds => simp [List.getLast?_cons_cons]

/-- What the automaton accepts. -/
theorem slugShapeFrom_iff (x : List Char) : ∀ b,
    slugShapeFrom b x = true ↔
      (∀ c ∈ x, IsSlugChar c) ∧ (x = [] → b = true) ∧ (x.head? = some '-' → b = true)
        ∧ x.getLast? ≠ some '-' ∧ ¬ ['-', '-'] <:+: x := by
  induction x with
  | nil =>
    intro b
    simp [slugShapeFrom]
  | cons c cs ih =>
    intro b
    rw [slugShapeFrom, hyphens_infix_cons, getLast?_cons_ne]
    by_cases hal : IsAlnum c
    · have hne : c ≠ '-' := fun e => not_isAlnum_hyphen (e ▸ hal)
      have hsc : IsSlugChar c := (isSlugChar_iff c).2 (Or.inl hal)
      rw [if_pos hal, ih true]
      simp [hne, hsc]
    · rw [if_neg hal]
      by_cases hh : c = '-' ∧ b = true
      · obtain ⟨rfl, rfl⟩ := hh
        have hsc : IsSlugChar '-' := Or.inr (Or.inr rfl)
        rw [if_pos ⟨rfl, rfl⟩, ih false]
        simp only [List.mem_cons, forall_eq_or_imp, hsc, true_and, reduceCtorEq,
          IsEmpty.forall_iff, List.head?_cons, implies_true, ne_eq, not_true_eq_false,
          imp_false, true_and, not_or, not_and, Bool.false_eq_true]
        tauto
      · rw [if_neg hh]
        simp only [Bool.false_eq_true, false_iff, not_and]
        intro hall _ hhead
        have hsc := (isSlugChar_iff c).1 (hall c (List.mem_cons_self _ _))
        rcases hsc with h | h
        · exact absurd h hal
        · subst h
          exact absurd ⟨rfl, hhead (by simp)⟩ hh

theorem ValidateSlug_iff (s : List Char) :
    NewTransformService.ValidateSlug s = true ↔
      s ≠ [] ∧ (∀ c ∈ s, IsSlugChar c) ∧ s.head? ≠ some '-' ∧ s.getLast? ≠ some '-'
        ∧ ¬ ['-', '-'] <:+: s := by
  have h : NewTransformService.ValidateSlug s = (validSlugRegex ['-']).rmatch s := rfl
  rw [h, validSlugRegex_rmatch, slugShapeFrom_iff]
  simp only [Bool.false_eq_true, imp_false, ne_eq]
  tauto

/-- C18, counterexample: with the posts `a` and `b` stored, `PUT /posts/a`
with the custom slug `b` is rejected with the invalid-input error
`Slug ya existe`, although `ValidateSlug` accepts `b`. -/
theorem UpdatePost_rejects_valid_slug :
    ¬ ∀ (tx : List Post) (slug : List Char) (post : Post)
        (input : controllers.UpdatePostInput),
        firstBySlug tx slug = some post → input.Slug ≠ [] →
        ((∃ detail, controllers.UpdatePost tx slug (Except.ok input)
            = controllers.UpdatePostResult.failed (services.ErrInvalidInput detail))
          ↔ NewTransformService.ValidateSlug input.Slug = false) := by
  intro h
  have := h
    [⟨1, "A".toList, "a".toList, [], 1, false⟩, ⟨2, "B".toList, "b".toList, [], 1, false⟩]
    "a".toList ⟨1, "A".toList, "a".toList, [], 1, false⟩ ⟨[], [], "b".toList⟩ (by decide)
    (by decide)
  have hv : NewTransformService.ValidateSlug "b".toList = true := by decide
  rw [show (⟨[], [], "b".toList⟩ : controllers.UpdatePostInput).Slug = "b".toList from rfl,
    hv] at this
  exact absurd (this.1 ⟨"Slug ya existe".toList, by decide⟩) (by decide)

/-- C18, amended: with the default separator, `ValidateSlug(s)` is true
exactly when `s` is non-empty, holds only runes of `[a-z0-9-]`, has no leading
or trailing hyphen and no `--`.  For a post that is found and a non-empty
custom slug, `UpdatePost` answers the invalid-input error `Slug inválido`
exactly when `ValidateSlug` is false, the invalid-input error `Slug ya existe`
exactly when the slug is valid and another post has it, and otherwise goes on
to the update with the slug among the updates. -/
theorem ValidateSlug_and_UpdatePost (tx : List Post) (slug : List Char) (post : Post)
    (input : controllers.UpdatePostInput) (hfound : firstBySlug tx slug = some post)
    (hslug : input.Slug ≠ []) :
    (∀ s, NewTransformService.ValidateSlug s = true ↔
        s ≠ [] ∧ (∀ c ∈ s, IsSlugChar c) ∧ s.head? ≠ some '-' ∧ s.getLast? ≠ some '-'
          ∧ ¬ ['-', '-'] <:+: s)
      ∧ (controllers.UpdatePost tx slug (Except.ok input)
            = controllers.UpdatePostResult.failed
                (services.ErrInvalidInput "Slug inválido".toList)
          ↔ NewTransformService.ValidateSlug input.Slug = false)
      ∧ (controllers.UpdatePost tx slug (Except.ok input)
            = controllers.UpdatePostResult.failed
                (services.ErrInvalidInput "Slug ya existe".toList)
          ↔ NewTransformService.ValidateSlug input.Slug = true
            ∧ 0 < countSlugOther tx input.Slug post.ID)
      ∧ ((∃ updates, controllers.UpdatePost tx slug (Except.ok input)
            = controllers.UpdatePostResult.updated post updates
            ∧ mapGet updates "slug".toList = input.Slug)
          ↔ NewTransformService.ValidateSlug input.Slug = true
            ∧ countSlugOther tx input.Slug post.ID = 0) := by
  have hne : services.ErrInvalidInput "Slug inválido".toList
      ≠ services.ErrInvalidInput "Slug ya existe".toList := by decide
  have hrun : controllers.UpdatePost tx slug (Except.ok input)
      = if ¬ NewTransformService.ValidateSlug input.Slug = true then
          controllers.UpdatePostResult.failed (services.ErrInvalidInput "Slug inválido".toList)
        else if countSlugOther tx input.Slug post.ID > 0 then
          controllers.UpdatePostResult.failed (services.ErrInvalidInput "Slug ya existe".toList)
        else controllers.UpdatePostResult.updated post
          ((if input.Content ≠ [] then
              (if input.Title ≠ [] then ([] : StringMap) ++ [("title".toList, input.Title)]
                else []) ++ [("content".toList, input.Content)]
            else (if input.Title ≠ [] then ([] : StringMap) ++ [("title".toList, input.Title)]
                else [])) ++ [("slug".toList, input.Slug)]) := by
    unfold controllers.UpdatePost
    rw [hfound]
    dsimp only
    rw [if_pos hslug]
  have hget : mapGet ((if input.Content ≠ [] then
              (if input.Title ≠ [] then ([] : StringMap) ++ [("title".toList, input.Title)]
                else []) ++ [("content".toList, input.Content)]
            else (if input.Title ≠ [] then ([] : StringMap) ++ [("title".toList, input.Title)]
                else [])) ++ [("slug".toList, input.Slug)]) "slug".toList = input.Slug := by
    by_cases ht : input.Title = [] <;> by_cases hct : input.Content = [] <;>
      simp [mapGet, ht, hct, List.lookup]
  rw [hrun]
  generalize services.ErrInvalidInput "Slug inválido".toList = e1 at hne ⊢
  generalize services.ErrInvalidInput "Slug ya existe".toList = e2 at hne ⊢
  refine ⟨ValidateSlug_iff, ?_, ?_, ?_⟩
  · by_cases hv : NewTransformService.ValidateSlug input.Slug = true
    · rw [if_neg (not_not.2 hv)]
      by_cases hc : countSlugOther tx input.Slug post.ID > 0
      · rw [if_pos hc]
        simp [hv, hne.symm]
      · rw [if_neg hc]
        simp [hv]
    · rw [if_pos hv]
      simpa using hv
  · by_cases hv : NewTransformService.ValidateSlug input.Slug = true
    · rw [if_neg (not_not.2 hv)]
      by_cases hc : countSlugOther tx input.Slug post.ID > 0
      · rw [if_pos hc]
        simp [hv, hc]
      · rw [if_neg hc]
        simp [hv, hc]
    · rw [if_pos hv]
      simp [hv, hne]
  · by_cases hv : NewTransformService.ValidateSlug input.Slug = true
    · rw [if_neg (not_not.2 hv)]
      by_cases hc : countSlugOther tx input.Slug post.ID > 0
      · rw [if_pos hc]
        constructor
        · rintro ⟨_, h, _⟩
          cases h
        · rintro ⟨_, h⟩
          omega
      · rw [if_neg hc]
        constructor
        · intro _
          exact ⟨hv, by omega⟩
        · intro _
          exact ⟨_, rfl, hget⟩
    · rw [if_pos hv]
      constructor
      · rintro ⟨_, h, _⟩
        cases h
      · rintro ⟨h, _⟩
        exact absurd h hv

/-- Witness of C18: the custom slug `b--c` on the stored post `a`. -/
theorem ValidateSlug_and_UpdatePost_witness :
    controllers.UpdatePost [⟨1, "A".toList, "a".toList, [], 1, false⟩] "a".toList
        (Except.ok ⟨[], [], "b--c".toList⟩)
      = controllers.UpdatePostResult.failed (services.ErrInvalidInput "Slug inválido".toList) :=
  (ValidateSlug_and_UpdatePost [⟨1, "A".toList, "a".toList, [], 1, false⟩] "a".toList
    ⟨1, "A".toList, "a".toList, [], 1, false⟩ ⟨[], [], "b--c".toList⟩ (by decide)
    (by decide)).2.1.2 (by decide)

/-! ## `Post.BeforeUpdate` -/

/-- The loop of `Post.BeforeUpdate` is the loop of `GenerateUniqueSlug` with
the hyphen as separator and "another row has this slug" as predicate. -/
theorem beforeUpdateLoop_eq (tx : List Post) (id : Nat) (existingSlug : List Char → Bool)
    (h : ∀ x, countSlugOther tx x id ≠ 0 ↔ existingSlug x = true) (b : List Char) :
    ∀ (fuel : Nat) (slug : List Char) (counter probes : Nat),
    beforeUpdateLoop tx id b fuel slug counter probes
      = generateUniqueSlugLoop NewTransformService existingSlug b fuel slug counter probes := by
  intro fuel
  induction fuel with
  | zero => intro _ _ _; rfl
  | succ f ih =>
    intro slug counter probes
    rw [beforeUpdateLoop, generateUniqueSlugLoop]
    by_cases hc : countSlugOther tx slug id = 0
    · have he : ¬ existingSlug slug = true := fun e => (h slug).2 e hc
      rw [if_pos hc, if_neg he]
    · rw [if_neg hc, if_pos ((h slug).1 hc), ih]
      rfl

theorem firstByID_some (tx : List Post) (id : Nat) (old : Post)
    (h : firstByID tx id = some old) : old.ID = id ∧ old.Deleted = false ∧ old ∈ tx := by
  unfold firstByID at h
  have h1 := List.find?_some h
  have h2 := List.mem_of_find?_eq_some h
  simp only [Bool.and_eq_true, Bool.not_eq_true', decide_eq_true_eq] at h1
  exact ⟨h1.2, h1.1, h2⟩

theorem countSlugOther_eq_zero (tx : List Post) (slug : List Char) (id : Nat) :
    countSlugOther tx slug id = 0
      ↔ ∀ row ∈ tx, row.Deleted = false → row.Slug = slug → row.ID = id := by
  unfold countSlugOther
  rw [List.length_eq_zero, List.filter_eq_nil_iff]
  constructor
  · intro h row hrow hd hs
    have := h row hrow
    simp only [Bool.and_eq_true, Bool.not_eq_true', decide_eq_true_eq, not_and,
      Decidable.not_not] at this
    exact this ⟨hd, hs⟩
  · intro h row hrow
    simp only [Bool.and_eq_true, Bool.not_eq_true', decide_eq_true_eq, not_and,
      Decidable.not_not]
    rintro ⟨hd, hs⟩
    exact h row hrow hd hs

/-- C19: let `old` be the stored post that `tx.First` finds for the ID of `p`,
and let candidate `k` be the first of `b`, `b-1`, `b-2`, … that no row with
another ID has, where `b = generateSlug(p.Title)`.  When the title differs from
the stored one and the slug is the stored one, `BeforeUpdate` returns `p` with
`Slug` set to candidate `k` and nothing else changed; in every other case it
returns `p` as it is. -/
theorem BeforeUpdate_slug (U : UnicodeTables) (p old : Post) (tx : List Post) (k fuel : Nat)
    (hold : firstByID tx p.ID = some old)
    (htaken : ∀ j < k, countSlugOther tx (slugCandidate (generateSlug U p.Title) j) p.ID ≠ 0)
    (hfree : countSlugOther tx (slugCandidate (generateSlug U p.Title) k) p.ID = 0)
    (hfuel : k < fuel) :
    old.ID = p.ID
      ∧ (old.Title ≠ p.Title ∧ p.Slug = old.Slug →
          p.BeforeUpdate U tx fuel
            = some (Except.ok { p with Slug := slugCandidate (generateSlug U p.Title) k }))
      ∧ (¬ (old.Title ≠ p.Title ∧ p.Slug = old.Slug) →
          ∀ n, p.BeforeUpdate U tx n = some (Except.ok p))
      ∧ (∀ s, countSlugOther tx s p.ID = 0
          ↔ ∀ row ∈ tx, row.Deleted = false → row.Slug = s → row.ID = p.ID) := by
  refine ⟨(firstByID_some tx p.ID old hold).1, ?_, ?_, fun s => countSlugOther_eq_zero tx s p.ID⟩
  · intro hcond
    have hrun := generateUniqueSlugLoop_run NewTransformService
      (fun x => decide (countSlugOther tx x p.ID ≠ 0)) (generateSlug U p.Title) k fuel 0 0
      (fun i hi => by
        rw [Nat.zero_add, ← slugCandidate_eq]
        exact decide_eq_true (htaken i hi))
      (by
        rw [Nat.zero_add, ← slugCandidate_eq]
        exact decide_eq_false (by rw [hfree]; exact fun h => h rfl))
    have h0 : candidateWith NewTransformService.slugSeparator (generateSlug U p.Title) 0
        = generateSlug U p.Title := rfl
    rw [if_pos hfuel, h0, Nat.zero_add, Nat.zero_add, ← slugCandidate_eq] at hrun
    unfold Post.BeforeUpdate
    rw [hold]
    dsimp only
    rw [if_pos hcond, beforeUpdateLoop_eq tx p.ID
      (fun x => decide (countSlugOther tx x p.ID ≠ 0)) (fun x => by simp), hrun]
    rfl
  · intro hcond n
    unfold Post.BeforeUpdate
    rw [hold]
    dsimp only
    rw [if_neg hcond]

/-- Witness of C19: post 1 takes the title of post 2, whose slug `new-title`
is taken, so its slug becomes `new-title-1`. -/
theorem BeforeUpdate_slug_witness :
    (⟨1, "New Title".toList, "old".toList, [], 1, false⟩ : Post).BeforeUpdate plainTables
        [⟨1, "Old".toList, "old".toList, [], 1, false⟩,
         ⟨2, "New Title".toList, "new-title".toList, [], 1, false⟩] 2
      = some (Except.ok
          { (⟨1, "New Title".toList, "old".toList, [], 1, false⟩ : Post) with
            Slug := slugCandidate (generateSlug plainTables "New Title".toList) 1 }) :=
  (BeforeUpdate_slug plainTables ⟨1, "New Title".toList, "old".toList, [], 1, false⟩
    ⟨1, "Old".toList, "old".toList, [], 1, false⟩
    [⟨1, "Old".toList, "old".toList, [], 1, false⟩,
     ⟨2, "New Title".toList, "new-title".toList, [], 1, false⟩] 1 2 (by decide)
    (fun j hj => by
      have : j = 0 := by omega
      subst this
      decide)
    (by decide) (by decide)).2.1 (by decide)

/-! ## `AuthMiddleware` -/

/-- C20: a route behind `AuthMiddleware` runs its handler exactly when the
`Authorization` header splits on spaces into the two parts `Bearer` and a
token that `ValidateToken` accepts; the handler then sees the claims `id` and
`role` under the keys `user_id` and `user_role`.  In every other case the
response is the status 401 written by the middleware and the handler is not
run. -/
theorem AuthMiddleware_gate {β : Type} (jwtParse : List Char → Except (List Char) JwtToken)
    (handler : List (List Char × AnyValue) → β) (authHeader : List Char)
    (keys : List (List Char × AnyValue)) :
    ((∃ b, protectedRoute jwtParse handler authHeader keys = Except.ok b)
        ↔ ∃ token claims, stringsSplit authHeader [' '] = ["Bearer".toList, token]
            ∧ utils.ValidateToken jwtParse token = Except.ok claims)
      ∧ ((¬ ∃ token claims, stringsSplit authHeader [' '] = ["Bearer".toList, token]
            ∧ utils.ValidateToken jwtParse token = Except.ok claims) →
          ∃ message, protectedRoute jwtParse handler authHeader keys
            = Except.error (401, message))
      ∧ (∀ token claims, stringsSplit authHeader [' '] = ["Bearer".toList, token] →
          utils.ValidateToken jwtParse token = Except.ok claims →
          protectedRoute jwtParse handler authHeader keys
            = Except.ok (handler (ginSet (ginSet keys "user_id".toList
                (claimGet claims "id".toList)) "user_role".toList
                (claimGet claims "role".toList)))) := by
  have hrun : ∀ token claims, stringsSplit authHeader [' '] = ["Bearer".toList, token] →
      utils.ValidateToken jwtParse token = Except.ok claims →
      protectedRoute jwtParse handler authHeader keys
        = Except.ok (handler (ginSet (ginSet keys "user_id".toList
            (claimGet claims "id".toList)) "user_role".toList
            (claimGet claims "role".toList))) := by
    intro token claims hs hv
    have hne : authHeader ≠ [] := by
      intro e
      rw [e, show stringsSplit [] [' '] = [[]] from rfl] at hs
      simp at hs
    unfold protectedRoute middleware.AuthMiddleware
    dsimp only
    rw [if_neg hne, hs]
    have hparts : ¬ ((["Bearer".toList, token] : List (List Char)).length ≠ 2
        ∨ ([("Bearer".toList), token] : List (List Char)).getD 0 [] ≠ "Bearer".toList) := by
      simp
    rw [if_neg hparts]
    have hget : ([("Bearer".toList), token] : List (List Char)).getD 1 [] = token := rfl
    rw [hget, hv]
  have hfail : (¬ ∃ token claims, stringsSplit authHeader [' '] = ["Bearer".toList, token]
        ∧ utils.ValidateToken jwtParse token = Except.ok claims) →
      ∃ message, protectedRoute jwtParse handler authHeader keys
        = Except.error (401, message) := by
    intro hno
    unfold protectedRoute middleware.AuthMiddleware
    dsimp only
    by_cases hne : authHeader = []
    · rw [if_pos hne]
      exact ⟨_, rfl⟩
    · rw [if_neg hne]
      by_cases hparts : (stringsSplit authHeader [' ']).length ≠ 2
          ∨ (stringsSplit authHeader [' ']).getD 0 [] ≠ "Bearer".toList
      · rw [if_pos hparts]
        exact ⟨_, rfl⟩
      · rw [if_neg hparts]
        rw [not_or, not_not, not_not] at hparts
        obtain ⟨hlen, hfirst⟩ := hparts
        have hsplit : stringsSplit authHeader [' ']
            = ["Bearer".toList, (stringsSplit authHeader [' ']).getD 1 []] := by
          match hm : stringsSplit authHeader [' '], hlen, hfirst with
          | [x, y], _, hfirst =>
            have : x = "Bearer".toList := hfirst
            rw [this]
            rfl
        cases hv : utils.ValidateToken jwtParse ((stringsSplit authHeader [' ']).getD 1 []) with
        | error err => exact ⟨err, rfl⟩
        | ok claims => exact absurd ⟨_, claims, hsplit, hv⟩ hno
  refine ⟨⟨?_, ?_⟩, hfail, hrun⟩
  · rintro ⟨b, hb⟩
    by_contra hno
    obtain ⟨message, hm⟩ := hfail hno
    rw [hm] at hb
    cases hb
  · rintro ⟨token, claims, hs, hv⟩
    exact ⟨_, hrun token claims hs hv⟩

/-- Witness of C20: the header `Bearer abc` with a parser that accepts `abc`. -/
theorem AuthMiddleware_gate_witness :
    protectedRoute
        (fun _ => Except.ok ⟨some [("id".toList, AnyValue.number 7),
          ("role".toList, AnyValue.str "admin".toList)], true⟩)
        (fun keys => keys) "Bearer abc".toList []
      = Except.ok ((fun keys => keys) (ginSet (ginSet [] "user_id".toList
          (claimGet [("id".toList, AnyValue.number 7),
            ("role".toList, AnyValue.str "admin".toList)] "id".toList)) "user_role".toList
          (claimGet [("id".toList, AnyValue.number 7),
            ("role".toList, AnyValue.str "admin".toList)] "role".toList))) :=
  (AuthMiddleware_gate
    (fun _ => Except.ok ⟨some [("id".toList, AnyValue.number 7),
      ("role".toList, AnyValue.str "admin".toList)], true⟩)
    (fun keys => keys) "Bearer abc".toList []).2.2 "abc".toList
    [("id".toList, AnyValue.number 7), ("role".toList, AnyValue.str "admin".toList)]
    (by decide) rfl

/-! ## `RoleMiddleware` -/

theorem ginGet_ginSet (keys : List (List Char × AnyValue)) (key : List Char) (value : AnyValue) :
    ginGet (ginSet keys key value) key = some value := by
  simp [ginGet, ginSet, List.lookup]

theorem lookup_filter_ne (keys : List (List Char × AnyValue)) (key other : List Char)
    (h : other ≠ key) :
    (keys.filter (fun e => decide (e.1 ≠ key))).lookup other = keys.lookup other := by
  induction keys with
  | nil => rfl
  | cons e es ih =>
    obtain ⟨k, v⟩ := e
    by_cases hk : k = key
    · subst hk
      have h1 : (other == k) = false := by simpa using h
      simpa [List.filter, List.lookup, h1] using ih
    · by_cases ho : other = k
      · subst ho
        simp [List.filter, hk, List.lookup]
      · have h1 : (other == k) = false := by simpa using ho
        simpa [List.filter, hk, List.lookup, h1] using ih

theorem ginGet_ginSet_ne (keys : List (List Char × AnyValue)) (key other : List Char)
    (value : AnyValue) (h : other ≠ key) :
    ginGet (ginSet keys key value) other = ginGet keys other := by
  unfold ginGet ginSet
  have h1 : (other == key) = false := by simpa using h
  rw [List.lookup, h1]
  exact lookup_filter_ne keys key other h

theorem RoleMiddleware_eq (roles : List (List Char)) (keys : List (List Char × AnyValue)) :
    middleware.RoleMiddleware roles keys
      = match ginGet keys "user_role".toList with
        | some (AnyValue.str roleStr) =>
            if roleStr ∈ roles then middleware.Outcome.next keys
            else middleware.Outcome.abort 403 "Insufficient permissions".toList
        | some _ => middleware.Outcome.abort 401 "User role is not a string".toList
        | none => middleware.Outcome.abort 401 "User role not found in context".toList := by
  unfold middleware.RoleMiddleware
  cases ginGet keys "user_role".toList with
  | none => rfl
  | some v =>
    cases v with
    | str r =>
      by_cases h : r ∈ roles
      · have : roles.any (fun role => decide (r = role)) = true := by
          simpa using h
        simp only [this, if_true, if_pos h]
      · have : roles.any (fun role => decide (r = role)) = false := by
          rw [List.any_eq_false]
          intro x hx
          simpa using fun e : r = x => h (e ▸ hx)
        simp only [this, if_neg h]
        rfl
    | null => rfl
    | number _ => rfl
    | uint _ => rfl

/-- C21: `RoleMiddleware(roles...)` calls `c.Next()` exactly when the context
holds under `user_role` a string that is one of `roles`; it answers 401 when
the key is missing or holds no string, and 403 when it holds a string outside
`roles`; and the route `DELETE /users/:id` reaches its handler exactly for a
valid token whose claim `role` is the string `admin`. -/
theorem RoleMiddleware_gate (roles : List (List Char)) (keys : List (List Char × AnyValue)) :
    ((∃ keys1, middleware.RoleMiddleware roles keys = middleware.Outcome.next keys1)
        ↔ ∃ roleStr, ginGet keys "user_role".toList = some (AnyValue.str roleStr)
            ∧ roleStr ∈ roles)
      ∧ ((∃ roleStr, ginGet keys "user_role".toList = some (AnyValue.str roleStr)
            ∧ roleStr ∈ roles) →
          middleware.RoleMiddleware roles keys = middleware.Outcome.next keys)
      ∧ (ginGet keys "user_role".toList = none →
          middleware.RoleMiddleware roles keys
            = middleware.Outcome.abort 401 "User role not found in context".toList)
      ∧ (∀ value, ginGet keys "user_role".toList = some value →
          (∀ roleStr, value ≠ AnyValue.str roleStr) →
          middleware.RoleMiddleware roles keys
            = middleware.Outcome.abort 401 "User role is not a string".toList)
      ∧ (∀ roleStr, ginGet keys "user_role".toList = some (AnyValue.str roleStr) →
          roleStr ∉ roles →
          middleware.RoleMiddleware roles keys
            = middleware.Outcome.abort 403 "Insufficient permissions".toList)
      ∧ ∀ {β : Type} (jwtParse : List Char → Except (List Char) JwtToken)
          (handler : List (List Char × AnyValue) → β) (authHeader : List Char),
          (∃ b, deleteUserRoute jwtParse handler authHeader keys = Except.ok b)
            ↔ ∃ token claims, stringsSplit authHeader [' '] = ["Bearer".toList, token]
                ∧ utils.ValidateToken jwtParse token = Except.ok claims
                ∧ claimGet claims "role".toList = AnyValue.str "admin".toList := by
  have hok : (∃ roleStr, ginGet keys "user_role".toList = some (AnyValue.str roleStr)
      ∧ roleStr ∈ roles) →
      middleware.RoleMiddleware roles keys = middleware.Outcome.next keys := by
    rintro ⟨r, hr, hmem⟩
    rw [RoleMiddleware_eq, hr]
    exact if_pos hmem
  refine ⟨⟨?_, fun h => ⟨keys, hok h⟩⟩, hok, ?_, ?_, ?_, ?_⟩
  · rintro ⟨keys1, h⟩
    rw [RoleMiddleware_eq] at h
    cases hg : ginGet keys "user_role".toList with
    | none => rw [hg] at h; cases h
    | some v =>
      rw [hg] at h
      cases v with
      | str r =>
        by_cases hmem : r ∈ roles
        · exact ⟨r, rfl, hmem⟩
        · dsimp only at h
          rw [if_neg hmem] at h
          cases h
      | null => cases h
      | number _ => cases h
      | uint _ => cases h
  · intro hg
    rw [RoleMiddleware_eq, hg]
  · intro value hg hns
    rw [RoleMiddleware_eq, hg]
    cases value with
    | str r => exact absurd rfl (hns r)
    | null => rfl
    | number _ => rfl
    | uint _ => rfl
  · intro r hg hmem
    rw [RoleMiddleware_eq, hg]
    exact if_neg hmem
  · intro β jwtParse handler authHeader
    unfold deleteUserRoute middleware.AuthMiddleware
    constructor
    · rintro ⟨b, hb⟩
      by_cases h0 : authHeader = []
      · rw [if_pos h0] at hb
        cases hb
      · rw [if_neg h0] at hb
        dsimp only at hb
        by_cases hparts : (stringsSplit authHeader [' ']).length ≠ 2
            ∨ (stringsSplit authHeader [' ']).getD 0 [] ≠ "Bearer".toList
        · rw [if_pos hparts] at hb
          cases hb
        · rw [if_neg hparts] at hb
          have hlen : (stringsSplit authHeader [' ']).length = 2 := by
            by_contra hc
            exact hparts (Or.inl hc)
          have hfst : (stringsSplit authHeader [' ']).getD 0 [] = "Bearer".toList := by
            by_contra hc
            exact hparts (Or.inr hc)
          obtain ⟨a, t, hsplit⟩ : ∃ a t, stringsSplit authHeader [' '] = [a, t] := by
            match hm : stringsSplit authHeader [' '], hlen with
            | [a, t], _ => exact ⟨a, t, rfl⟩
          rw [hsplit] at hfst hb
          have ha : a = "Bearer".toList := hfst
          subst ha
          have ht : [("Bearer".toList), t].getD 1 [] = t := rfl
          rw [ht] at hb
          cases hv : utils.ValidateToken jwtParse t with
          | error err => rw [hv] at hb; cases hb
          | ok claims =>
            rw [hv] at hb
            dsimp only at hb
            refine ⟨t, claims, hsplit, hv, ?_⟩
            rw [RoleMiddleware_eq, ginGet_ginSet] at hb
            cases hc : claimGet claims "role".toList with
            | str r =>
              rw [hc] at hb
              dsimp only at hb
              by_cases hmem : r ∈ ["admin".toList]
              · rw [List.mem_singleton] at hmem
                rw [hmem]
              · rw [if_neg hmem] at hb
                cases hb
            | null => rw [hc] at hb; cases hb
            | number _ => rw [hc] at hb; cases hb
            | uint _ => rw [hc] at hb; cases hb
    · rintro ⟨token, claims, hsplit, hv, hrole⟩
      have h0 : authHeader ≠ [] := by
        intro e
        rw [e, show stringsSplit [] [' '] = [[]] from rfl] at hsplit
        simp at hsplit
      rw [if_neg h0]
      dsimp only
      rw [hsplit]
      have hparts : ¬ ([("Bearer".toList), token].length ≠ 2
          ∨ [("Bearer".toList), token].getD 0 [] ≠ "Bearer".toList) := by
        rintro (h | h)
        · exact h rfl
        · exact h rfl
      rw [if_neg hparts]
      have ht : [("Bearer".toList), token].getD 1 [] = token := rfl
      rw [ht, hv]
      dsimp only
      rw [RoleMiddleware_eq, ginGet_ginSet, hrole]
      dsimp only
      rw [if_pos (List.mem_singleton.2 rfl)]
      exact ⟨_, rfl⟩

/-- Witness of C21: a context whose `user_role` is the string `admin`, with
`admin` the only allowed role. -/
theorem RoleMiddleware_gate_witness :
    middleware.RoleMiddleware ["admin".toList]
        [("user_role".toList, AnyValue.str "admin".toList)]
      = middleware.Outcome.next [("user_role".toList, AnyValue.str "admin".toList)] :=
  (RoleMiddleware_gate ["admin".toList]
    [("user_role".toList, AnyValue.str "admin".toList)]).2.1
    ⟨"admin".toList, rfl, List.mem_singleton.2 rfl⟩

/-! ## `ApplySorting` -/

theorem ApplySorting_orders_eq (db : GormDB) (sort : StringMap) :
    (services.ApplySorting db sort).orders = db.orders ++ sort.map sortTerm := by
  unfold services.ApplySorting
  induction sort generalizing db with
  | nil => simp
  | cons e es ih =>
    rw [List.foldl_cons, ih]
    simp [GormDB.Order, sortTerm]

theorem ApplySorting_offset_limit (db : GormDB) (sort : StringMap) :
    (services.ApplySorting db sort).offset = db.offset
      ∧ (services.ApplySorting db sort).limit = db.limit := by
  unfold services.ApplySorting
  induction sort generalizing db with
  | nil => exact ⟨rfl, rfl⟩
  | cons e es ih => rw [List.foldl_cons]; exact ih _

theorem length_ExtractSortParams (U : UnicodeTables) (query : List QueryParam) :
    (services.ExtractSortParams U query).length ≤ 1 := by
  unfold services.ExtractSortParams
  dsimp only
  split_ifs <;> simp

/-- Counterexample to C22: the map holding `title: asc` and `id: desc`.  The
loop `range sort` may visit the entry of `id` first, and the terms are then
added in that order, not in the order `title`, `id` of the directives. -/
theorem ApplySorting_order_of_visit :
    List.Perm [("id".toList, "desc".toList), ("title".toList, "asc".toList)]
        [("title".toList, "asc".toList), ("id".toList, "desc".toList)]
      ∧ (∀ key, mapGet [("id".toList, "desc".toList), ("title".toList, "asc".toList)] key
          = mapGet [("title".toList, "asc".toList), ("id".toList, "desc".toList)] key)
      ∧ (services.ApplySorting ⟨[], [], none, none⟩
          [("id".toList, "desc".toList), ("title".toList, "asc".toList)]).orders
        = ["id desc".toList, "title asc".toList]
      ∧ (services.ApplySorting ⟨[], [], none, none⟩
          [("id".toList, "desc".toList), ("title".toList, "asc".toList)]).orders
        ≠ List.map sortTerm [("title".toList, "asc".toList), ("id".toList, "desc".toList)] := by
  refine ⟨List.Perm.swap _ _ _, ?_, by decide, by decide⟩
  intro key
  unfold mapGet
  by_cases h1 : key = "id".toList
  · subst h1; rfl
  · by_cases h2 : key = "title".toList
    · subst h2; rfl
    · have e1 : (key == "id".toList) = false := by simpa using h1
      have e2 : (key == "title".toList) = false := by simpa using h2
      simp only [List.lookup, e1, e2]

/-- C22, amended: `ApplySorting` adds one term `field direction` per entry of
the map, after the terms the query already has and in the order in which the
loop `range` visits the entries; conditions, offset and limit are left as they
are; and the map made by `ExtractSortParams` has at most one entry. -/
theorem ApplySorting_orders (db : GormDB) (sort : StringMap) (U : UnicodeTables)
    (query : List QueryParam) :
    (services.ApplySorting db sort).orders = db.orders ++ sort.map sortTerm
      ∧ (services.ApplySorting db sort).wheres = db.wheres
      ∧ (services.ApplySorting db sort).offset = db.offset
      ∧ (services.ApplySorting db sort).limit = db.limit
      ∧ (services.ExtractSortParams U query).length ≤ 1 :=
  ⟨ApplySorting_orders_eq db sort, ApplySorting_wheres db sort,
    (ApplySorting_offset_limit db sort).1, (ApplySorting_offset_limit db sort).2,
    length_ExtractSortParams U query⟩

/-! ## `CreatePost` and the keys of the context -/

theorem ginGet_after_AuthMiddleware (keys : List (List Char × AnyValue)) (id role : AnyValue) :
    ginGet (ginSet (ginSet keys "user_id".toList id) "user_role".toList role) "userId".toList
      = ginGet keys "userId".toList := by
  rw [ginGet_ginSet_ne _ _ _ _ (by decide), ginGet_ginSet_ne _ _ _ _ (by decide)]

theorem CreatePost_without_userId (U : UnicodeTables) (tx : List Post) (fuel : Nat)
    (keys : List (List Char × AnyValue)) (input : controllers.CreatePostInput)
    (h : ginGet keys "userId".toList = none) :
    controllers.CreatePost U tx fuel keys (Except.ok input)
      = some (controllers.CreatePostResult.failed
          (services.ErrInvalidInput "No se encontró el ID del usuario".toList)) := by
  unfold controllers.CreatePost
  dsimp only
  rw [h]

/-- C24, divergence: on the route `POST /posts`, whose context starts with no
keys, every request either is refused by `AuthMiddleware` with status 401 or,
with a body that binds, ends in the error `INVALID_INPUT` with the detail
`No se encontró el ID del usuario`: the middleware stores the user under
`user_id`, the handler reads `userId`, and no post is built.  The second
part is the request with the header `Bearer abc`, a parser that accepts the
token with the claims `id = 7` and `role = admin`, and a body with the title
`Hello`. -/
theorem CreatePost_never_finds_userId (U : UnicodeTables) (tx : List Post) (fuel : Nat)
    (jwtParse : List Char → Except (List Char) JwtToken) (authHeader : List Char)
    (input : controllers.CreatePostInput) :
    ((∃ message, protectedRoute jwtParse
        (fun keys => controllers.CreatePost U tx fuel keys (Except.ok input)) authHeader []
          = Except.error (401, message))
      ∨ protectedRoute jwtParse
          (fun keys => controllers.CreatePost U tx fuel keys (Except.ok input)) authHeader []
        = Except.ok (some (controllers.CreatePostResult.failed
            (services.ErrInvalidInput "No se encontró el ID del usuario".toList))))
      ∧ protectedRoute
          (fun _ => Except.ok ⟨some [("id".toList, AnyValue.number 7),
            ("role".toList, AnyValue.str "admin".toList)], true⟩)
          (fun keys => controllers.CreatePost U tx fuel keys
            (Except.ok ⟨"Hello".toList, "x".toList, []⟩)) "Bearer abc".toList []
        = Except.ok (some (controllers.CreatePostResult.failed
            (services.ErrInvalidInput "No se encontró el ID del usuario".toList))) := by
  refine ⟨?_, rfl⟩
  unfold protectedRoute middleware.AuthMiddleware
  by_cases h0 : authHeader = []
  · rw [if_pos h0]
    exact Or.inl ⟨_, rfl⟩
  · rw [if_neg h0]
    dsimp only
    by_cases hparts : (stringsSplit authHeader [' ']).length ≠ 2
        ∨ (stringsSplit authHeader [' ']).getD 0 [] ≠ "Bearer".toList
    · rw [if_pos hparts]
      exact Or.inl ⟨_, rfl⟩
    · rw [if_neg hparts]
      cases hv : utils.ValidateToken jwtParse ((stringsSplit authHeader [' ']).getD 1 []) with
      | error err => exact Or.inl ⟨_, rfl⟩
      | ok claims =>
        right
        dsimp only
        rw [CreatePost_without_userId]
        rw [ginGet_after_AuthMiddleware]
        rfl

/-! ## `ErrorResponse` -/

/-- C26: the answer of `ErrorResponse` to an `*APIError` is its status with
the code, the message and, exactly when `Detail` is not empty, the detail; the
answer to any other error is status 500 with the code `INTERNAL_ERROR` and the
generic message; hence two `*APIError` values that differ only in `Internal`,
and any two other errors, get the same answer. -/
theorem ErrorResponse_hides_internal :
    (∀ e : services.APIError, services.ErrorResponse (GoError.api e)
        = (e.Status, [("code".toList, e.Code), ("message".toList, e.Message)]
            ++ if e.Detail = [] then [] else [("detail".toList, e.Detail)]))
      ∧ (∀ e : services.APIError,
          "detail".toList ∈ (services.ErrorResponse (GoError.api e)).2.map Prod.fst
            ↔ e.Detail ≠ [])
      ∧ (∀ text, services.ErrorResponse (GoError.other text)
          = (500, [("code".toList, "INTERNAL_ERROR".toList),
              ("message".toList, "Error interno del servidor".toList)]))
      ∧ (∀ (e : services.APIError) (internal : Option (List Char)),
          services.ErrorResponse (GoError.api { e with Internal := internal })
            = services.ErrorResponse (GoError.api e))
      ∧ ∀ text1 text2, services.ErrorResponse (GoError.other text1)
          = services.ErrorResponse (GoError.other text2) := by
  refine ⟨?_, ?_, fun _ => rfl, fun _ _ => rfl, fun _ _ => rfl⟩
  · intro e
    unfold services.ErrorResponse
    by_cases h : e.Detail = []
    · simp [h]
    · simp [h]
  · intro e
    unfold services.ErrorResponse
    by_cases h : e.Detail = []
    · simp [h]
    · simp [h]

/-! ## `BeforeCreate` -/

theorem countSlug_eq_zero (tx : List Post) (slug : List Char) :
    countSlug tx slug = 0 ↔ ∀ row ∈ tx, row.Deleted = false → row.Slug ≠ slug := by
  unfold countSlug
  rw [List.length_eq_zero, List.filter_eq_nil_iff]
  constructor
  · intro h row hrow hd hs
    exact h row hrow (by simp [hd, hs])
  · intro h row hrow hc
    simp only [Bool.and_eq_true, Bool.not_eq_true', decide_eq_true_eq] at hc
    exact h row hrow hc.1 hc.2

/-- The hook `BeforeCreate` on a post without slug: when the candidates before
candidate `k` are taken and candidate `k` is free, it sets the slug to
candidate `k`, as soon as it is given more than `k` iterations. -/
theorem BeforeCreate_run (U : UnicodeTables) (p : Post) (tx : List Post) (k fuel : Nat)
    (hs : p.Slug = [])
    (htaken : ∀ j < k, countSlug tx (slugCandidate (generateSlug U p.Title) j) ≠ 0)
    (hfree : countSlug tx (slugCandidate (generateSlug U p.Title) k) = 0)
    (hfuel : k < fuel) :
    p.BeforeCreate U tx fuel
      = some { p with Slug := slugCandidate (generateSlug U p.Title) k } := by
  have hrun := generateUniqueSlugLoop_run NewTransformService
    (fun x => decide (countSlug tx x ≠ 0)) (generateSlug U p.Title) k fuel 0 0
    (fun i hi => by
      rw [Nat.zero_add, ← slugCandidate_eq]
      exact decide_eq_true (htaken i hi))
    (by
      rw [Nat.zero_add, ← slugCandidate_eq]
      exact decide_eq_false (by rw [hfree]; exact fun h => h rfl))
  have h0 : candidateWith NewTransformService.slugSeparator (generateSlug U p.Title) 0
      = generateSlug U p.Title := rfl
  rw [if_pos hfuel, h0, Nat.zero_add, Nat.zero_add, ← slugCandidate_eq] at hrun
  unfold Post.BeforeCreate
  rw [if_pos hs, beforeCreateLoop_eq tx (fun x => decide (countSlug tx x ≠ 0))
    (fun x => by simp), hrun]
  rfl

/-- C25: `BeforeCreate` returns a post whose slug is not empty as it is,
whatever the slug and the stored rows are; on a post with empty slug, when
candidate `k` is the first of `b`, `b-1`, `b-2`, … that no stored row has,
with `b = generateSlug(p.Title)`, it returns `p` with `Slug` set to candidate
`k` and nothing else changed. -/
theorem BeforeCreate_slug (U : UnicodeTables) (p : Post) (tx : List Post) (k fuel : Nat)
    (htaken : ∀ j < k, countSlug tx (slugCandidate (generateSlug U p.Title) j) ≠ 0)
    (hfree : countSlug tx (slugCandidate (generateSlug U p.Title) k) = 0)
    (hfuel : k < fuel) :
    (p.Slug ≠ [] → ∀ n, p.BeforeCreate U tx n = some p)
      ∧ (p.Slug = [] →
          p.BeforeCreate U tx fuel
            = some { p with Slug := slugCandidate (generateSlug U p.Title) k })
      ∧ (∀ s, countSlug tx s = 0 ↔ ∀ row ∈ tx, row.Deleted = false → row.Slug ≠ s) := by
  refine ⟨?_, fun hs => BeforeCreate_run U p tx k fuel hs htaken hfree hfuel,
    countSlug_eq_zero tx⟩
  intro hne n
  unfold Post.BeforeCreate
  rw [if_neg hne]

/-- Witness of C25: a post titled `Hello World!` without slug, created while
a row with the slug `hello-world` is stored, gets the slug `hello-world-1`. -/
theorem BeforeCreate_slug_witness :
    Post.BeforeCreate plainTables ⟨0, "Hello World!".toList, [], [], 1, false⟩
        [⟨1, "Hello World".toList, "hello-world".toList, [], 1, false⟩] 2
      = some ⟨0, "Hello World!".toList, "hello-world-1".toList, [], 1, false⟩ :=
  (BeforeCreate_slug plainTables ⟨0, "Hello World!".toList, [], [], 1, false⟩
    [⟨1, "Hello World".toList, "hello-world".toList, [], 1, false⟩] 1 2
    (fun j hj => by
      have : j = 0 := by omega
      subst this
      decide)
    (by decide) (by decide)).2.1 rfl

/-! ## `BuildPaginationLinks` -/

/-- Counterexample to C30: on page 10 of 3 pages the link `Prev` is present
and addresses page 9, which is none of the pages 1 to 3. -/
theorem BuildPaginationLinks_prev_beyond_last :
    (services.BuildPaginationLinks "/posts".toList 10 3).Prev = "/posts?page=9".toList
      ∧ (services.BuildPaginationLinks "/posts".toList 10 3).Prev ≠ []
      ∧ ∀ n : Int, 1 ≤ n → n ≤ 3 →
          (services.BuildPaginationLinks "/posts".toList 10 3).Prev
            ≠ "/posts".toList ++ "?page=".toList ++ strconvItoa n := by
  refine ⟨by decide, by decide, ?_⟩
  intro n h1 h3
  interval_cases n <;> decide

/-- C30, amended: `First` is `base?page=1` and `Last` is `base?page=t`; `Prev`
is `base?page=(p-1)` when `p > 1` and empty otherwise, `Next` is
`base?page=(p+1)` when `p < t` and empty otherwise.  So a present `Prev`
addresses a page that is at least 1, and at most `t` when `p ≤ t + 1`; a
present `Next` addresses a page that is at most `t`, and at least 1 when
`p ≥ 0`. -/
theorem BuildPaginationLinks_links (baseURL : List Char) (p t : Int) :
    (services.BuildPaginationLinks baseURL p t).First = baseURL ++ "?page=1".toList
      ∧ (services.BuildPaginationLinks baseURL p t).Last
          = baseURL ++ "?page=".toList ++ strconvItoa t
      ∧ (services.BuildPaginationLinks baseURL p t).Prev
          = (if p > 1 then baseURL ++ "?page=".toList ++ strconvItoa (p - 1) else [])
      ∧ (services.BuildPaginationLinks baseURL p t).Next
          = (if p < t then baseURL ++ "?page=".toList ++ strconvItoa (p + 1) else [])
      ∧ ((services.BuildPaginationLinks baseURL p t).Prev ≠ [] →
          ∃ n : Int, (services.BuildPaginationLinks baseURL p t).Prev
              = baseURL ++ "?page=".toList ++ strconvItoa n
            ∧ 1 ≤ n ∧ (p ≤ t + 1 → n ≤ t))
      ∧ ((services.BuildPaginationLinks baseURL p t).Next ≠ [] →
          ∃ n : Int, (services.BuildPaginationLinks baseURL p t).Next
              = baseURL ++ "?page=".toList ++ strconvItoa n
            ∧ n ≤ t ∧ (0 ≤ p → 1 ≤ n)) := by
  have hprev : (services.BuildPaginationLinks baseURL p t).Prev
      = (if p > 1 then baseURL ++ "?page=".toList ++ strconvItoa (p - 1) else []) := by
    unfold services.BuildPaginationLinks
    by_cases h1 : p > 1 <;> by_cases h2 : p < t <;> simp [h1, h2]
  have hnext : (services.BuildPaginationLinks baseURL p t).Next
      = (if p < t then baseURL ++ "?page=".toList ++ strconvItoa (p + 1) else []) := by
    unfold services.BuildPaginationLinks
    by_cases h1 : p > 1 <;> by_cases h2 : p < t <;> simp [h1, h2]
  refine ⟨?_, ?_, hprev, hnext, ?_, ?_⟩
  · unfold services.BuildPaginationLinks
    by_cases h1 : p > 1 <;> by_cases h2 : p < t <;> simp [h1, h2]
  · unfold services.BuildPaginationLinks
    by_cases h1 : p > 1 <;> by_cases h2 : p < t <;> simp [h1, h2]
  · intro hne
    rw [hprev] at hne ⊢
    by_cases h1 : p > 1
    · rw [if_pos h1]
      exact ⟨p - 1, rfl, by omega, fun h => by omega⟩
    · rw [if_neg h1] at hne
      exact absurd rfl hne
  · intro hne
    rw [hnext] at hne ⊢
    by_cases h2 : p < t
    · rw [if_pos h2]
      exact ⟨p + 1, rfl, by omega, fun h => by omega⟩
    · rw [if_neg h2] at hne
      exact absurd rfl hne

/-- Witness of C30: page 2 of 3 pages has the link `Prev` to page 1. -/
theorem BuildPaginationLinks_links_witness :
    ∃ n : Int, (services.BuildPaginationLinks "/posts".toList 2 3).Prev
        = "/posts".toList ++ "?page=".toList ++ strconvItoa n
      ∧ 1 ≤ n ∧ ((2 : Int) ≤ 3 + 1 → n ≤ 3) :=
  (BuildPaginationLinks_links "/posts".toList 2 3).2.2.2.2.1 (by decide)

/-! ## The shape of the slugs of `TransformService.GenerateSlug` -/

theorem slugRegexClass_false_iff (r : Char) : slugRegexClass r = false ↔ IsAlnum r := by
  unfold slugRegexClass IsAlnum
  have ha : 'a'.toNat = 97 := rfl
  have hz : 'z'.toNat = 122 := rfl
  have h0 : '0'.toNat = 48 := rfl
  have h9 : '9'.toNat = 57 := rfl
  rw [ha, hz, h0, h9]
  simp only [Bool.not_eq_false', decide_eq_true_eq]

theorem mem_slugRegexReplaceAll (text : List Char) : ∀ (inRun : Bool) (c : Char),
    c ∈ slugRegexReplaceAll ['-'] inRun text → IsSlugChar c := by
  induction text with
  | nil => intro _ c hc; simp [slugRegexReplaceAll] at hc
  | cons r rs ih =>
    intro inRun c hc
    rw [slugRegexReplaceAll] at hc
    by_cases hr : slugRegexClass r = true
    · rw [if_pos hr] at hc
      rcases List.mem_append.1 hc with h | h
      · cases inRun with
        | true => simp at h
        | false =>
          have : c = '-' := by simpa using h
          exact Or.inr (Or.inr this)
      · exact ih true c h
    · rw [if_neg hr] at hc
      rcases List.mem_cons.1 hc with h | h
      · have hal : IsAlnum r := (slugRegexClass_false_iff r).1 (by simpa using hr)
        rw [h]
        exact (isSlugChar_iff r).2 (Or.inl hal)
      · exact ih false c h

theorem slugRegexReplaceAll_no_double (text : List Char) : ∀ (inRun : Bool),
    ¬ ['-', '-'] <:+: slugRegexReplaceAll ['-'] inRun text
      ∧ (inRun = true → (slugRegexReplaceAll ['-'] inRun text).head? ≠ some '-') := by
  induction text with
  | nil => intro _; simp [slugRegexReplaceAll]
  | cons r rs ih =>
    intro inRun
    rw [slugRegexReplaceAll]
    by_cases hr : slugRegexClass r = true
    · rw [if_pos hr]
      cases inRun with
      | true =>
        simp only [if_true, List.nil_append]
        exact ⟨(ih true).1, fun _ => (ih true).2 rfl⟩
      | false =>
        refine ⟨?_, fun h => absurd h (by decide)⟩
        simp only [Bool.false_eq_true, if_false, List.singleton_append]
        rw [hyphens_infix_cons]
        rintro (⟨_, h⟩ | h)
        · exact (ih true).2 rfl h
        · exact (ih true).1 h
    · rw [if_neg hr]
      have hal : IsAlnum r := (slugRegexClass_false_iff r).1 (by simpa using hr)
      have hne : r ≠ '-' := fun e => not_isAlnum_hyphen (e ▸ hal)
      refine ⟨?_, fun _ => ?_⟩
      · rw [hyphens_infix_cons]
        rintro (⟨h, _⟩ | h)
        · exact hne h
        · exact (ih false).1 h
      · simpa using hne

/-- A slug of `TransformService.GenerateSlug` with the default separator
passes `ValidateSlug` unless it is empty. -/
theorem GenerateSlug_valid (U : UnicodeTables) (text : List Char)
    (hne : NewTransformService.GenerateSlug U text ≠ []) :
    NewTransformService.ValidateSlug (NewTransformService.GenerateSlug U text) = true := by
  rw [ValidateSlug_iff]
  have hsep : NewTransformService.slugSeparator = ['-'] := rfl
  unfold TransformService.GenerateSlug at hne ⊢
  rw [hsep] at hne ⊢
  dsimp only at hne ⊢
  refine ⟨hne, ?_, ?_, ?_, ?_⟩
  · intro c hc
    exact mem_slugRegexReplaceAll _ _ c ((stringsTrim_infix_self _ _).subset hc)
  · intro h
    exact stringsTrim_head _ _ _ h (List.mem_singleton_self _)
  · intro h
    exact stringsTrim_getLast _ _ _ h (List.mem_singleton_self _)
  · intro h
    exact (slugRegexReplaceAll_no_double _ false).1 (h.trans (stringsTrim_infix_self _ _))

/-- C23: for every text, `GenerateSlug(text)` with the default separator is
empty or passes `ValidateSlug`, that is, it is made of runes of `[a-z0-9-]`,
neither starts nor ends with a hyphen and has no `--`; and
`GenerateSlug("Hello World!")` is `hello-world`. -/
theorem GenerateSlug_empty_or_valid (U : UnicodeTables) (text : List Char) :
    (NewTransformService.GenerateSlug U text = []
        ∨ NewTransformService.ValidateSlug (NewTransformService.GenerateSlug U text) = true)
      ∧ (NewTransformService.ValidateSlug (NewTransformService.GenerateSlug U text) = true ↔
          NewTransformService.GenerateSlug U text ≠ []
            ∧ (∀ c ∈ NewTransformService.GenerateSlug U text, IsSlugChar c)
            ∧ (NewTransformService.GenerateSlug U text).head? ≠ some '-'
            ∧ (NewTransformService.GenerateSlug U text).getLast? ≠ some '-'
            ∧ ¬ ['-', '-'] <:+: NewTransformService.GenerateSlug U text)
      ∧ NewTransformService.GenerateSlug U "Hello World!".toList = "hello-world".toList := by
  refine ⟨?_, ValidateSlug_iff _, rfl⟩
  by_cases h : NewTransformService.GenerateSlug U text = []
  · exact Or.inl h
  · exact Or.inr (GenerateSlug_valid U text h)

/-! ## The shape of the slugs of `BeforeCreate` -/

theorem slugShapeFrom_append (x y : List Char) : ∀ (prev : Bool),
    slugShapeFrom prev x = true → slugShapeFrom prev (x ++ y) = slugShapeFrom true y := by
  induction x with
  | nil =>
    intro prev h
    rw [slugShapeFrom] at h
    rw [h]
    rfl
  | cons c cs ih =>
    intro prev h
    rw [slugShapeFrom] at h
    rw [List.cons_append, slugShapeFrom]
    by_cases hal : IsAlnum c
    · rw [if_pos hal] at h ⊢
      exact ih true h
    · rw [if_neg hal] at h ⊢
      by_cases hh : c = '-' ∧ prev = true
      · rw [if_pos hh] at h ⊢
        exact ih false h
      · rw [if_neg hh] at h
        cases h

theorem digitChar_digit : ∀ m < 10,
    (48 ≤ (Nat.digitChar m).toNat ∧ (Nat.digitChar m).toNat ≤ 57)
      ∧ (Nat.digitChar m).toNat - 48 = m := by
  decide

theorem toDigitsCore_append (fuel : Nat) : ∀ (n : Nat) (ds : List Char),
    Nat.toDigitsCore 10 fuel n ds = Nat.toDigitsCore 10 fuel n [] ++ ds := by
  induction fuel with
  | zero => intro n ds; rfl
  | succ f ih =>
    intro n ds
    rw [Nat.toDigitsCore, Nat.toDigitsCore]
    by_cases h : n / 10 = 0
    · simp only [h, if_true, List.singleton_append]
    · simp only [h, if_false]
      rw [ih (n / 10) (_ :: ds), ih (n / 10) [_], List.append_assoc]
      rfl

theorem toDigitsCore_succ (fuel n : Nat) :
    Nat.toDigitsCore 10 (fuel + 1) n []
      = if n / 10 = 0 then [Nat.digitChar (n % 10)]
        else Nat.toDigitsCore 10 fuel (n / 10) [] ++ [Nat.digitChar (n % 10)] := by
  rw [Nat.toDigitsCore]
  by_cases h : n / 10 = 0
  · simp only [h, if_true]
  · simp only [h, if_false]
    exact toDigitsCore_append fuel (n / 10) _

theorem toDigitsCore_digits (fuel : Nat) : ∀ (n : Nat), n < fuel →
    Nat.toDigitsCore 10 fuel n [] ≠ []
      ∧ ∀ c ∈ Nat.toDigitsCore 10 fuel n [], 48 ≤ c.toNat ∧ c.toNat ≤ 57 := by
  induction fuel with
  | zero => intro n h; omega
  | succ f ih =>
    intro n hn
    rw [toDigitsCore_succ]
    have hd := (digitChar_digit (n % 10) (Nat.mod_lt _ (by decide))).1
    by_cases h : n / 10 = 0
    · rw [if_pos h]
      refine ⟨by simp, fun c hc => ?_⟩
      rw [List.mem_singleton.1 hc]
      exact hd
    · rw [if_neg h]
      have hlt : n / 10 < f := by omega
      refine ⟨by simp, fun c hc => ?_⟩
      rcases List.mem_append.1 hc with hc | hc
      · exact (ih _ hlt).2 c hc
      · rw [List.mem_singleton.1 hc]
        exact hd

theorem strconvItoa_natCast (k : Nat) : strconvItoa (k : Int) = Nat.toDigits 10 k := by
  unfold strconvItoa
  rw [if_neg (by omega), Int.toNat_natCast]

theorem strconvItoa_digits (k : Nat) :
    strconvItoa (k : Int) ≠ []
      ∧ ∀ c ∈ strconvItoa (k : Int), 48 ≤ c.toNat ∧ c.toNat ≤ 57 := by
  rw [strconvItoa_natCast]
  exact toDigitsCore_digits (k + 1) k (Nat.lt_succ_self k)

theorem generateSlug_valid (U : UnicodeTables) (title : List Char)
    (hne : generateSlug U title ≠ []) :
    NewTransformService.ValidateSlug (generateSlug U title) = true := by
  rw [ValidateSlug_iff]
  refine ⟨hne, mem_generateSlug U title, ?_, ?_, ?_⟩
  · intro h
    exact stringsTrim_head _ _ _ h (List.mem_singleton_self _)
  · intro h
    exact stringsTrim_getLast _ _ _ h (List.mem_singleton_self _)
  · intro h
    exact collapseHyphens_no_double _ _ (Nat.le_refl _) (h.trans (stringsTrim_infix_self _ _))

theorem ValidateSlug_eq_slugShapeFrom (s : List Char) :
    NewTransformService.ValidateSlug s = slugShapeFrom false s := by
  have h : NewTransformService.ValidateSlug s = (validSlugRegex ['-']).rmatch s := rfl
  rw [h, Bool.eq_iff_iff]
  exact validSlugRegex_rmatch s

/-- Every candidate `b`, `b-1`, `b-2`, … of a valid slug `b` is valid. -/
theorem slugCandidate_valid (b : List Char) (k : Nat)
    (hb : NewTransformService.ValidateSlug b = true) :
    NewTransformService.ValidateSlug (slugCandidate b k) = true := by
  unfold slugCandidate
  by_cases hk : k = 0
  · rw [if_pos hk]
    exact hb
  · rw [if_neg hk, ValidateSlug_eq_slugShapeFrom, List.append_assoc]
    rw [ValidateSlug_eq_slugShapeFrom] at hb
    rw [slugShapeFrom_append b _ false hb, List.singleton_append, slugShapeFrom_hyphen]
    have hd := strconvItoa_digits k
    have := slugShapeFrom_alnum_append_ne false (strconvItoa (k : Int)) [] hd.1
      (fun c hc => Or.inr (hd.2 c hc))
    rw [List.append_nil] at this
    rw [this]
    rfl

/-- C28: the slug that `BeforeCreate` gives to a post without slug, whose
title has a non-empty `generateSlug`, passes `ValidateSlug`: with the
candidates before candidate `k` taken and candidate `k` free, `BeforeCreate`
returns a post, and its slug, `b` or `b-k`, is valid. -/
theorem BeforeCreate_slug_valid (U : UnicodeTables) (p : Post) (tx : List Post) (k fuel : Nat)
    (hs : p.Slug = []) (hne : generateSlug U p.Title ≠ [])
    (htaken : ∀ j < k, countSlug tx (slugCandidate (generateSlug U p.Title) j) ≠ 0)
    (hfree : countSlug tx (slugCandidate (generateSlug U p.Title) k) = 0)
    (hfuel : k < fuel) :
    ∃ q, p.BeforeCreate U tx fuel = some q
      ∧ q.Slug = (if k = 0 then generateSlug U p.Title
          else generateSlug U p.Title ++ ['-'] ++ strconvItoa k)
      ∧ NewTransformService.ValidateSlug q.Slug = true :=
  ⟨_, BeforeCreate_run U p tx k fuel hs htaken hfree hfuel, rfl,
    slugCandidate_valid _ k (generateSlug_valid U p.Title hne)⟩

/-- Witness of C28: the post titled `Hello World!`, created while a row with
the slug `hello-world` is stored. -/
theorem BeforeCreate_slug_valid_witness :
    ∃ q, Post.BeforeCreate plainTables ⟨0, "Hello World!".toList, [], [], 1, false⟩
        [⟨1, "Hello World".toList, "hello-world".toList, [], 1, false⟩] 2 = some q
      ∧ q.Slug = (if 1 = 0 then generateSlug plainTables "Hello World!".toList
          else generateSlug plainTables "Hello World!".toList ++ ['-'] ++ strconvItoa (1 : Nat))
      ∧ NewTransformService.ValidateSlug q.Slug = true :=
  BeforeCreate_slug_valid plainTables ⟨0, "Hello World!".toList, [], [], 1, false⟩
    [⟨1, "Hello World".toList, "hello-world".toList, [], 1, false⟩] 1 2 rfl (by decide)
    (fun j hj => by
      have : j = 0 := by omega
      subst this
      decide)
    (by decide) (by decide)

/-! ## `strconv.Atoi` on the text of `strconv.Itoa` -/

theorem decimalValue_append_singleton (xs : List Char) (c : Char) :
    decimalValue (xs ++ [c]) = decimalValue xs * 10 + (c.toNat - 48) := by
  induction xs with
  | nil => simp [decimalValue]
  | cons x xs ih =>
    rw [List.cons_append, decimalValue, decimalValue, ih, List.length_append,
      List.length_singleton, pow_succ]
    ring

theorem decimalValue_toDigitsCore (fuel : Nat) : ∀ (n : Nat), n < fuel →
    decimalValue (Nat.toDigitsCore 10 fuel n []) = n := by
  induction fuel with
  | zero => intro n h; omega
  | succ f ih =>
    intro n hn
    rw [toDigitsCore_succ]
    have hd := (digitChar_digit (n % 10) (Nat.mod_lt _ (by decide))).2
    by_cases h : n / 10 = 0
    · rw [if_pos h]
      simp only [decimalValue, List.length_nil, pow_zero, mul_one, add_zero]
      omega
    · rw [if_neg h, decimalValue_append_singleton, ih (n / 10) (by omega)]
      omega

theorem parseUintDigits_digits (ds : List Char) : ∀ (acc : Nat), acc < 2 ^ 64 →
    (∀ c ∈ ds, 48 ≤ c.toNat ∧ c.toNat ≤ 57) →
    parseUintDigits ds acc
      = if acc * 10 ^ ds.length + decimalValue ds < 2 ^ 64
        then some (some (acc * 10 ^ ds.length + decimalValue ds)) else some none := by
  induction ds with
  | nil =>
    intro acc hacc _
    simp only [parseUintDigits, decimalValue, List.length_nil, pow_zero, mul_one, add_zero]
    rw [if_pos hacc]
  | cons c cs ih =>
    intro acc _ h
    have hc := h c (List.mem_cons_self _ _)
    have h0 : '0'.toNat = 48 := rfl
    have h9 : '9'.toNat = 57 := rfl
    rw [parseUintDigits, h0, h9, if_pos hc]
    have hpos : 1 ≤ 10 ^ cs.length := Nat.one_le_pow _ _ (by decide)
    have heq : acc * 10 ^ (c :: cs).length + decimalValue (c :: cs)
        = (acc * 10 + (c.toNat - 48)) * 10 ^ cs.length + decimalValue cs := by
      rw [decimalValue, List.length_cons, pow_succ]
      ring
    rw [heq]
    by_cases hbig : 2 ^ 64 ≤ acc * 10 + (c.toNat - 48)
    · rw [if_pos hbig, if_neg]
      have := Nat.le_mul_of_pos_right (acc * 10 + (c.toNat - 48)) hpos
      omega
    · rw [if_neg hbig]
      exact ih _ (by omega) (fun d hd => h d (List.mem_cons_of_mem _ hd))

theorem strconvAtoi_digits (ds : List Char) (hne : ds ≠ [])
    (hd : ∀ c ∈ ds, 48 ≤ c.toNat ∧ c.toNat ≤ 57) :
    (strconvAtoi ds).1
      = if decimalValue ds < 2 ^ 63 then (decimalValue ds : Int) else 2 ^ 63 - 1 := by
  have hminus : ds.head? ≠ some '-' := by
    cases ds with
    | nil => exact absurd rfl hne
    | cons c cs =>
      intro h
      have hc := hd c (List.mem_cons_self _ _)
      have : c = '-' := by simpa using h
      rw [this] at hc
      exact absurd hc (by decide)
  have hplus : ds.head? ≠ some '+' := by
    cases ds with
    | nil => exact absurd rfl hne
    | cons c cs =>
      intro h
      have hc := hd c (List.mem_cons_self _ _)
      have : c = '+' := by simpa using h
      rw [this] at hc
      exact absurd hc (by decide)
  have hparse := parseUintDigits_digits ds 0 (by norm_num) hd
  rw [Nat.zero_mul, Nat.zero_add] at hparse
  have hdig : (if ds.head? = some '-' ∨ ds.head? = some '+' then ds.tail else ds) = ds :=
    if_neg (by rintro (h | h); exact hminus h; exact hplus h)
  unfold strconvAtoi
  dsimp only
  rw [hdig, if_neg hne, hparse]
  by_cases h64 : decimalValue ds < 2 ^ 64
  · rw [if_pos h64]
    dsimp only
    by_cases h63 : decimalValue ds < 2 ^ 63
    · have c1 : ¬ (¬ ds.head? = some '-' ∧ 2 ^ 63 ≤ decimalValue ds) := by
        rintro ⟨_, h⟩
        omega
      have c2 : ¬ (ds.head? = some '-' ∧ 2 ^ 63 < decimalValue ds) := fun h => hminus h.1
      rw [if_neg c1, if_neg c2, if_neg hminus, if_pos h63]
    · have c1 : ¬ ds.head? = some '-' ∧ 2 ^ 63 ≤ decimalValue ds := ⟨hminus, by omega⟩
      rw [if_pos c1, if_neg h63]
  · have h63 : ¬ decimalValue ds < 2 ^ 63 := by omega
    rw [if_neg h64]
    dsimp only
    rw [if_neg hminus, if_neg h63]

theorem strconvAtoi_Itoa_pos (n : Int) (hn : 1 ≤ n) :
    strconvItoa n ≠ [] ∧ 0 < (strconvAtoi (strconvItoa n)).1 := by
  obtain ⟨k, rfl⟩ : ∃ k : Nat, n = (k : Int) := ⟨n.toNat, by omega⟩
  have hd := strconvItoa_digits k
  refine ⟨hd.1, ?_⟩
  rw [strconvAtoi_digits _ hd.1 hd.2, strconvItoa_natCast]
  have hv : decimalValue (Nat.toDigits 10 k) = k :=
    decimalValue_toDigitsCore (k + 1) k (Nat.lt_succ_self k)
  rw [hv]
  split_ifs
  · omega
  · norm_num

/-! ## The two parsers of `page` and `limit` -/

theorem find?_of_filter_eq_nil (p : QueryParam → Bool) (query : List QueryParam)
    (h : query.filter p = []) : query.find? p = none := by
  rw [List.find?_eq_none]
  intro x hx hp
  have : x ∈ query.filter p := List.mem_filter.2 ⟨hx, hp⟩
  rw [h] at this
  cases this

theorem find?_of_filter_eq_singleton (p : QueryParam → Bool) (kv : QueryParam) :
    ∀ (query : List QueryParam), query.filter p = [kv] → query.find? p = some kv := by
  intro query
  induction query with
  | nil => intro h; cases h
  | cons e es ih =>
    intro h
    by_cases hp : p e = true
    · rw [List.filter_cons_of_pos hp] at h
      rw [List.find?_cons_of_pos _ hp]
      injection h with h1 _
      rw [h1]
    · rw [List.filter_cons_of_neg hp] at h
      rw [List.find?_cons_of_neg _ hp]
      exact ih h

theorem foldl_paginationStep_limit_absent : ∀ (query : List QueryParam) (acc : Int × Int),
    query.filter (fun kv => decide (kv.key = "limit".toList)) = [] →
    (query.foldl services.paginationStep acc).1 = acc.1 := by
  intro query
  induction query with
  | nil => intro _ _; rfl
  | cons e es ih =>
    intro acc h
    by_cases hk : e.key = "limit".toList
    · rw [List.filter_cons, if_pos (decide_eq_true hk)] at h
      cases h
    · rw [List.filter_cons, if_neg (by rw [decide_eq_true_eq]; exact hk)] at h
      rw [List.foldl_cons, ih _ h]
      unfold services.paginationStep
      dsimp only
      rw [if_neg hk]
      split_ifs <;> rfl

theorem foldl_paginationStep_limit_once (kv : QueryParam) :
    ∀ (query : List QueryParam) (acc : Int × Int),
    query.filter (fun kv => decide (kv.key = "limit".toList)) = [kv] →
    (query.foldl services.paginationStep acc).1
      = (strconvAtoi (kv.values.getLast kv.nonempty)).1 := by
  intro query
  induction query with
  | nil => intro _ h; cases h
  | cons e es ih =>
    intro acc h
    by_cases hk : e.key = "limit".toList
    · rw [List.filter_cons, if_pos (decide_eq_true hk)] at h
      injection h with h1 h2
      rw [List.foldl_cons, foldl_paginationStep_limit_absent es _ h2]
      unfold services.paginationStep
      dsimp only
      rw [if_pos hk]
      subst h1
      rfl
    · rw [List.filter_cons, if_neg (by rw [decide_eq_true_eq]; exact hk)] at h
      rw [List.foldl_cons, ih _ h]

theorem foldl_paginationStep_page_absent : ∀ (query : List QueryParam) (acc : Int × Int),
    query.filter (fun kv => decide (kv.key = "page".toList)) = [] →
    (query.foldl services.paginationStep acc).2 = acc.2 := by
  intro query
  induction query with
  | nil => intro _ _; rfl
  | cons e es ih =>
    intro acc h
    by_cases hk : e.key = "page".toList
    · rw [List.filter_cons, if_pos (decide_eq_true hk)] at h
      cases h
    · rw [List.filter_cons, if_neg (by rw [decide_eq_true_eq]; exact hk)] at h
      rw [List.foldl_cons, ih _ h]
      unfold services.paginationStep
      dsimp only
      rw [if_neg hk]
      split_ifs <;> rfl

theorem foldl_paginationStep_page_once (kv : QueryParam) :
    ∀ (query : List QueryParam) (acc : Int × Int),
    query.filter (fun kv => decide (kv.key = "page".toList)) = [kv] →
    (query.foldl services.paginationStep acc).2
      = (strconvAtoi (kv.values.getLast kv.nonempty)).1 := by
  intro query
  induction query with
  | nil => intro _ h; cases h
  | cons e es ih =>
    intro acc h
    by_cases hk : e.key = "page".toList
    · rw [List.filter_cons, if_pos (decide_eq_true hk)] at h
      injection h with h1 h2
      rw [List.foldl_cons, foldl_paginationStep_page_absent es _ h2]
      unfold services.paginationStep
      dsimp only
      have hl : e.key ≠ "limit".toList := by rw [hk]; decide
      rw [if_neg hl, if_pos hk]
      subst h1
      rfl
    · rw [List.filter_cons, if_neg (by rw [decide_eq_true_eq]; exact hk)] at h
      rw [List.foldl_cons, ih _ h]

theorem ginQuery_absent (query : List QueryParam) (key : List Char)
    (h : query.filter (fun kv => decide (kv.key = key)) = []) : ginQuery query key = [] := by
  unfold ginQuery
  rw [find?_of_filter_eq_nil _ _ h]

theorem ginQuery_once (query : List QueryParam) (key : List Char) (kv : QueryParam)
    (h : query.filter (fun kv => decide (kv.key = key)) = [kv]) :
    ginQuery query key = kv.values.headD [] := by
  unfold ginQuery
  rw [find?_of_filter_eq_singleton _ _ _ h]

/-- C29: when `limit` and `page` are each absent from the query or present
with the single value `strconv.Itoa(n)` of an integer `n ≥ 1`, the parsers of
the packages `services` and `utils` return the same `Limit` and the same
`Page`; and for every query the parser of `utils` returns `Page ≥ 1` and
`Limit ≥ 1`. -/
theorem GeneratePaginationFromRequest_agree (query : List QueryParam) :
    ((query.filter (fun kv => decide (kv.key = "limit".toList)) = []
          ∨ ∃ kv n, query.filter (fun kv => decide (kv.key = "limit".toList)) = [kv]
              ∧ kv.values = [strconvItoa n] ∧ 1 ≤ n) →
      (query.filter (fun kv => decide (kv.key = "page".toList)) = []
          ∨ ∃ kv n, query.filter (fun kv => decide (kv.key = "page".toList)) = [kv]
              ∧ kv.values = [strconvItoa n] ∧ 1 ≤ n) →
      (services.GeneratePaginationFromRequest query).Limit
          = (utils.GeneratePaginationFromRequest query).Limit
        ∧ (services.GeneratePaginationFromRequest query).Page
          = (utils.GeneratePaginationFromRequest query).Page)
      ∧ 1 ≤ (utils.GeneratePaginationFromRequest query).Page
      ∧ 1 ≤ (utils.GeneratePaginationFromRequest query).Limit := by
  refine ⟨?_, utils.GeneratePaginationFromRequest_pos query⟩
  intro hlimit hpage
  unfold services.GeneratePaginationFromRequest utils.GeneratePaginationFromRequest
  dsimp only
  constructor
  · rcases hlimit with h | ⟨kv, n, h, hv, hn⟩
    · rw [foldl_paginationStep_limit_absent _ _ h, ginQuery_absent _ _ h, if_neg (fun h => h rfl)]
    · have hlast : kv.values.getLast kv.nonempty = strconvItoa n := by
        simp only [hv, List.getLast_singleton]
      have hhead : kv.values.headD [] = strconvItoa n := by rw [hv]; rfl
      rw [foldl_paginationStep_limit_once kv _ _ h, ginQuery_once _ _ kv h, hlast, hhead,
        if_pos (strconvAtoi_Itoa_pos n hn).1, if_pos (strconvAtoi_Itoa_pos n hn).2]
  · rcases hpage with h | ⟨kv, n, h, hv, hn⟩
    · rw [foldl_paginationStep_page_absent _ _ h, ginQuery_absent _ _ h, if_neg (fun h => h rfl)]
    · have hlast : kv.values.getLast kv.nonempty = strconvItoa n := by
        simp only [hv, List.getLast_singleton]
      have hhead : kv.values.headD [] = strconvItoa n := by rw [hv]; rfl
      rw [foldl_paginationStep_page_once kv _ _ h, ginQuery_once _ _ kv h, hlast, hhead,
        if_pos (strconvAtoi_Itoa_pos n hn).1, if_pos (strconvAtoi_Itoa_pos n hn).2]

/-- Witness of C29: the query `?page=2&limit=5`. -/
theorem GeneratePaginationFromRequest_agree_witness :
    (services.GeneratePaginationFromRequest
        [⟨"page".toList, ["2".toList], by decide⟩, ⟨"limit".toList, ["5".toList], by decide⟩]).Limit
        = (utils.GeneratePaginationFromRequest
          [⟨"page".toList, ["2".toList], by decide⟩,
            ⟨"limit".toList, ["5".toList], by decide⟩]).Limit
      ∧ (services.GeneratePaginationFromRequest
          [⟨"page".toList, ["2".toList], by decide⟩,
            ⟨"limit".toList, ["5".toList], by decide⟩]).Page
        = (utils.GeneratePaginationFromRequest
          [⟨"page".toList, ["2".toList], by decide⟩,
            ⟨"limit".toList, ["5".toList], by decide⟩]).Page :=
  (GeneratePaginationFromRequest_agree
    [⟨"page".toList, ["2".toList], by decide⟩, ⟨"limit".toList, ["5".toList], by decide⟩]).1
    (Or.inr ⟨⟨"limit".toList, ["5".toList], by decide⟩, 5, rfl, rfl, by decide⟩)
    (Or.inr ⟨⟨"page".toList, ["2".toList], by decide⟩, 2, rfl, rfl, by decide⟩)

/-! ## The two slug generators on plain input -/

theorem squeezeHyphens_cons (b : Bool) (c : Char) (cs : List Char) :
    squeezeHyphens b (c :: cs)
      = if c = '-' then (if b then [] else ['-']) ++ squeezeHyphens true cs
        else c :: squeezeHyphens false cs := by
  rw [squeezeHyphens]

theorem squeezeHyphens_replaceScan : ∀ (n : Nat) (t : List Char), t.length ≤ n →
    ∀ b, squeezeHyphens b (replaceScan ['-', '-'] ['-'] 0 t) = squeezeHyphens b t := by
  intro n
  induction n using Nat.strong_induction_on with
  | _ n ih =>
    intro t ht b
    cases t with
    | nil => rfl
    | cons c cs =>
      rw [replaceScan_hyphens_cons]
      by_cases hp : List.isPrefixOf ['-', '-'] (c :: cs) = true
      · rw [if_pos hp]
        cases cs with
        | nil => simp [List.isPrefixOf] at hp
        | cons d rest =>
          have hcd : c = '-' ∧ d = '-' := by
            simp [List.isPrefixOf] at hp
            exact ⟨hp.1.symm, hp.2.symm⟩
          obtain ⟨rfl, rfl⟩ := hcd
          have hskip : replaceScan ['-', '-'] ['-'] 1 ('-' :: rest)
              = replaceScan ['-', '-'] ['-'] 0 rest := by
            rw [replaceScan]
          simp only [List.length_cons] at ht
          rw [hskip, squeezeHyphens_cons, squeezeHyphens_cons b, squeezeHyphens_cons true,
            if_pos rfl, if_pos rfl, ih rest.length (by omega) rest (Nat.le_refl _) true]
          simp
      · rw [if_neg hp]
        simp only [List.length_cons] at ht
        rw [squeezeHyphens_cons, squeezeHyphens_cons b,
          ih cs.length (by omega) cs (Nat.le_refl _) true,
          ih cs.length (by omega) cs (Nat.le_refl _) false]

theorem squeezeHyphens_of_no_double (t : List Char) : ∀ (b : Bool),
    ¬ ['-', '-'] <:+: t → (b = true → t.head? ≠ some '-') → squeezeHyphens b t = t := by
  induction t with
  | nil => intro _ _ _; rfl
  | cons c cs ih =>
    intro b hdd hb
    rw [hyphens_infix_cons] at hdd
    rw [squeezeHyphens_cons]
    by_cases hc : c = '-'
    · subst hc
      have hbf : b = false := by
        cases b with
        | false => rfl
        | true => exact absurd rfl (hb rfl)
      subst hbf
      rw [if_pos rfl, ih true (fun h => hdd (Or.inr h)) (fun _ h => hdd (Or.inl ⟨rfl, h⟩))]
      rfl
    · rw [if_neg hc, ih false (fun h => hdd (Or.inr h)) (fun h => absurd h (by decide))]

theorem collapseHyphens_eq_squeezeHyphens (fuel : Nat) : ∀ (t : List Char), t.length ≤ fuel →
    collapseHyphens fuel t = squeezeHyphens false t := by
  induction fuel with
  | zero =>
    intro t ht
    have : t = [] := List.length_eq_zero.1 (Nat.le_zero.1 ht)
    subst this
    rfl
  | succ f ih =>
    intro t ht
    rw [collapseHyphens]
    by_cases hc : stringsContains t ['-', '-'] = true
    · have hc' : ['-', '-'] <:+: t := by simpa [stringsContains] using hc
      have hlt := length_replaceScan_hyphens_lt t hc'
      rw [if_pos hc, stringsReplaceAll_hyphens, ih _ (by omega)]
      exact squeezeHyphens_replaceScan _ t (Nat.le_refl _) false
    · have hc' : ¬ ['-', '-'] <:+: t := by simpa [stringsContains] using hc
      rw [if_neg hc]
      exact (squeezeHyphens_of_no_double t false hc' (fun h => absurd h (by decide))).symm

theorem replaceScan_space (l : List Char) :
    replaceScan [' '] ['-'] 0 l = l.map (fun c => if c = ' ' then '-' else c) := by
  induction l with
  | nil => rfl
  | cons c cs ih =>
    rw [replaceScan]
    by_cases hc : c = ' '
    · subst hc
      rw [if_pos (by simp [List.isPrefixOf])]
      simp only [List.length_singleton, Nat.sub_self, List.singleton_append, List.map_cons,
        if_true]
      rw [ih]
    · have hc' : ' ' ≠ c := fun e => hc e.symm
      rw [if_neg (by simpa [List.isPrefixOf] using hc'), ih, List.map_cons, if_neg hc]

theorem slugRegexReplaceAll_eq_squeezeHyphens (l : List Char)
    (h : ∀ c ∈ l, IsAlnum c ∨ c = ' ') : ∀ (b : Bool),
    slugRegexReplaceAll ['-'] b l
      = squeezeHyphens b (l.map (fun c => if c = ' ' then '-' else c)) := by
  induction l with
  | nil => intro _; rfl
  | cons c cs ih =>
    intro b
    have ihc := ih (fun d hd => h d (List.mem_cons_of_mem _ hd))
    rw [slugRegexReplaceAll, List.map_cons, squeezeHyphens_cons]
    rcases h c (List.mem_cons_self _ _) with hal | hsp
    · have hcl : slugRegexClass c = false := (slugRegexClass_false_iff c).2 hal
      have hne : c ≠ ' ' := fun e => by
        rw [e] at hal
        exact absurd hal (by decide)
      have hnh : c ≠ '-' := fun e => not_isAlnum_hyphen (e ▸ hal)
      rw [hcl, if_neg (by decide), if_neg hne, if_neg hnh, ihc false]
    · subst hsp
      have hcl : slugRegexClass ' ' = true := by decide
      rw [hcl, if_pos rfl, if_pos rfl, if_pos rfl, ihc true]

theorem unicodeToLower_plain (U : UnicodeTables) (c : Char) (h : IsPlain c) :
    IsAlnum (unicodeToLower U c) ∨ unicodeToLower U c = ' ' := by
  have hA : 'A'.toNat = 65 := rfl
  have hZ : 'Z'.toNat = 90 := rfl
  unfold unicodeToLower
  rw [hA, hZ]
  rcases h with h | h | h | h
  · rw [if_pos (by omega), if_pos h]
    left
    unfold IsAlnum
    rw [toNat_ofNat_of_lt _ (by omega)]
    omega
  · rw [if_pos (by omega), if_neg (by omega)]
    exact Or.inl (Or.inl h)
  · rw [if_pos (by omega), if_neg (by omega)]
    exact Or.inl (Or.inr h)
  · subst h
    right
    rfl

theorem slugEmit_lower_plain (U : UnicodeTables) (c : Char) (h : IsAlnum c ∨ c = ' ') :
    slugEmit U c = [c] := by
  rcases h with h | h
  · have hne : c ≠ '-' := fun e => not_isAlnum_hyphen (e ▸ h)
    rw [slugEmit_slugChar U c ((isSlugChar_iff c).2 (Or.inl h)), if_neg hne]
  · subst h
    rfl

theorem flatMap_slugEmit_lower_plain (U : UnicodeTables) (l : List Char)
    (h : ∀ c ∈ l, IsAlnum c ∨ c = ' ') : l.flatMap (slugEmit U) = l := by
  induction l with
  | nil => rfl
  | cons c cs ih =>
    rw [List.flatMap_cons, slugEmit_lower_plain U c (h c (List.mem_cons_self _ _)),
      ih (fun d hd => h d (List.mem_cons_of_mem _ hd))]
    rfl

/-- C27: on a string made of ASCII letters, ASCII digits and spaces,
`generateSlug` of `models` and `TransformService.GenerateSlug` with the default
separator return the same slug. -/
theorem generateSlug_eq_GenerateSlug (U : UnicodeTables) (s : List Char)
    (h : ∀ c ∈ s, IsPlain c) :
    generateSlug U s = NewTransformService.GenerateSlug U s := by
  have hlow : ∀ c ∈ stringsToLower U s, IsAlnum c ∨ c = ' ' := by
    intro c hc
    unfold stringsToLower at hc
    obtain ⟨d, hd, rfl⟩ := List.mem_map.1 hc
    exact unicodeToLower_plain U d (h d hd)
  have hslug : ∀ c ∈ (stringsToLower U s).map (fun c => if c = ' ' then '-' else c),
      IsSlugChar c := by
    intro c hc
    obtain ⟨d, hd, rfl⟩ := List.mem_map.1 hc
    rcases hlow d hd with hal | hsp
    · have hne : d ≠ ' ' := fun e => by
        rw [e] at hal
        exact absurd hal (by decide)
      rw [if_neg hne]
      exact (isSlugChar_iff d).2 (Or.inl hal)
    · rw [if_pos hsp]
      exact Or.inr (Or.inr rfl)
  have hsep : NewTransformService.slugSeparator = ['-'] := rfl
  rw [generateSlug_eq, flatMap_slugEmit_lower_plain U _ hlow]
  unfold slugFinish TransformService.GenerateSlug
  dsimp only
  have hrep : stringsReplaceAll (stringsToLower U s) [' '] ['-']
      = (stringsToLower U s).map (fun c => if c = ' ' then '-' else c) := by
    unfold stringsReplaceAll
    rw [if_neg (by decide), replaceScan_space]
  rw [hsep, hrep, stringsMap_slugKeep_of_slugChars _ hslug,
    collapseHyphens_eq_squeezeHyphens _ _ (Nat.le_refl _),
    slugRegexReplaceAll_eq_squeezeHyphens _ hlow false]

/-- Witness of C27: the string `Hello  World 42`. -/
theorem generateSlug_eq_GenerateSlug_witness :
    generateSlug plainTables "Hello  World 42".toList
      = NewTransformService.GenerateSlug plainTables "Hello  World 42".toList :=
  generateSlug_eq_GenerateSlug plainTables "Hello  World 42".toList (by decide)

/-! ## The probe loops with the 64-bit counter -/

theorem wrapInt64_natCast (n : Nat) (h : n < 2 ^ 63) : wrapInt64 (n : Int) = n := by
  unfold wrapInt64
  omega

theorem wrapInt64_range (x : Int) : -(2 ^ 63) ≤ wrapInt64 x ∧ wrapInt64 x < 2 ^ 63 := by
  unfold wrapInt64
  omega

/-- The 64-bit loop of `GenerateUniqueSlug` started on candidate `j` with the
counter that follows it: when the next `k` candidates are taken, the one after
them is free and its index is below `2^63`, the loop returns that candidate
after `k + 1` further probes, as soon as it is given more than `k`
iterations. -/
theorem generateUniqueSlugLoop64_run (s : TransformService) (existingSlug : List Char → Bool)
    (b : List Char) (k : Nat) : ∀ (fuel j probes : Nat), j + k < 2 ^ 63 →
    (∀ i < k, existingSlug (candidateWith s.slugSeparator b (j + i)) = true) →
    existingSlug (candidateWith s.slugSeparator b (j + k)) = false →
    Int64Counter.generateUniqueSlugLoop s existingSlug b fuel (candidateWith s.slugSeparator b j)
        (wrapInt64 ((j + 1 : Nat) : Int)) probes
      = if k < fuel then some (candidateWith s.slugSeparator b (j + k), probes + k + 1)
        else none := by
  induction k with
  | zero =>
    intro fuel j probes _ _ hfree
    cases fuel with
    | zero => rfl
    | succ f =>
      rw [Int64Counter.generateUniqueSlugLoop, if_neg (by simpa using hfree),
        if_pos (Nat.succ_pos f)]
      rfl
  | succ k ih =>
    intro fuel j probes hj htaken hfree
    cases fuel with
    | zero => rfl
    | succ f =>
      have h0 : existingSlug (candidateWith s.slugSeparator b j) = true := by
        simpa using htaken 0 (Nat.succ_pos k)
      have hw : wrapInt64 ((j + 1 : Nat) : Int) = ((j + 1 : Nat) : Int) :=
        wrapInt64_natCast (j + 1) (by omega)
      have hj1 : j + 1 + k < 2 ^ 63 := by omega
      clear hj
      have hnext := ih f (j + 1) (probes + 1) hj1
        (fun i hi => by
          have := htaken (i + 1) (Nat.succ_lt_succ hi)
          rwa [show j + (i + 1) = j + 1 + i by omega] at this)
        (by rw [show j + (k + 1) = j + 1 + k by omega] at hfree; exact hfree)
      clear hj1
      rw [Int64Counter.generateUniqueSlugLoop, if_pos h0, hw, ← candidateWith_succ,
        show ((j + 1 : Nat) : Int) + 1 = ((j + 1 + 1 : Nat) : Int) from rfl, hnext]
      by_cases hk : k < f
      · rw [if_pos hk, if_pos (Nat.succ_lt_succ hk),
          show j + 1 + k = j + (k + 1) by omega,
          show probes + 1 + k + 1 = probes + (k + 1) + 1 by omega]
      · rw [if_neg hk, if_neg (fun h => hk (Nat.lt_of_succ_lt_succ h))]

theorem beforeCreateLoop64_eq (tx : List Post) (existingSlug : List Char → Bool)
    (h : ∀ x, countSlug tx x ≠ 0 ↔ existingSlug x = true) (b : List Char) :
    ∀ (fuel : Nat) (slug : List Char) (counter : Int) (probes : Nat),
    Int64Counter.beforeCreateLoop tx b fuel slug counter probes
      = Int64Counter.generateUniqueSlugLoop NewTransformService existingSlug b fuel slug
          counter probes := by
  intro fuel
  induction fuel with
  | zero => intro _ _ _; rfl
  | succ f ih =>
    intro slug counter probes
    rw [Int64Counter.beforeCreateLoop, Int64Counter.generateUniqueSlugLoop]
    by_cases hc : countSlug tx slug = 0
    · have he : ¬ existingSlug slug = true := fun e => (h slug).2 e hc
      rw [if_pos hc, if_neg he]
    · have he : existingSlug slug = true := (h slug).1 hc
      rw [if_neg hc, if_pos he, ih]
      rfl

/-- The 64-bit loop of `GenerateUniqueSlug` from its start. -/
theorem generateUniqueSlugLoop64_start (existingSlug : List Char → Bool) (b : List Char)
    (k fuel : Nat) (hk : k < 2 ^ 63)
    (htaken : ∀ j < k, existingSlug (slugCandidate b j) = true)
    (hfree : existingSlug (slugCandidate b k) = false) :
    Int64Counter.generateUniqueSlugLoop NewTransformService existingSlug b fuel b 1 0
      = if k < fuel then some (slugCandidate b k, k + 1) else none := by
  have h := generateUniqueSlugLoop64_run NewTransformService existingSlug b k fuel 0 0
    (by omega)
    (fun i hi => by
      rw [Nat.zero_add, ← slugCandidate_eq]
      exact htaken i hi)
    (by rw [Nat.zero_add, ← slugCandidate_eq]; exact hfree)
  have h0 : candidateWith NewTransformService.slugSeparator b 0 = b := rfl
  have h1 : wrapInt64 ((0 + 1 : Nat) : Int) = 1 := by decide
  rw [h0, h1, Nat.zero_add, ← slugCandidate_eq] at h
  exact h

/-- The 64-bit loop never ends when the start slug and the candidate of every
value of the counter are taken. -/
theorem generateUniqueSlugLoop64_none (s : TransformService) (existingSlug : List Char → Bool)
    (b : List Char)
    (h : ∀ c : Int, -(2 ^ 63) ≤ c → c < 2 ^ 63 →
      existingSlug (b ++ s.slugSeparator ++ strconvItoa c) = true) :
    ∀ (fuel : Nat) (slug : List Char) (counter : Int) (probes : Nat),
    existingSlug slug = true → -(2 ^ 63) ≤ counter → counter < 2 ^ 63 →
    Int64Counter.generateUniqueSlugLoop s existingSlug b fuel slug counter probes = none := by
  intro fuel
  induction fuel with
  | zero => intro _ _ _ _ _ _; rfl
  | succ f ih =>
    intro slug counter probes hs h1 h2
    rw [Int64Counter.generateUniqueSlugLoop, if_pos hs]
    exact ih _ _ _ (h counter h1 h2) (wrapInt64_range _).1 (wrapInt64_range _).2

theorem strconvItoa_eq_natCast (c : Int) (n : Nat)
    (h : strconvItoa c = strconvItoa (n : Int)) : c = n := by
  by_cases hc : c < 0
  · have hm : '-' ∈ strconvItoa (n : Int) := by
      rw [← h]
      unfold strconvItoa
      rw [if_pos hc]
      exact List.mem_cons_self _ _
    exact absurd ((strconvItoa_digits n).2 _ hm) (by decide)
  · obtain ⟨m, rfl⟩ : ∃ m : Nat, c = (m : Int) := ⟨c.toNat, by omega⟩
    rw [strconvItoa_natCast, strconvItoa_natCast] at h
    have hv := congrArg decimalValue h
    have e1 : decimalValue (Nat.toDigits 10 m) = m :=
      decimalValue_toDigitsCore (m + 1) m (Nat.lt_succ_self m)
    have e2 : decimalValue (Nat.toDigits 10 n) = n :=
      decimalValue_toDigitsCore (n + 1) n (Nat.lt_succ_self n)
    rw [e1, e2] at hv
    rw [hv]

theorem slugCandidate_ne (b : List Char) (j k : Nat) (h : j ≠ k) (hk : k ≠ 0) :
    slugCandidate b j ≠ slugCandidate b k := by
  unfold slugCandidate
  rw [if_neg hk]
  by_cases hj : j = 0
  · rw [if_pos hj]
    intro e
    have := congrArg List.length e
    simp at this
  · rw [if_neg hj]
    intro e
    rw [List.append_assoc, List.append_assoc] at e
    have e1 := List.append_cancel_left (List.append_cancel_left e)
    have := strconvItoa_eq_natCast _ _ e1
    exact h (by exact_mod_cast this)

/-- C5, counterexample: let `existsFn` be false only at `a-9223372036854775808`,
candidate `2^63` of `GenerateUniqueSlug("a", existsFn)`.  The candidates
before it are taken and it is free, but the loop never probes it: after
candidate `2^63 - 1` the 64-bit counter is `-2^63`, and every candidate that
the loop makes is taken, so the loop is still running after any number of
iterations. -/
theorem GenerateUniqueSlug_counter_wraps :
    (∀ j < 2 ^ 63, (fun x => decide (x ≠ "a-9223372036854775808".toList))
        (slugCandidate (NewTransformService.GenerateSlug plainTables "a".toList) j) = true)
      ∧ (fun x => decide (x ≠ "a-9223372036854775808".toList))
          (slugCandidate (NewTransformService.GenerateSlug plainTables "a".toList) (2 ^ 63))
        = false
      ∧ ∀ fuel, Int64Counter.GenerateUniqueSlug NewTransformService plainTables "a".toList
          (fun x => decide (x ≠ "a-9223372036854775808".toList)) fuel = none := by
  have hb : NewTransformService.GenerateSlug plainTables "a".toList = ['a'] := by decide
  have ht : "a-9223372036854775808".toList = slugCandidate ['a'] (2 ^ 63) := by decide
  rw [hb, ht]
  refine ⟨?_, ?_, ?_⟩
  · intro j hj
    exact decide_eq_true (slugCandidate_ne _ _ _ (by omega) (by norm_num))
  · simp
  · intro fuel
    unfold Int64Counter.GenerateUniqueSlug
    rw [hb, generateUniqueSlugLoop64_none]
    · rfl
    · intro c h1 h2
      refine decide_eq_true ?_
      have hs : NewTransformService.slugSeparator = ['-'] := rfl
      unfold slugCandidate
      rw [hs, if_neg (by norm_num)]
      intro e
      rw [List.append_assoc, List.append_assoc] at e
      have e1 := List.append_cancel_left (List.append_cancel_left e)
      have := strconvItoa_eq_natCast _ _ e1
      rw [this] at h2
      exact absurd h2 (by norm_num)
    · exact decide_eq_true (slugCandidate_ne _ 0 _ (by norm_num) (by norm_num))
    · norm_num
    · norm_num

/-- C5, amended: the probe loops have no retry cap and no exhaustion error.
When candidate `k` is the first free one of `b`, `b-1`, `b-2`, … and
`k < 2^63`, `GenerateUniqueSlug` returns candidate `k` once it is allowed more
than `k` iterations and is still running after `k` iterations or fewer, and its
loop has then called `existsFn` exactly `k + 1` times; `Post.BeforeCreate` on a
post without slug does the same with its `Count` query, and sets the slug to
candidate `k`.  The counter is the 64-bit `int` of Go. -/
theorem slug_probe_loop_int64 (U : UnicodeTables) (text : List Char)
    (existingSlug : List Char → Bool) (p : Post) (tx : List Post) (k fuel : Nat)
    (hk : k < 2 ^ 63) :
    ((∀ j < k,
          existingSlug (slugCandidate (NewTransformService.GenerateSlug U text) j) = true) →
        existingSlug (slugCandidate (NewTransformService.GenerateSlug U text) k) = false →
        Int64Counter.GenerateUniqueSlug NewTransformService U text existingSlug fuel
            = (if k < fuel
                then some (slugCandidate (NewTransformService.GenerateSlug U text) k)
                else none)
          ∧ Int64Counter.generateUniqueSlugLoop NewTransformService existingSlug
              (NewTransformService.GenerateSlug U text) fuel
              (NewTransformService.GenerateSlug U text) 1 0
            = (if k < fuel
                then some (slugCandidate (NewTransformService.GenerateSlug U text) k, k + 1)
                else none))
      ∧ (p.Slug = [] →
          (∀ j < k, countSlug tx (slugCandidate (generateSlug U p.Title) j) ≠ 0) →
          countSlug tx (slugCandidate (generateSlug U p.Title) k) = 0 →
          Int64Counter.BeforeCreate U p tx fuel
              = (if k < fuel
                  then some { p with Slug := slugCandidate (generateSlug U p.Title) k }
                  else none)
            ∧ Int64Counter.beforeCreateLoop tx (generateSlug U p.Title) fuel
                (generateSlug U p.Title) 1 0
              = (if k < fuel then some (slugCandidate (generateSlug U p.Title) k, k + 1)
                  else none)) := by
  constructor
  · intro htaken hfree
    have h := generateUniqueSlugLoop64_start existingSlug
      (NewTransformService.GenerateSlug U text) k fuel hk htaken hfree
    refine ⟨?_, h⟩
    unfold Int64Counter.GenerateUniqueSlug
    rw [h]
    by_cases hf : k < fuel
    · rw [if_pos hf, if_pos hf]
      rfl
    · rw [if_neg hf, if_neg hf]
      rfl
  · intro hs htaken hfree
    have h := generateUniqueSlugLoop64_start (fun x => decide (countSlug tx x ≠ 0))
      (generateSlug U p.Title) k fuel hk
      (fun j hj => decide_eq_true (htaken j hj))
      (decide_eq_false (by rw [hfree]; exact fun h => h rfl))
    rw [← beforeCreateLoop64_eq tx (fun x => decide (countSlug tx x ≠ 0))
      (fun x => by simp)] at h
    refine ⟨?_, h⟩
    unfold Int64Counter.BeforeCreate
    rw [if_pos hs, h]
    by_cases hf : k < fuel
    · rw [if_pos hf, if_pos hf]
      rfl
    · rw [if_neg hf, if_neg hf]
      rfl

/-- Witness of C5: with `post` and `post-1` taken, `GenerateUniqueSlug("post", …)`
returns `post-2` after three probes. -/
theorem slug_probe_loop_int64_witness :
    Int64Counter.GenerateUniqueSlug NewTransformService plainTables "post".toList
        (fun x => decide (x = "post".toList ∨ x = "post-1".toList)) 5
        = (if 2 < 5
            then some (slugCandidate
              (NewTransformService.GenerateSlug plainTables "post".toList) 2)
            else none)
      ∧ Int64Counter.generateUniqueSlugLoop NewTransformService
          (fun x => decide (x = "post".toList ∨ x = "post-1".toList))
          (NewTransformService.GenerateSlug plainTables "post".toList) 5
          (NewTransformService.GenerateSlug plainTables "post".toList) 1 0
        = (if 2 < 5
            then some (slugCandidate
              (NewTransformService.GenerateSlug plainTables "post".toList) 2, 2 + 1)
            else none) :=
  (slug_probe_loop_int64 plainTables "post".toList
    (fun x => decide (x = "post".toList ∨ x = "post-1".toList))
    ⟨0, [], [], [], 0, false⟩ [] 2 5 (by norm_num)).1
    (fun j hj => by
      have : j = 0 ∨ j = 1 := by omega
      rcases this with h | h <;> subst h <;> decide)
    (by decide)

end ApiGo
